import Mathlib

/-!
Bottom-use traversal of the SSA value graph

A shallow embedding of `common/yak/ssaapi/exclusive_z_bottom_use.go`:
`Value.GetBottomUses`, `Value.visitUserFallback` and `Value.getBottomUses`.

The Go code mutates one `*AnalyzeContext` shared by all recursive calls; here
the context is passed in and returned.  The recursion of `getBottomUses` is
not bounded by the source when `MaxDepth` is `0`, so the embedding carries a
fuel argument that counts nested invocations: `none` stands for an invocation
that does not return normally (fuel exhausted, or a nil dereference in the
source).

The file also embeds the control-flow builders of
`common/yak/ssa/ssautil/cfg.go` (namespace `Ssautil`), the option setters,
`ParseFromReader` and `Program.Feed` of `common/yak/ssaapi/ssa_exports.go`,
and the list methods of `common/syntaxflow/sfvm/value_list.go` (namespace
`Sfvm`).  Definitions come first, theorems after them.
-/

namespace Ssaapi

/-- A pointer to an `ssa` node of the value graph. -/
abbrev Ref := Nat

/-- Modelled from the spec: the kinds of `ssa.Undefined`, declared in package
`ssa`; `visitUserFallback` tells the two member kinds from the others. -/
inductive UndefinedKind where
  | UndefinedValueInValid
  | UndefinedValueValid
  | UndefinedMemberInValid
  | UndefinedMemberValid
deriving DecidableEq, Repr

/-- Modelled from the spec: the node types of package `ssa` that `getBottomUses`
dispatches on, each with the fields the traversal reads. -/
inductive Instruction where
  | LazyInstruction (Self : Ref)
  | Phi
  | Call (Method : Option Ref) (Args : List Ref)
  | Return (Func : Option Ref) (Results : List Ref)
  | Function (Param : List Ref) (Return : List Ref)
  | Undefined (Kind : UndefinedKind)
  | Other
deriving DecidableEq, Repr

/-- Modelled from the spec: the capability interface of graph nodes (section 6),
whose implementation in package `ssa` is not part of the sources at hand.
Every field is a read-only query on the externally owned value graph. -/
structure Graph where
  /-- The node stored at a pointer. -/
  instr : Ref → Instruction
  /-- The `GetId()` of a node. -/
  GetId : Ref → Int
  /-- The `GetUsers()` of a node, in order. -/
  GetUsers : Ref → List Ref
  /-- The `IsMember()` of a node. -/
  IsMember : Ref → Bool
  /-- The `GetObject()` of a member node. -/
  GetObject : Ref → Ref
  /-- The `GetKey()` of a member node. -/
  GetKey : Ref → Ref
  /-- The `GetCalledBy()` of a function: its call sites, in order. -/
  GetCalledBy : Ref → List Ref
  /-- The `IsObject()` of a call node. -/
  IsObject : Ref → Bool
  /-- The `GetIndexMember(idx)` of a call node. -/
  GetIndexMember : Ref → Nat → Option Ref

/-- Modelled from the spec: the `ssaapi.Value` wrapper, a node, the chain of
values it was reached from, and the depth recorded by `SetDepth`. -/
structure Value where
  node : Ref
  DependOn : List Ref
  depth : Int
deriving DecidableEq, Repr

abbrev Values := List Value

/-- Modelled from the spec: `NewValue`, a fresh wrapper around a node. -/
def NewValue (n : Ref) : Value := { node := n, DependOn := [], depth := 0 }

/-- Modelled from the spec: `Value.AppendDependOn`, "`u` extended to depend on `v`". -/
def Value.AppendDependOn (u v : Value) : Value :=
  { u with DependOn := u.DependOn ++ [v.node] }

/-- Modelled from the spec: `Value.SetDepth`, which records the traversal depth. -/
def Value.SetDepth (v : Value) (d : Int) : Value := { v with depth := d }

/-- Modelled from the spec: `Value.GetId`, the identity of the wrapped node. -/
def Value.GetId (G : Graph) (v : Value) : Int := G.GetId v.node

/-- The ids of the values a value depends on (`v.DependOn.ForEach ... GetId()`). -/
def Value.dependIds (G : Graph) (v : Value) : List Int := v.DependOn.map G.GetId

/-- Modelled from the spec: `Value.GetUsers`, fresh wrappers of the node's users. -/
def Value.GetUsers (G : Graph) (v : Value) : Values := (G.GetUsers v.node).map NewValue

/-- Modelled from the spec: the recognised options of a query (section 6).
The hook returns `some msg` for an error and `none` for nil. -/
structure OperationConfig where
  MaxDepth : Int
  MinDepth : Int
  HookEveryNode : Option (Value → Option String)

/-- Modelled from the spec: an entry of the object stack, an (object, key)
pair with the member that was entered. -/
structure ObjectItem where
  object : Value
  key : Value
  member : Value
deriving DecidableEq, Repr

/-- Modelled from the spec: the Analyze Context (section 3). Both stacks have
their top at the head of the list. -/
structure AnalyzeContext where
  Self : Option Value
  callStack : List Value
  objectStack : List ObjectItem
  visitedPhi : List Int
  config : OperationConfig
  depth : Int

/-- Modelled from the spec: `NewAnalyzeContext`, the fresh context of a query;
the option list is represented by the configuration it produces. -/
def NewAnalyzeContext (cfg : OperationConfig) : AnalyzeContext :=
  { Self := none, callStack := [], objectStack := [], visitedPhi := [],
    config := cfg, depth := 0 }

/-- Modelled from the spec: `ValueCompare`, "same identity and dependency path". -/
def ValueCompare (G : Graph) (v : Value) (s : Option Value) : Bool :=
  match s with
  | none => false
  | some w => decide (v.GetId G = w.GetId G) && decide (v.dependIds G = w.dependIds G)

/-- Modelled from the spec: `Value.IsCall`, whether a value wraps a call node. -/
def Value.IsCall (G : Graph) (v : Value) : Bool :=
  match G.instr v.node with
  | Instruction.Call _ _ => true
  | _ => false

/-- Modelled from the spec: whether a call with the same id is on the call stack. -/
def AnalyzeContext.IsExistedInCallStack (G : Graph) (a : AnalyzeContext) (v : Value) : Bool :=
  a.callStack.any (fun c => decide (c.GetId G = v.GetId G))

/-- Modelled from the spec: `TheCallShouldBeVisited`, false when "this call is
already on `call_stack`". -/
def AnalyzeContext.TheCallShouldBeVisited (G : Graph) (a : AnalyzeContext) (v : Value) : Bool :=
  !a.IsExistedInCallStack G v

/-- Modelled from the spec: `PushCall`. The call stack is a "sequence of
call-sites" that "guards re-entrant calls": pushing anything but a call, or a
call already on the stack, is refused with an error. -/
def AnalyzeContext.PushCall (G : Graph) (a : AnalyzeContext) (v : Value) :
    Except String AnalyzeContext :=
  if !v.IsCall G then Except.error "call stack cannot receive a non-call"
  else if a.IsExistedInCallStack G v then Except.error "call is existed on call stack"
  else Except.ok { a with callStack := v :: a.callStack }

/-- Modelled from the spec: `PopCall`, the pop paired with `PushCall`. -/
def AnalyzeContext.PopCall (a : AnalyzeContext) : AnalyzeContext :=
  { a with callStack := a.callStack.tail }

/-- Modelled from the spec: `GetCurrentCall`, the top of the call stack. -/
def AnalyzeContext.GetCurrentCall (a : AnalyzeContext) : Option Value := a.callStack.head?

/-- Modelled from the spec: `ThePhiShouldBeVisited`, false when the phi's
identity is in `visited_phis`. -/
def AnalyzeContext.ThePhiShouldBeVisited (G : Graph) (a : AnalyzeContext) (v : Value) : Bool :=
  !a.visitedPhi.contains (v.GetId G)

/-- Modelled from the spec: `VisitPhi`, "mark visited". -/
def AnalyzeContext.VisitPhi (G : Graph) (a : AnalyzeContext) (v : Value) : AnalyzeContext :=
  { a with visitedPhi := v.GetId G :: a.visitedPhi }

/-- Modelled from the spec: `TheMemberShouldBeVisited`, false when the member's
(object, key) pair is already on the object stack. -/
def AnalyzeContext.TheMemberShouldBeVisited (G : Graph) (a : AnalyzeContext) (v : Value) : Bool :=
  !a.objectStack.any (fun it =>
    decide (it.object.GetId G = G.GetId (G.GetObject v.node)) &&
    decide (it.key.GetId G = G.GetId (G.GetKey v.node)))

/-- Modelled from the spec: `PushObject`; the source ignores its result. -/
def AnalyzeContext.PushObject (a : AnalyzeContext) (obj key member : Value) : AnalyzeContext :=
  { a with objectStack := { object := obj, key := key, member := member } :: a.objectStack }

/-- Modelled from the spec: `PopObject`, the pop paired with `PushObject`. -/
def AnalyzeContext.PopObject (a : AnalyzeContext) : AnalyzeContext :=
  { a with objectStack := a.objectStack.tail }

/-- Modelled from the spec: `Value.IsMember`, the capability `IsMember()`. -/
def Value.IsMember (G : Graph) (v : Value) : Bool := G.IsMember v.node

/-- Modelled from the spec: `Value.GetObject`, a fresh wrapper of `Object()`. -/
def Value.GetObject (G : Graph) (v : Value) : Value := NewValue (G.GetObject v.node)

/-- Modelled from the spec: `Value.GetKey`, a fresh wrapper of `Key()`. -/
def Value.GetKey (G : Graph) (v : Value) : Value := NewValue (G.GetKey v.node)

/-- Modelled from the spec: `ssa.ToFunction`, which succeeds on a function node
and gives access to its parameters and return statements. -/
def ToFunction (G : Graph) (m : Ref) : Option (List Ref × List Ref) :=
  match G.instr m with
  | Instruction.Function ps rs => some (ps, rs)
  | _ => none

/-- The library function `lo.UniqBy`: a new list that keeps the first element
of every key, in order; the second argument holds the keys already seen. -/
def UniqBy {α κ : Type} [DecidableEq κ] (key : α → κ) : List α → List κ → List α
  | [], _ => []
  | x :: xs, seen =>
    if key x ∈ seen then UniqBy key xs seen else x :: UniqBy key xs (key x :: seen)

/-- The library function `lo.Max` on ints: the zero value for an empty collection. -/
def loMax : List Nat → Nat
  | [] => 0
  | x :: xs => xs.foldl (fun m y => if y > m then y else m) x

/-- The result of one invocation: the returned values and the context after it. -/
abbrev Outcome := Option (Values × AnalyzeContext)

/-- Runs `f` on every element from left to right on the shared context and
appends each result to the accumulated values (`vals = append(vals, ret...)`). -/
def collect {α : Type} (f : α → AnalyzeContext → Outcome) :
    List α → Values → AnalyzeContext → Outcome
  | [], vals, a => some (vals, a)
  | x :: xs, vals, a =>
    match f x a with
    | none => none
    | some (ret, a1) => collect f xs (vals ++ ret) a1

/-- Modelled from the spec: `Value.GetCalledBy`, fresh wrappers of the call
sites of a function. -/
def Value.GetCalledBy (G : Graph) (v : Value) : Values := (G.GetCalledBy v.node).map NewValue

/-- Modelled from the spec: `omap.OrderedMap.Set` on an insertion-ordered map
keyed by id: a new key goes to the end, a key already present keeps its place
and takes the new value. -/
def omapSet (m : List (Int × Ref)) (k : Int) (p : Ref) : List (Int × Ref) :=
  if m.any (fun e => decide (e.1 = k)) then
    m.map (fun e => if e.1 = k then (k, p) else e)
  else m ++ [(k, p)]

/-- The positions of the call's arguments whose id is among the ids `v`
depends on (lines 125-134). -/
def formalParamsIndex (G : Graph) (v : Value) (Args : List Ref) : List Nat :=
  (Args.enum.filter (fun p => decide (G.GetId p.2 ∈ v.dependIds G))).map Prod.fst

/-- The formal parameters selected for traversal (lines 135-148): every formal
whose index is a matched position, then the last formal when the largest
matched position is beyond the formals. -/
def selectParams (G : Graph) (Param : List Ref) (idxs : List Nat) : List (Int × Ref) :=
  let params := Param.enum.foldl
    (fun m p => idxs.foldl
      (fun m i => if p.1 = i then omapSet m (G.GetId p.2) p.2 else m) m) []
  if loMax idxs ≥ Param.length ∧ Param.length > 0 then
    match Param.getLast? with
    | some last => omapSet params (G.GetId last) last
    | none => params
  else params

/-- The deferred `actx.depth--` of `getBottomUses`. -/
def deferDepth (r : Outcome) : Outcome :=
  r.map (fun p => (p.1, { p.2 with depth := p.2.depth - 1 }))

/-- The deferred `actx.PopCall()`. -/
def deferPopCall (r : Outcome) : Outcome :=
  r.map (fun p => (p.1, p.2.PopCall))

/-- The method `Value.visitUserFallback` (lines 22-47); `recur` is `getBottomUses`.
Appending an empty result leaves `vals` unchanged, so the source's test
`len(ret) > 0` before `append` is not repeated. -/
def visitUserFallback (G : Graph) (recur : Value → AnalyzeContext → Outcome)
    (v : Value) (actx : AnalyzeContext) : Outcome :=
  match collect (fun value a => recur (value.AppendDependOn v) a) (v.GetUsers G) [] actx with
  | none => none
  | some (vals, a1) =>
    let undefineMember : Bool :=
      match G.instr v.node with
      | Instruction.Undefined k =>
        decide (k = UndefinedKind.UndefinedMemberInValid ∨ k = UndefinedKind.UndefinedMemberValid)
      | _ => false
    let r : Outcome :=
      if v.IsMember G ∧ undefineMember = false ∧ a1.TheMemberShouldBeVisited G v then
        let obj := v.GetObject G
        match recur obj (a1.PushObject obj (v.GetKey G) v) with
        | none => none
        | some (ret, a2) => some (vals ++ ret, a2.PopObject)
      else some (vals, a1)
    match r with
    | none => none
    | some (vals, a3) => if vals.length ≤ 0 then some ([v], a3) else some (vals, a3)

/-- The `*ssa.Call` case of `getBottomUses` (lines 89-165). -/
def callCase (G : Graph) (recur : Value → AnalyzeContext → Outcome)
    (v : Value) (actx : AnalyzeContext) (Method : Option Ref) (Args : List Ref) : Outcome :=
  if actx.TheCallShouldBeVisited G v = false then visitUserFallback G recur v actx
  else
    match Method with
    | none => visitUserFallback G recur v actx
    | some m =>
      match ToFunction G m with
      | none => visitUserFallback G recur v actx
      | some (Param, Return) =>
        let funcValue := (NewValue m).AppendDependOn v
        if ValueCompare G funcValue actx.Self then visitUserFallback G recur v actx
        else
          match actx.PushCall G v with
          | Except.error _ => visitUserFallback G recur v actx
          | Except.ok a1 =>
            deferPopCall
              (let params := selectParams G Param (formalParamsIndex G v Args)
               if params.length > 0 then
                 collect (fun formalParam a =>
                     recur ((NewValue formalParam).AppendDependOn funcValue) a)
                   (params.map Prod.snd) [] a1
               else
                 some (Return.map (fun retStmt => (NewValue retStmt).AppendDependOn funcValue), a1))

/-- The closure `fallback` of the `*ssa.Return` case (lines 168-191). The
deferred `PopCall` runs when the callback of `ForEach` returns, once per call
site that was pushed. -/
def returnFallback (G : Graph) (recur : Value → AnalyzeContext → Outcome)
    (v : Value) (actx : AnalyzeContext) (Func : Option Ref) (Results : List Ref) : Outcome :=
  let r : Outcome :=
    match Func with
    | none => some ([], actx)
    | some f =>
      collect (fun value a =>
          let dep := value.AppendDependOn v
          match a.PushCall G dep with
          | Except.error _ => recur dep a
          | Except.ok a1 => deferPopCall (recur dep a1))
        ((NewValue f).GetCalledBy G) [] actx
  match r with
  | none => none
  | some (results, a2) =>
    if results.length > 0 then some (results, a2)
    else some (Results.map (fun result => (NewValue result).AppendDependOn v), a2)

/-- The `*ssa.Return` case of `getBottomUses` (lines 166-251). A current call
that is not a call node makes the source dereference nil: no outcome. -/
def returnCase (G : Graph) (recur : Value → AnalyzeContext → Outcome)
    (v : Value) (actx : AnalyzeContext) (Func : Option Ref) (Results : List Ref) : Outcome :=
  if actx.callStack.length > 0 then
    let indexes : List Nat :=
      (Results.enum.filter (fun p => decide (G.GetId p.2 ∈ v.dependIds G))).map Prod.fst
    match actx.GetCurrentCall with
    | none => returnFallback G recur v actx Func Results
    | some currentCallValue =>
      match G.instr currentCallValue.node with
      | Instruction.Call Method _ =>
        match Method.bind (ToFunction G) with
        | none => returnFallback G recur v actx Func Results
        | some _ =>
          let call := currentCallValue.node
          if G.IsObject call = false ∨ indexes.length ≤ 0 then
            match collect (fun user a =>
                recur ((user.AppendDependOn currentCallValue).AppendDependOn v) a)
                ((NewValue call).GetUsers G) [] actx with
            | none => none
            | some (vals, a1) =>
              if vals.length > 0 then some (vals, a1)
              else recur ((NewValue call).AppendDependOn v) a1
          else
            match collect (fun idx a =>
                match G.GetIndexMember call idx with
                | none => some ([], a)
                | some indexedReturn =>
                  let returnReceiver := NewValue indexedReturn
                  match recur ((returnReceiver.AppendDependOn returnReceiver).AppendDependOn v)
                      (a.PushObject currentCallValue (returnReceiver.GetKey G) returnReceiver) with
                  | none => none
                  | some (newVals, a1) => some (newVals, a1.PopObject))
                indexes [] actx with
            | none => none
            | some (vals, a1) =>
              if vals.length > 0 then some (vals, a1)
              else recur ((NewValue call).AppendDependOn v) a1
      | _ => none
  else returnFallback G recur v actx Func Results

/-- The kind dispatch of `getBottomUses` after the hook (lines 73-253). -/
def dispatch (G : Graph) (recur : Value → AnalyzeContext → Outcome)
    (v : Value) (actx : AnalyzeContext) : Outcome :=
  if ValueCompare G v actx.Self then visitUserFallback G recur v actx
  else
    match G.instr v.node with
    | Instruction.LazyInstruction self => recur { v with node := self } actx
    | Instruction.Phi =>
      if actx.ThePhiShouldBeVisited G v = false then some ([], actx)
      else visitUserFallback G recur v (actx.VisitPhi G v)
    | Instruction.Call Method Args => callCase G recur v actx Method Args
    | Instruction.Return Func Results => returnCase G recur v actx Func Results
    | _ => visitUserFallback G recur v actx

/-- One invocation of `Value.getBottomUses` (lines 49-254) on a non-nil
context, with `recur` for its recursive calls. An error of the hook is only
logged. -/
def getBottomUsesBody (G : Graph) (recur : Value → AnalyzeContext → Outcome)
    (v0 : Value) (actx0 : AnalyzeContext) : Outcome :=
  let actx : AnalyzeContext := { actx0 with depth := actx0.depth + 1 }
  let v := v0.SetDepth actx.depth
  deferDepth
    (if actx.config.MaxDepth > 0 ∧ actx.depth > actx.config.MaxDepth then some ([], actx)
     else if actx.config.MinDepth < 0 ∧ actx.depth < actx.config.MinDepth then some ([], actx)
     else
       match actx.config.HookEveryNode with
       | none => dispatch G recur v actx
       | some hook =>
         match hook v with
         | some _ => dispatch G recur v actx
         | none => dispatch G recur v actx)

/-- The method `Value.getBottomUses`; the first argument bounds the nesting of invocations. -/
def getBottomUses (G : Graph) : Nat → Value → AnalyzeContext → Outcome
  | 0 => fun _ _ => none
  | n + 1 => getBottomUsesBody G (getBottomUses G n)

/-- The method `Value.GetBottomUses` (lines 12-20): the result of `lo.UniqBy` is computed
and dropped, `ret` is what is returned. -/
def GetBottomUses (G : Graph) (fuel : Nat) (v : Value) (cfg : OperationConfig) : Option Values :=
  let actx : AnalyzeContext := { NewAnalyzeContext cfg with Self := some v }
  match getBottomUses G fuel v actx with
  | none => none
  | some (ret, _) =>
    match UniqBy (fun item : Value => item.GetId G) ret [] with
    | _ => some ret

/-- Whether argument position `i` of the call holds a value whose id is among
the ids of `v`'s depend-on chain. -/
def argMatched (G : Graph) (v : Value) (Args : List Ref) (i : Nat) : Bool :=
  match Args[i]? with
  | some a => decide (G.GetId a ∈ v.dependIds G)
  | none => false

/-- The formals the specification selects for a call with arguments `Args` to
a callee with formals `Param`: `Param[i]` for every matched position
`i < n`, and the last formal when some matched position is `≥ n`; in the
order of `Param`, each once. -/
def selectedFormals (G : Graph) (v : Value) (Args Param : List Ref) : List Ref :=
  (Param.enum.filter (fun p =>
      argMatched G v Args p.1 ||
      (decide (p.1 + 1 = Param.length) &&
        (List.range Args.length).any
          (fun i => decide (Param.length ≤ i) && argMatched G v Args i)))).map Prod.snd

/-- The part of the context that an invocation must hand back unchanged. -/
structure Frame (c c' : AnalyzeContext) : Prop where
  depthEq : c'.depth = c.depth
  callEq : c'.callStack = c.callStack
  objEq : c'.objectStack = c.objectStack
  cfgEq : c'.config = c.config
  selfEq : c'.Self = c.Self
  phiSub : ∀ i ∈ c.visitedPhi, i ∈ c'.visitedPhi

/-- A callee that, whenever it returns, hands the frame back. -/
def Restores (recur : Value → AnalyzeContext → Outcome) : Prop :=
  ∀ v c vals c', recur v c = some (vals, c') → Frame c c'

/-- Every entry of the call stack wraps a call node. -/
def CallsOnly (G : Graph) (c : AnalyzeContext) : Prop :=
  ∀ x ∈ c.callStack, x.IsCall G = true

/-- What the recursive invocations at depth `k` of one query share. -/
structure Inv (G : Graph) (k : Int) (cfg : OperationConfig) (c : AnalyzeContext) : Prop where
  calls : CallsOnly G c
  depthEq : c.depth = k
  cfgEq : c.config = cfg

/-- The context with the hook of its configuration replaced. -/
def setHook (h : Option (Value → Option String)) (c : AnalyzeContext) : AnalyzeContext :=
  { c with config := { c.config with HookEveryNode := h } }

/-- The outcome with the hook of the returned context replaced. -/
def liftHook (h : Option (Value → Option String)) (r : Outcome) : Outcome :=
  r.map (fun p => (p.1, setHook h p.2))

/-- A graph without members, objects or recorded call sites, in which every
node's id is its pointer. -/
def plainGraph (instr : Ref → Instruction) (users : Ref → List Ref) : Graph :=
  { instr := instr, GetId := fun r => (r : Int), GetUsers := users,
    IsMember := fun _ => false, GetObject := fun _ => 0, GetKey := fun _ => 0,
    GetCalledBy := fun _ => [], IsObject := fun _ => false,
    GetIndexMember := fun _ _ => none }

/-- A configuration without depth bounds and without hook. -/
def unbounded : OperationConfig := { MaxDepth := 0, MinDepth := 0, HookEveryNode := none }

/-- Value 1 is used by 2 and by 3, and both are used by 4. -/
def diamondGraph : Graph :=
  plainGraph (fun _ => Instruction.Other)
    (fun r => match r with
      | 1 => [2, 3]
      | 2 => [4]
      | 3 => [4]
      | _ => [])

/-- The diamond with a phi at the join: 1 is used by 2 and 3, both feed the
phi 4, which is used by 5. -/
def phiGraph : Graph :=
  plainGraph
    (fun r => match r with
      | 4 => Instruction.Phi
      | _ => Instruction.Other)
    (fun r => match r with
      | 1 => [2, 3]
      | 2 => [4]
      | 3 => [4]
      | 4 => [5]
      | _ => [])

/-- Value 1 is the member `2[3]` of object 2; nothing uses 1 or 2. -/
def memberGraph : Graph :=
  { plainGraph (fun _ => Instruction.Other) (fun _ => []) with
    IsMember := fun r => decide (r = 1), GetObject := fun _ => 2, GetKey := fun _ => 3 }

/-- Value 1 is the argument of call 2 to function 10, whose formal 11 flows
through the phi 12 into the return 13; the call's result is used by 3. -/
def callGraph : Graph :=
  { plainGraph
      (fun r => match r with
        | 2 => Instruction.Call (some 10) [1]
        | 10 => Instruction.Function [11] [13]
        | 12 => Instruction.Phi
        | 13 => Instruction.Return (some 10) [12]
        | _ => Instruction.Other)
      (fun r => match r with
        | 1 => [2]
        | 2 => [3]
        | 11 => [12]
        | 12 => [13]
        | _ => []) with
    GetCalledBy := fun r => match r with
      | 10 => [2]
      | _ => [] }

/-- Value 1 is used by call 2 to function 10, but is none of its arguments
(the only argument is 5); the callee returns through 13 and the call's result
is used by 3. -/
def noArgGraph : Graph :=
  { plainGraph
      (fun r => match r with
        | 2 => Instruction.Call (some 10) [5]
        | 10 => Instruction.Function [11] [13]
        | 13 => Instruction.Return (some 10) [12]
        | _ => Instruction.Other)
      (fun r => match r with
        | 1 => [2]
        | 2 => [3]
        | 11 => [12]
        | 12 => [13]
        | _ => []) with
    GetCalledBy := fun r => match r with
      | 10 => [2]
      | _ => [] }

/-- Value 1 is the argument of call 2, whose callee is unknown (`Method` is
nil); the call's result is used by 3. -/
def unknownCallGraph : Graph :=
  plainGraph
    (fun r => match r with
      | 2 => Instruction.Call none [1]
      | _ => Instruction.Other)
    (fun r => match r with
      | 1 => [2]
      | 2 => [3]
      | _ => [])

/-- Function 10 is passed to itself by call 2, `f(f)`; the call's result is
used by 3 and the formal 11 by 12. -/
def selfCallGraph : Graph :=
  plainGraph
    (fun r => match r with
      | 2 => Instruction.Call (some 10) [10]
      | 10 => Instruction.Function [11] [13]
      | 13 => Instruction.Return (some 10) [12]
      | _ => Instruction.Other)
    (fun r => match r with
      | 10 => [2]
      | 2 => [3]
      | 11 => [12]
      | _ => [])

/-- A configuration with `MaxDepth` 2. -/
def depthTwo : OperationConfig := { MaxDepth := 2, MinDepth := 0, HookEveryNode := none }

/-- A configuration with the positive `MinDepth` 5. -/
def minFive : OperationConfig := { MaxDepth := 0, MinDepth := 5, HookEveryNode := none }

/-- A configuration with the negative `MinDepth` -2. -/
def minNegTwo : OperationConfig := { MaxDepth := 0, MinDepth := -2, HookEveryNode := none }

/-- The context of a query on `root` under `cfg`, as `GetBottomUses` builds it. -/
def queryContext (root : Value) (cfg : OperationConfig) : AnalyzeContext :=
  { NewAnalyzeContext cfg with Self := some root }

/-- The struct `config` of `ssa_exports.go` (lines 13-35), with the fields the
option setters, the hash and `Feed` read. A nil `Builder` is `none`; the code
reader is represented by the text it yields. -/
structure config where
  language : String
  Builder : Option String
  feedCode : Bool
  ignoreSyntaxErr : Bool
  code : String
  externInfo : String
deriving DecidableEq, Repr

/-- The function `defaultConfig` (lines 37-49). -/
def defaultConfig : config :=
  { language := "", Builder := none, feedCode := false, ignoreSyntaxErr := false,
    code := "", externInfo := "" }

/-- The type `Option` of the source (line 55), a setter applied to the config. -/
abbrev ConfigOption := config → config

/-- The method `config.CaclHash` (lines 51-53); `CalcSha1` is `utils.CalcSha1`. -/
def config.CaclHash (CalcSha1 : String → String → Bool → String → String) (c : config) :
    String :=
  CalcSha1 c.code c.language c.ignoreSyntaxErr c.externInfo

/-- The function `WithLanguage` (lines 57-66); `LanguageBuilders` is the table
of the registered builders. -/
def WithLanguage (LanguageBuilders : String → Option String) (language : String) :
    ConfigOption :=
  fun c =>
    match LanguageBuilders language with
    | some parser => { c with language := language, Builder := some parser }
    | none => { c with language := language, Builder := none }

/-- The function `WithIgnoreSyntaxError` (lines 99-107); `b` is the variadic
argument list. -/
def WithIgnoreSyntaxError (b : List Bool) : ConfigOption :=
  fun c =>
    if b.length > 1 then { c with ignoreSyntaxErr := b.getD 0 false }
    else { c with ignoreSyntaxErr := true }

/-- The function `WithExternInfo` (lines 109-113). -/
def WithExternInfo (info : String) : ConfigOption :=
  fun c => { c with externInfo := info }

/-- The function `WithFeedCode` (lines 123-131); `b` is the variadic argument
list. -/
def WithFeedCode (b : List Bool) : ConfigOption :=
  fun c =>
    if b.length > 1 then { c with feedCode := b.getD 0 false }
    else { c with feedCode := true }

/-- The struct `Program` of the package: the embedded `*ssa.Program`, by an
identifier, and the config pointer, which may be nil. -/
structure Program where
  ssaProgram : Nat
  config : Option config
deriving DecidableEq, Repr

/-- Modelled from the spec: the parse cache `ttlSSAParseCache`, "a
process-wide parse cache keyed by content hash" whose implementation
(`utils.TTLCache`) is not among the sources. A stored value may be the nil
pointer. Expiry is left out: the calls considered happen within the time to
live. `parses` counts the calls of `parseFile`. -/
structure ParseState where
  cache : List (String × Option Program)
  parses : Nat
deriving DecidableEq, Repr

/-- Modelled from the spec: `TTLCache.Get`, the stored value and whether the
key is present. -/
def ParseState.Get (s : ParseState) (hash : String) : Option (Option Program) :=
  s.cache.lookup hash

/-- Modelled from the spec: `TTLCache.SetWithTTL`, which stores the value under
the key, replacing the value the key had. -/
def ParseState.SetWithTTL (s : ParseState) (hash : String) (v : Option Program) : ParseState :=
  { s with cache := (hash, v) :: s.cache.filter (fun e => e.1 != hash) }

/-- The function `ParseFromReader` (lines 180-194). `parseFile` is the method
`config.parseFile`, which returns the program (nil on failure) and the error
(nil on success); the result is the pair `ParseFromReader` returns, with the
state of the cache after the call. -/
def ParseFromReader (CalcSha1 : String → String → Bool → String → String)
    (parseFile : config → Option Program × Option String)
    (input : String) (opts : List ConfigOption) (s : ParseState) :
    (Option Program × Option String) × ParseState :=
  let config0 := opts.foldl (fun c opt => opt c) defaultConfig
  let config1 : config := { config0 with code := input }
  let hash := config1.CaclHash CalcSha1
  match s.Get hash with
  | some prog => ((prog, none), s)
  | none =>
    let r := parseFile config1
    let s1 : ParseState := { s with parses := s.parses + 1 }
    match r.2 with
    | some err => ((r.1, some err), s1.SetWithTTL hash r.1)
    | none => ((r.1, none), s1)

/-- What a call of `Program.Feed` does: it panics, or it returns an error
(`some`) or nil (`none`). -/
inductive FeedResult where
  | panic (msg : String)
  | returned (err : Option String)
deriving DecidableEq, Repr

/-- The method `Program.Feed` (lines 196-201). `feed` is the method
`config.feed`. When `p.config` is nil the guard holds by its first disjunct and
the argument `p.config.language` of `utils.Errorf` dereferences the nil
pointer. -/
def Program.Feed (feed : Ssaapi.config → Nat → String → Option String) (p : Program)
    (code : String) : FeedResult :=
  match p.config with
  | none => FeedResult.panic "invalid memory address or nil pointer dereference"
  | some c =>
    if c.feedCode = false ∨ c.Builder = none then
      FeedResult.returned (some ("not support language " ++ c.language))
    else FeedResult.returned (feed c p.ssaProgram code)

/-- An identity hash for examples: the four hashed fields, joined. -/
def exampleSha1 : String → String → Bool → String → String :=
  fun code language ignore info => code ++ "|" ++ language ++ "|" ++ toString ignore ++ "|" ++ info

/-- A parser for examples: the text `a = 1` parses to program 7, every other
text is a syntax error. -/
def exampleParseFile : config → Option Program × Option String :=
  fun c =>
    if c.code = "a = 1" then (some { ssaProgram := 7, config := some c }, none)
    else (none, some "parse failed")

/-- The empty cache, before any parse. -/
def emptyParseState : ParseState := { cache := [], parses := 0 }

end Ssaapi

namespace Ssautil

/-- The index of a scope in the arena of scopes. -/
abbrev ScopeId := Nat

/-- A value of the interface `ScopedVersionedTableIF[T]`: a scope, or nil. -/
abbrev Scope := Option ScopeId

/-- The versioned value type `T`, opaque to the builders; `0` is its zero value,
read for a name that no scope of the chain binds. -/
abbrev Version := Nat

/-- The type `MergeHandle[T]`: from a name and its candidate versions to the phi. -/
abbrev MergeHandle := String → List Version → Version

/-- The type `SpinHandle[T]`: from a name, its header and its latch version to
the patched phi. -/
abbrev SpinHandle := String → Version → Version → Version

/-- Modelled from the spec: a Scope (section 3), whose implementation behind
`ScopedVersionedTableIF` is not part of the sources at hand. A scope holds its
own bindings, at most one version a name, the back-reference to its parent,
the names that received a placeholder, and the factory set by `SetSpin`. -/
structure ScopeRec where
  parent : Option ScopeId
  bindings : List (String × Version)
  placeholders : List (String × Version)
  spin : Option (String → Version)

/-- A call of a method of the scope interface, as the builders issue it. -/
inductive ScopeOp where
  | createSubScope (parent child : ScopeId)
  | merge (target : ScopeId) (hasBase : Bool) (handler : MergeHandle) (branches : List Scope)
  | coverBy (target : ScopeId) (other : Scope)
  | spin (target header latch : ScopeId) (handler : SpinHandle)
  | createVariable (target : ScopeId) (name : String) (isFresh : Bool)
  | setSpin (target : ScopeId)

/-- An invocation of a caller-supplied factory, with the arguments it received. -/
inductive HandlerCall where
  | merge (name : String) (candidates : List Version)
  | spin (name : String) (header latch : Version)
deriving DecidableEq, Repr

/-- The arena of scopes, with the journal of the scope operations performed and
the journal of the factory invocations, both oldest first. -/
structure World where
  scopes : List ScopeRec
  ops : List ScopeOp
  handled : List HandlerCall

/-- Applies `f` to the element at index `i`, if there is one. -/
def updateAt {α : Type} (f : α → α) : List α → Nat → List α
  | [], _ => []
  | x :: xs, 0 => f x :: xs
  | x :: xs, i + 1 => x :: updateAt f xs i

/-- Resolution of a name from scope `s` through at most `fuel` scopes of the
parent chain; a parent always has a smaller index than its child. -/
def resolveAux (scopes : List ScopeRec) : Nat → ScopeId → String → Option Version
  | 0, _, _ => none
  | fuel + 1, s, name =>
    match scopes[s]? with
    | none => none
    | some r =>
      match r.bindings.lookup name with
      | some v => some v
      | none =>
        match r.parent with
        | some p => if p < s then resolveAux scopes fuel p name else none
        | none => none

/-- Modelled from the spec: "a name looked up from a Scope resolves by walking
`parent` links until a binding is found or the chain ends (undefined)". -/
def World.resolve (w : World) (s : ScopeId) (name : String) : Option Version :=
  resolveAux w.scopes (s + 1) s name

/-- Modelled from the spec: the current version of a name in a scope, the zero
value when the name is undefined or the scope is nil. -/
def World.ReadValue (w : World) (s : Scope) (name : String) : Version :=
  match s with
  | none => 0
  | some id => (w.resolve id name).getD 0

/-- The names a scope itself defines; a nil scope defines none. -/
def World.localNames (w : World) (s : Scope) : List String :=
  match s with
  | none => []
  | some id =>
    match w.scopes[id]? with
    | none => []
    | some r => r.bindings.map Prod.fst

/-- Binds `name` to `v` in scope `s`, replacing the version it had there. -/
def World.bind (w : World) (s : ScopeId) (name : String) (v : Version) : World :=
  { w with scopes := (updateAt
      (fun r => { r with bindings := (name, v) :: r.bindings.filter (fun p => p.1 != name) })
      w.scopes s) }

/-- Modelled from the spec: `CreateSubScope()`, "a new child Scope whose
`parent` is the caller". -/
def World.CreateSubScope (w : World) (parent : ScopeId) : ScopeId × World :=
  (w.scopes.length,
   { w with
     scopes := w.scopes ++
       [{ parent := some parent, bindings := [], placeholders := [], spin := none }],
     ops := w.ops ++ [ScopeOp.createSubScope parent w.scopes.length] })

/-- The candidate versions of a name at a merge: the version of each branch,
then the version of the merging scope when it is an implicit branch. -/
def World.candidates (w : World) (s : ScopeId) (hasBase : Bool) (branches : List Scope)
    (name : String) : List Version :=
  branches.map (fun b => w.ReadValue b name) ++
    (if hasBase then [w.ReadValue (some s) name] else [])

/-- Whether all versions of a list are identical. -/
def allSame : List Version → Bool
  | [] => true
  | v :: rest => rest.all (fun u => decide (u = v))

/-- The parent chain of scope `s`, from `s` upwards, through at most `fuel`
scopes; a parent always has a smaller index than its child. -/
def chainAux (scopes : List ScopeRec) : Nat → ScopeId → List ScopeId
  | 0, _ => []
  | fuel + 1, s =>
    match scopes[s]? with
    | none => []
    | some r =>
      s :: (match r.parent with
            | some p => if p < s then chainAux scopes fuel p else []
            | none => [])

/-- The parent chain of scope `s`, from `s` up to its root. -/
def World.chain (w : World) (s : ScopeId) : List ScopeId := chainAux w.scopes (s + 1) s

/-- Modelled from the spec: the names "touched by" the branch `b` of a merge
into scope `s`: the names bound in a scope of the parent chain of `b` that is
not on the parent chain of `s`. The scopes the two chains share hold the
bindings from before the construct. -/
def World.touched (w : World) (s : ScopeId) (b : Scope) : List String :=
  match b with
  | none => []
  | some id =>
    ((w.chain id).filter (fun j => decide (j ∉ w.chain s))).flatMap
      (fun j => w.localNames (some j))

/-- The names touched by any of the branches of a merge into scope `s`, each
once. -/
def World.mergeNames (w : World) (s : ScopeId) (branches : List Scope) : List String :=
  (branches.flatMap (fun b => w.touched s b)).dedup

/-- The version a merge binds for candidates `cands` of `name`: the single
version when all are identical, the phi of the merge handler otherwise. -/
def mergedVersion (handler : MergeHandle) (name : String) (cands : List Version) : Version :=
  if allSame cands then cands.headD 0 else handler name cands

/-- The invocation of the merge handler journaled for `name`, if there is one. -/
def mergeCall (name : String) (cands : List Version) : List HandlerCall :=
  if allSame cands then [] else [HandlerCall.merge name cands]

/-- Modelled from the spec: `Merge(hasBase, mergeHandler, branches...)`. For
every name touched by a branch the versions are resolved on the state before
the merge; identical versions are bound directly, others are handed to the
merge handler and its phi is bound. -/
def World.Merge (w : World) (s : ScopeId) (hasBase : Bool) (handler : MergeHandle)
    (branches : List Scope) : World :=
  (w.mergeNames s branches).foldl
    (fun acc name =>
      { acc.bind s name (mergedVersion handler name (w.candidates s hasBase branches name)) with
        handled := acc.handled ++ mergeCall name (w.candidates s hasBase branches name) })
    { w with ops := w.ops ++ [ScopeOp.merge s hasBase handler branches] }

/-- Modelled from the spec: `CoverBy(other)`, which takes over the version of
`other` "for every name `other` defines, leaving untouched names resolving
through the original parent chain". -/
def World.CoverBy (w : World) (s : ScopeId) (other : Scope) : World :=
  (w.touched s other).foldl
    (fun acc name => acc.bind s name (w.ReadValue other name))
    { w with ops := w.ops ++ [ScopeOp.coverBy s other] }

/-- Modelled from the spec: `Spin(header, latch, spinHandler)`, which invokes
the spin handler for every name that received a placeholder in this scope. -/
def World.Spin (w : World) (s header latch : ScopeId) (handler : SpinHandle) : World :=
  let w1 : World := { w with ops := w.ops ++ [ScopeOp.spin s header latch handler] }
  match w.scopes[s]? with
  | none => w1
  | some r =>
    r.placeholders.foldl
      (fun acc p =>
        { acc.bind s p.1
            (handler p.1 (w.ReadValue (some header) p.1) (w.ReadValue (some latch) p.1)) with
          handled := acc.handled ++
            [HandlerCall.spin p.1 (w.ReadValue (some header) p.1)
              (w.ReadValue (some latch) p.1)] })
      w1

/-- Modelled from the spec: `CreateVariable(name, isFresh)`, which binds the
name in this scope, to the unknown version when `isFresh` and to the inherited
version otherwise. -/
def World.CreateVariable (w : World) (s : ScopeId) (name : String) (isFresh : Bool) : World :=
  ({ w with ops := w.ops ++ [ScopeOp.createVariable s name isFresh] } : World).bind s name
    (if isFresh then 0 else w.ReadValue (some s) name)

/-- Modelled from the spec: `SetSpin(NewPhi)`, which marks a loop-condition scope. -/
def World.SetSpin (w : World) (s : ScopeId) (newPhi : String → Version) : World :=
  { w with
    scopes := updateAt (fun r => { r with spin := some newPhi }) w.scopes s,
    ops := w.ops ++ [ScopeOp.setSpin s] }

/-- A panic of a builder: the message, and the builder and the world as they
are when it is raised. -/
structure Panic (σ : Type) where
  msg : String
  state : σ
  world : World

/-- A jump a body takes through the interface `LabelTarget`, from a scope. -/
inductive Jump where
  | Break (src : ScopeId)
  | Continue (src : ScopeId)
  | FallThough (src : ScopeId)
deriving DecidableEq, Repr

/-- What running a body callback yields: the scope it returns (nil when the
body ends the program), the jumps it took on the enclosing statement, in
order, and the world it leaves. -/
structure BodyResult where
  ret : Scope
  jumps : List Jump
  world : World

/-- The struct `IfStmt`. Only scopes that are not nil are recorded in
`BodyScopes`. -/
structure IfStmt where
  global : ScopeId
  lastConditionScope : ScopeId
  BodyScopes : List ScopeId
  hasElse : Bool

/-- The constructor `NewIfStmt` (lines 59-67). -/
def NewIfStmt (global : ScopeId) : IfStmt :=
  { global := global, lastConditionScope := global, BodyScopes := [], hasElse := false }

/-- The step `if end != nil { i.BodyScopes = append(i.BodyScopes, end) }`. -/
def recordEnd (bodies : List ScopeId) (e : Scope) : List ScopeId :=
  match e with
  | some s => bodies ++ [s]
  | none => bodies

/-- The method `IfStmt.BuildItem` (lines 70-84). -/
def IfStmt.BuildItem (i : IfStmt) (Condition : ScopeId → World → World)
    (Body : ScopeId → World → Scope × World) (w : World) :
    Except (Panic IfStmt) (IfStmt × World) :=
  if i.hasElse then
    Except.error { msg := "cannot add item after else", state := i, world := w }
  else
    let c := w.CreateSubScope i.lastConditionScope
    let w2 := Condition c.1 c.2
    let b := w2.CreateSubScope c.1
    let r := Body b.1 b.2
    Except.ok ({ i with lastConditionScope := c.1, BodyScopes := recordEnd i.BodyScopes r.1 }, r.2)

/-- The method `IfStmt.BuildElse` (lines 87-94). -/
def IfStmt.BuildElse (i : IfStmt) (elseBody : ScopeId → World → Scope × World) (w : World) :
    IfStmt × World :=
  let e := w.CreateSubScope i.lastConditionScope
  let r := elseBody e.1 e.2
  ({ i with BodyScopes := recordEnd i.BodyScopes r.1, hasElse := true }, r.2)

/-- The method `IfStmt.BuildFinish` (lines 97-120). -/
def IfStmt.BuildFinish (i : IfStmt) (mergeHandler : MergeHandle) (w : World) : ScopeId × World :=
  let e := w.CreateSubScope i.global
  (e.1, e.2.Merge e.1 (!i.hasElse) mergeHandler (i.BodyScopes.map some))

/-- The struct `LoopStmt`. The scopes of `MergeToEnd` and `MergeToLatch` are the
scopes the jumps were taken from; `body` is what the body callback returned. -/
structure LoopStmt where
  MergeToEnd : List ScopeId
  MergeToLatch : List ScopeId
  ThirdBuilder : Option (ScopeId → World → World)
  global : ScopeId
  header : ScopeId
  condition : ScopeId
  body : Scope

/-- The constructor `NewLoopStmt` (lines 140-150). -/
def NewLoopStmt (global : ScopeId) (NewPhi : String → Version) (w : World) : LoopStmt × World :=
  let h := w.CreateSubScope global
  let c := h.2.CreateSubScope h.1
  let w3 := c.2.SetSpin c.1 NewPhi
  let b := w3.CreateSubScope c.1
  ({ MergeToEnd := [], MergeToLatch := [], ThirdBuilder := none, global := global,
     header := h.1, condition := c.1, body := some b.1 }, b.2)

/-- The method `LoopStmt.Continue` (lines 172-174). -/
def LoopStmt.Continue (l : LoopStmt) (src : ScopeId) : LoopStmt :=
  { l with MergeToLatch := l.MergeToLatch ++ [src] }

/-- The method `LoopStmt.Break` (lines 176-178). -/
def LoopStmt.Break (l : LoopStmt) (src : ScopeId) : LoopStmt :=
  { l with MergeToEnd := l.MergeToEnd ++ [src] }

/-- The method `LoopStmt.FallThough` (lines 180-182), which does nothing. -/
def LoopStmt.FallThough (l : LoopStmt) (_src : ScopeId) : LoopStmt := l

/-- The loop as a `LabelTarget`: one jump taken on it. -/
def LoopStmt.jump (l : LoopStmt) : Jump → LoopStmt
  | Jump.Break src => l.Break src
  | Jump.Continue src => l.Continue src
  | Jump.FallThough src => l.FallThough src

/-- The method `LoopStmt.SetFirst` (lines 153-155). -/
def LoopStmt.SetFirst (l : LoopStmt) (f : ScopeId → World → World) (w : World) : World :=
  f l.header w

/-- The method `LoopStmt.SetCondition` (lines 158-160). -/
def LoopStmt.SetCondition (l : LoopStmt) (f : ScopeId → World → World) (w : World) : World :=
  f l.condition w

/-- The method `LoopStmt.SetThird` (lines 163-165). -/
def LoopStmt.SetThird (l : LoopStmt) (f : ScopeId → World → World) : LoopStmt :=
  { l with ThirdBuilder := some f }

/-- The method `LoopStmt.SetBody` (lines 168-170); the jumps the body takes on
the loop are applied in order. -/
def LoopStmt.SetBody (l : LoopStmt) (f : Scope → World → BodyResult) (w : World) :
    LoopStmt × World :=
  let r := f l.body w
  ({ r.jumps.foldl LoopStmt.jump l with body := r.ret }, r.world)

/-- The method `LoopStmt.Build` (lines 185-232). A nil `body` makes
`l.body.CreateSubScope()` panic. -/
def LoopStmt.Build (l : LoopStmt) (SpinHandler : SpinHandle) (mergeLatch mergeEnd : MergeHandle)
    (w : World) : Except (Panic LoopStmt) (ScopeId × World) :=
  match l.body with
  | none => Except.error { msg := "nil pointer dereference", state := l, world := w }
  | some body =>
    let latch := w.CreateSubScope body
    let w2 := latch.2.Merge latch.1 true mergeLatch (l.MergeToLatch.map some)
    let w3 :=
      match l.ThirdBuilder with
      | some third => third latch.1 w2
      | none => w2
    let w4 := w3.Spin l.condition l.header latch.1 SpinHandler
    let e := w4.CreateSubScope l.global
    let w6 := e.2.CoverBy l.header (some l.condition)
    let w7 := w6.CoverBy e.1 (some l.header)
    Except.ok (e.1, w7.Merge e.1 true mergeEnd (l.MergeToEnd.map some))

/-- The struct `TryStmt`; the three body scopes are nil until they are set. -/
structure TryStmt where
  global : ScopeId
  tryBody : Scope
  cacheBody : Scope
  finalBody : Scope
  ErrorName : String
  mergeHandler : MergeHandle

/-- The constructor `NewTryStmt` (lines 243-251). -/
def NewTryStmt (global : ScopeId) (mergeHandler : MergeHandle) : TryStmt :=
  { global := global, tryBody := none, cacheBody := none, finalBody := none,
    ErrorName := "", mergeHandler := mergeHandler }

/-- The method `TryStmt.SetTryBody` (lines 253-258). -/
def TryStmt.SetTryBody (t : TryStmt) (body : ScopeId → World → Scope × World) (w : World) :
    TryStmt × World :=
  let s := w.CreateSubScope t.global
  let r := body s.1 s.2
  ({ t with tryBody := r.1 }, r.2)

/-- The method `TryStmt.SetError` (lines 260-262). -/
def TryStmt.SetError (t : TryStmt) (name : String) : TryStmt :=
  { t with ErrorName := name }

/-- The method `TryStmt.CreateCatch` (lines 264-267). -/
def TryStmt.CreateCatch (t : TryStmt) (w : World) : ScopeId × TryStmt × World :=
  let s := w.CreateSubScope t.global
  (s.1, { t with cacheBody := some s.1 }, s.2)

/-- The method `TryStmt.SetCache` (lines 269-277). A nil `cacheBody` makes
`t.cacheBody.Merge` panic. -/
def TryStmt.SetCache (t : TryStmt) (build : World → Scope × World) (w : World) :
    Except (Panic TryStmt) (TryStmt × World) :=
  match t.cacheBody with
  | none => Except.error { msg := "nil pointer dereference", state := t, world := w }
  | some c =>
    let w1 := w.Merge c true t.mergeHandler [t.tryBody]
    let w2 := w1.CreateVariable c t.ErrorName true
    let r := build w2
    Except.ok ({ t with cacheBody := r.1 }, r.2)

/-- The method `TryStmt.CreateFinally` (lines 279-282). -/
def TryStmt.CreateFinally (t : TryStmt) (w : World) : ScopeId × TryStmt × World :=
  let s := w.CreateSubScope t.global
  (s.1, { t with finalBody := some s.1 }, s.2)

/-- The method `TryStmt.SetFinal` (lines 284-291). A nil `finalBody` makes
`t.finalBody.Merge` panic. -/
def TryStmt.SetFinal (t : TryStmt) (build : World → Scope × World) (w : World) :
    Except (Panic TryStmt) (TryStmt × World) :=
  match t.finalBody with
  | none => Except.error { msg := "nil pointer dereference", state := t, world := w }
  | some f =>
    let w1 := w.Merge f false t.mergeHandler [t.tryBody, t.cacheBody]
    let r := build w1
    Except.ok ({ t with finalBody := r.1 }, r.2)

/-- The method `TryStmt.Build` (lines 293-314). -/
def TryStmt.Build (t : TryStmt) (w : World) : ScopeId × World :=
  let e := w.CreateSubScope t.global
  match t.finalBody with
  | some f => (e.1, e.2.CoverBy e.1 (some f))
  | none => (e.1, e.2.Merge e.1 false t.mergeHandler [t.tryBody, t.cacheBody])

/-- The struct `SwitchStmt`; `mergeToNextBody` is nil when no scope is carried
into the next case. -/
structure SwitchStmt where
  global : ScopeId
  mergeToSwitchEnd : List Scope
  mergeToNextBody : Scope
  AutoBreak : Bool

/-- The constructor `NewSwitchStmt` (lines 323-328). -/
def NewSwitchStmt (global : ScopeId) (AutoBreak : Bool) : SwitchStmt :=
  { global := global, mergeToSwitchEnd := [], mergeToNextBody := none, AutoBreak := AutoBreak }

/-- The method `SwitchStmt.Break` (lines 330-333). -/
def SwitchStmt.Break (s : SwitchStmt) (src : ScopeId) : SwitchStmt :=
  { s with mergeToSwitchEnd := s.mergeToSwitchEnd ++ [some src] }

/-- The method `SwitchStmt.Continue` (lines 335-337), which does nothing. -/
def SwitchStmt.Continue (s : SwitchStmt) (_src : ScopeId) : SwitchStmt := s

/-- The method `SwitchStmt.FallThough` (lines 339-342). -/
def SwitchStmt.FallThough (s : SwitchStmt) (src : ScopeId) : SwitchStmt :=
  { s with mergeToNextBody := some src }

/-- The switch as a `LabelTarget`: one jump taken on it. -/
def SwitchStmt.jump (s : SwitchStmt) : Jump → SwitchStmt
  | Jump.Break src => s.Break src
  | Jump.Continue src => s.Continue src
  | Jump.FallThough src => s.FallThough src

/-- The first part of `SwitchStmt.BuildBody` (lines 348-352): the scope of the
case, and the switch and the world as the body finds them. -/
def SwitchStmt.enterBody (s : SwitchStmt) (merge : MergeHandle) (w : World) :
    ScopeId × SwitchStmt × World :=
  let sub := w.CreateSubScope s.global
  match s.mergeToNextBody with
  | some carry =>
    (sub.1, { s with mergeToNextBody := none }, sub.2.Merge sub.1 true merge [some carry])
  | none => (sub.1, s, sub.2)

/-- The method `SwitchStmt.BuildBody` (lines 344-366); the jumps the body takes
on the switch are applied in order while the body runs. -/
def SwitchStmt.BuildBody (s : SwitchStmt) (body : ScopeId → World → BodyResult)
    (merge : MergeHandle) (w : World) : SwitchStmt × World :=
  let entry := s.enterBody merge w
  let r := body entry.1 entry.2.2
  let s2 := r.jumps.foldl SwitchStmt.jump entry.2.1
  if s.AutoBreak then
    if s2.mergeToNextBody = none then
      ({ s2 with mergeToSwitchEnd := s2.mergeToSwitchEnd ++ [r.ret] }, r.world)
    else (s2, r.world)
  else
    if s2.mergeToSwitchEnd.length = 0 ∨ s2.mergeToSwitchEnd.getLast? ≠ some r.ret then
      ({ s2 with mergeToNextBody := r.ret }, r.world)
    else (s2, r.world)

/-- The step of `SwitchStmt.Build` at lines 379-382: a scope still carried is
appended to the switch-end merge set. -/
def SwitchStmt.foldDefault (s : SwitchStmt) : SwitchStmt :=
  match s.mergeToNextBody with
  | some d => { s with mergeToSwitchEnd := s.mergeToSwitchEnd ++ [some d] }
  | none => s

/-- The method `SwitchStmt.Build` (lines 368-393). -/
def SwitchStmt.Build (s : SwitchStmt) (merge : MergeHandle) (w : World) :
    ScopeId × SwitchStmt × World :=
  let e := w.CreateSubScope s.global
  if s.AutoBreak then
    (e.1, s, e.2.Merge e.1 false merge s.mergeToSwitchEnd)
  else
    match s.foldDefault.mergeToSwitchEnd with
    | [] => (e.1, s.foldDefault, e.2)
    | [target] => (e.1, s.foldDefault, e.2.CoverBy e.1 target)
    | _ => (e.1, s.foldDefault, e.2.Merge e.1 false merge s.foldDefault.mergeToSwitchEnd)

/-- A call on an `IfStmt`: `BuildItem(Condition, Body)` or `BuildElse(elseBody)`. -/
inductive IfCall where
  | item (Condition : ScopeId → World → World) (Body : ScopeId → World → Scope × World)
  | els (elseBody : ScopeId → World → Scope × World)

/-- An `IfStmt` under construction: the statement, the world, and the scope
each body returned so far, nil included, in the order the bodies were built. -/
structure IfRun where
  stmt : IfStmt
  world : World
  ends : List Scope

/-- One call on an `IfStmt` under construction. -/
def IfRun.step (r : IfRun) : IfCall → Except (Panic IfStmt) IfRun
  | IfCall.item Condition Body =>
    match r.stmt.BuildItem Condition Body r.world with
    | Except.error p => Except.error p
    | Except.ok out =>
      let c := r.world.CreateSubScope r.stmt.lastConditionScope
      let b := (Condition c.1 c.2).CreateSubScope c.1
      Except.ok { stmt := out.1, world := out.2, ends := r.ends ++ [(Body b.1 b.2).1] }
  | IfCall.els elseBody =>
    let e := r.world.CreateSubScope r.stmt.lastConditionScope
    Except.ok { stmt := (r.stmt.BuildElse elseBody r.world).1,
                world := (r.stmt.BuildElse elseBody r.world).2,
                ends := r.ends ++ [(elseBody e.1 e.2).1] }

/-- A sequence of calls on an `IfStmt` under construction; it stops at the
first panic. -/
def IfRun.run : List IfCall → IfRun → Except (Panic IfStmt) IfRun
  | [], r => Except.ok r
  | c :: cs, r =>
    match r.step c with
    | Except.error p => Except.error p
    | Except.ok r1 => IfRun.run cs r1

/-- The calls that build an if statement: a `BuildItem` for each item, then a
`BuildElse` when there is an else. -/
def ifCalls (items : List ((ScopeId → World → World) × (ScopeId → World → Scope × World)))
    (els : Option (ScopeId → World → Scope × World)) : List IfCall :=
  items.map (fun p => IfCall.item p.1 p.2) ++
    (match els with
     | some b => [IfCall.els b]
     | none => [])

/-- Whether a journaled factory invocation is a call of the merge handler for
the name `x`. -/
def HandlerCall.isMergeOf (x : String) : HandlerCall → Bool
  | HandlerCall.merge name _ => decide (name = x)
  | HandlerCall.spin _ _ _ => false

/-- The branch scopes a journaled scope operation hands to `Merge`; none for
an operation that is not a `Merge`. -/
def ScopeOp.mergeBranches : ScopeOp → List Scope
  | ScopeOp.merge _ _ _ branches => branches
  | _ => []

/-- The version scope `j` itself binds to `x`, if it binds one. -/
def World.lookupAt (w : World) (j : ScopeId) (x : String) : Option Version :=
  match w.scopes[j]? with
  | none => none
  | some r => r.bindings.lookup x

/-- The scopes the `Continue` jumps of a list were taken from, in order. -/
def continues : List Jump → List ScopeId
  | [] => []
  | Jump.Continue src :: js => src :: continues js
  | _ :: js => continues js

/-- The scopes the `Break` jumps of a list were taken from, in order. -/
def breaks : List Jump → List ScopeId
  | [] => []
  | Jump.Break src :: js => src :: breaks js
  | _ :: js => breaks js

/-- The scope of the last `FallThough` jump of a list, if there is one. -/
def lastFallThough : List Jump → Option ScopeId
  | [] => none
  | Jump.FallThough src :: js =>
    match lastFallThough js with
    | some later => some later
    | none => some src
  | _ :: js => lastFallThough js

/-- A world of three scopes: the global scope binding `x` and `y`, and two
children of it that each bind `x` to a version of their own. -/
def exampleWorld : World :=
  { scopes :=
      [{ parent := none, bindings := [("x", 1), ("y", 7)], placeholders := [], spin := none },
       { parent := some 0, bindings := [("x", 2)], placeholders := [], spin := none },
       { parent := some 0, bindings := [("x", 3)], placeholders := [], spin := none }],
    ops := [],
    handled := [] }

/-- A merge handler: the phi of the candidates is numbered from their sum. -/
def exampleMerge : MergeHandle := fun _ cands => 100 + cands.sum

/-- A spin handler. -/
def exampleSpin : SpinHandle := fun _ header latch => 200 + header + latch

/-- An `IfStmt` on the global scope of `exampleWorld` that recorded its two
children as body scopes, without else. -/
def exampleIf : IfStmt :=
  { global := 0, lastConditionScope := 0, BodyScopes := [1, 2], hasElse := false }

/-- A condition callback that assigns nothing. -/
def exampleCondition : ScopeId → World → World := fun _ w => w

/-- A body callback that assigns version `v` to `x` in the scope it is given
and returns that scope. -/
def exampleAssign (v : Version) : ScopeId → World → Scope × World :=
  fun s w => (some s, w.bind s "x" v)

/-- A world with the global scope only, binding `x`. -/
def exampleGlobal : World :=
  { scopes := [{ parent := none, bindings := [("x", 1)], placeholders := [], spin := none }],
    ops := [],
    handled := [] }

/-- The if statement `if .. { x = 2 } else if .. { x = 3 }`, without else, built
on `exampleGlobal`. -/
def exampleIfRun : IfRun :=
  match IfRun.run
      (ifCalls [(exampleCondition, exampleAssign 2), (exampleCondition, exampleAssign 3)] none)
      ⟨NewIfStmt 0, exampleGlobal, []⟩ with
  | Except.ok r => r
  | Except.error p => ⟨p.state, p.world, []⟩

/-- A loop on the global scope of `exampleWorld`, as `NewLoopStmt` leaves it. -/
def exampleLoop : LoopStmt := (NewLoopStmt 0 (fun _ => 9) exampleWorld).1

/-- The world `NewLoopStmt` leaves for `exampleLoop`. -/
def exampleLoopWorld : World := (NewLoopStmt 0 (fun _ => 9) exampleWorld).2

/-- A case body that assigns `x` in the scope it is given, takes no jump and
returns that scope. -/
def exampleCase : ScopeId → World → BodyResult :=
  fun s w => { ret := some s, jumps := [], world := w.bind s "x" 5 }

/-- A case body that assigns `x` in the scope it is given, takes no jump and
returns a new child of that scope. -/
def exampleCaseNested : ScopeId → World → BodyResult :=
  fun s w =>
    { ret := some ((w.bind s "x" 5).CreateSubScope s).1, jumps := [],
      world := ((w.bind s "x" 5).CreateSubScope s).2 }

/-- A body callback that assigns version `v` to `x` in the scope it is given
and returns a new child of that scope. -/
def exampleAssignNested (v : Version) : ScopeId → World → Scope × World :=
  fun s w => (some ((w.bind s "x" v).CreateSubScope s).1, ((w.bind s "x" v).CreateSubScope s).2)

/-- The if statement `if .. { x = 2 } else if .. { x = 3 }`, without else, built
on `exampleGlobal`, each body ending in a scope nested in its body scope. -/
def exampleNestedRun : IfRun :=
  match IfRun.run
      (ifCalls [(exampleCondition, exampleAssignNested 2),
        (exampleCondition, exampleAssignNested 3)] none)
      ⟨NewIfStmt 0, exampleGlobal, []⟩ with
  | Except.ok r => r
  | Except.error p => ⟨p.state, p.world, []⟩

/-- A world with the global scope only, which binds nothing. -/
def exampleEmpty : World :=
  { scopes := [{ parent := none, bindings := [], placeholders := [], spin := none }],
    ops := [],
    handled := [] }

/-- The statement `try { a = 1; a1 = 1 } catch err { a = 2 }` of the test
`TestTryCatch` (`ssa_error_test.go`, lines 743-775) as the builder sees it, up
to `CreateCatch`: the try scope is 1 and the catch scope is 2. -/
def exampleTryCatch : ScopeId × TryStmt × World :=
  (((NewTryStmt 0 exampleMerge).SetTryBody
      (fun s w => (some s, (w.bind s "a" 1).bind s "a1" 1)) exampleEmpty).1.SetError
    "err").CreateCatch
    ((NewTryStmt 0 exampleMerge).SetTryBody
      (fun s w => (some s, (w.bind s "a" 1).bind s "a1" 1)) exampleEmpty).2

/-- The end of `exampleTryCatch`: `SetCache` with the catch body `a = 2`, then
`Build`. -/
def exampleTryCatchEnd : ScopeId × World :=
  match exampleTryCatch.2.1.SetCache (fun w => (some 2, w.bind 2 "a" 2)) exampleTryCatch.2.2 with
  | Except.ok r => r.1.Build r.2
  | Except.error p => (0, p.world)

/-- The end of `exampleTryCatch` had `SetCache` covered the catch scope by the
try scope where it merges: `CoverBy` in the place of `Merge(true, ..)`, then
the catch body `a = 2`, then `Build`. -/
def exampleTryCatchCovered : ScopeId × World :=
  exampleTryCatch.2.1.Build
    (((exampleTryCatch.2.2.CoverBy 2 (some 1)).CreateVariable 2 "err" true).bind 2 "a" 2)

/-- A body callback that ends the program (`return`): it returns the nil scope. -/
def exampleReturn : ScopeId → World → Scope × World := fun _ w => (none, w)

/-- The if statement `if .. { return } else { return }` built on `exampleGlobal`. -/
def exampleReturnRun : IfRun :=
  match IfRun.run (ifCalls [(exampleCondition, exampleReturn)] (some exampleReturn))
      ⟨NewIfStmt 0, exampleGlobal, []⟩ with
  | Except.ok r => r
  | Except.error p => ⟨p.state, p.world, []⟩

/-- A try statement on `exampleGlobal` after `SetTryBody` only: no catch was
created. -/
def exampleTry : TryStmt × World :=
  (NewTryStmt 0 exampleMerge).SetTryBody (exampleAssign 2) exampleGlobal

/-- The world of `exampleWorld` after a new child of the global scope was
created, as a builder does before it merges into it. -/
def exampleChild : World := (exampleWorld.CreateSubScope 0).2

end Ssautil

namespace Sfvm

/-- The struct `ConfigItem`, an item of traversal configuration, by key and value. -/
structure ConfigItem where
  Key : String
  Value : String
deriving DecidableEq, Repr

/-- The interface `ValueOperator`, with the two methods the list methods at
hand call on an element; `ρ` is what a method yields on success. -/
structure ValueOperator (ρ : Type) where
  GetSyntaxFlowTopDef : List ConfigItem → Except String ρ
  GetSyntaxFlowBottomUse : List ConfigItem → Except String ρ

/-- The struct `ValueList` (lines 20-22). -/
structure ValueList (ρ : Type) where
  values : List (ValueOperator ρ)

/-- The loop shared by the list methods (lines 98-106 and 110-118): `call` on
every element in order, the first error returned at once, each result appended
to `res`; the list returned is the content of `NewValues(res)`. -/
def collectResults {ρ : Type} (call : ValueOperator ρ → Except String ρ) :
    List (ValueOperator ρ) → List ρ → Except String (List ρ)
  | [], res => Except.ok res
  | v :: vs, res =>
    match call v with
    | Except.error err => Except.error err
    | Except.ok r => collectResults call vs (res ++ [r])

/-- The method `ValueList.GetSyntaxFlowTopDef` (lines 97-107). -/
def ValueList.GetSyntaxFlowTopDef {ρ : Type} (v : ValueList ρ) (config : List ConfigItem) :
    Except String (List ρ) :=
  collectResults (fun e => e.GetSyntaxFlowTopDef config) v.values []

/-- The method `ValueList.GetSyntaxFlowBottomUse` (lines 109-119): the element
method is called without arguments. -/
def ValueList.GetSyntaxFlowBottomUse {ρ : Type} (v : ValueList ρ) (_config : List ConfigItem) :
    Except String (List ρ) :=
  collectResults (fun e => e.GetSyntaxFlowBottomUse []) v.values []

/-- The struct `SyntaxFlowVirtualMachine` (lines 14-20), with its debug flag. -/
structure SyntaxFlowVirtualMachine where
  debug : Bool
deriving DecidableEq, Repr

/-- The method `SyntaxFlowVirtualMachine.Debug` (lines 31-38); `i` is the
variadic argument list. -/
def SyntaxFlowVirtualMachine.Debug (s : SyntaxFlowVirtualMachine) (i : List Bool) :
    SyntaxFlowVirtualMachine :=
  if i.length > 0 then { s with debug := i.getD 0 false } else { s with debug := true }

/-- An element whose two methods yield the number of configuration items they
were given. -/
def countingOperator : ValueOperator Nat :=
  { GetSyntaxFlowTopDef := fun config => Except.ok config.length,
    GetSyntaxFlowBottomUse := fun config => Except.ok config.length }

/-- A configuration item, as `depth: 3`. -/
def depthItem : ConfigItem := { Key := "depth", Value := "3" }

end Sfvm

namespace Ssaapi

theorem Frame.refl (c : AnalyzeContext) : Frame c c :=
  ⟨rfl, rfl, rfl, rfl, rfl, fun _ h => h⟩

theorem Frame.trans {a b c : AnalyzeContext} (h1 : Frame a b) (h2 : Frame b c) : Frame a c :=
  ⟨h2.depthEq.trans h1.depthEq, h2.callEq.trans h1.callEq, h2.objEq.trans h1.objEq,
   h2.cfgEq.trans h1.cfgEq, h2.selfEq.trans h1.selfEq,
   fun i hi => h2.phiSub i (h1.phiSub i hi)⟩

theorem collect_frame {α : Type} (f : α → AnalyzeContext → Outcome)
    (hf : ∀ x a r a', f x a = some (r, a') → Frame a a') :
    ∀ (xs : List α) (vals : Values) (a : AnalyzeContext) (r : Values) (a' : AnalyzeContext),
      collect f xs vals a = some (r, a') → Frame a a'
  | [], vals, a, r, a', h => by
    simp only [collect, Option.some.injEq, Prod.mk.injEq] at h
    rw [← h.2]; exact Frame.refl a
  | x :: xs, vals, a, r, a', h => by
    simp only [collect] at h
    cases hfx : f x a with
    | none => simp [hfx] at h
    | some p =>
      obtain ⟨ret, a1⟩ := p
      simp only [hfx] at h
      exact (hf x a ret a1 hfx).trans (collect_frame f hf xs _ a1 r a' h)

theorem pushObject_pop_frame {a a2 : AnalyzeContext} (obj key member : Value)
    (h : Frame (a.PushObject obj key member) a2) : Frame a a2.PopObject := by
  obtain ⟨h1, h2, h3, h4, h5, h6⟩ := h
  refine ⟨?_, ?_, ?_, ?_, ?_, ?_⟩
  · simpa [AnalyzeContext.PopObject, AnalyzeContext.PushObject] using h1
  · simpa [AnalyzeContext.PopObject, AnalyzeContext.PushObject] using h2
  · simp [AnalyzeContext.PopObject, AnalyzeContext.PushObject] at h3 ⊢; simp [h3]
  · simpa [AnalyzeContext.PopObject, AnalyzeContext.PushObject] using h4
  · simpa [AnalyzeContext.PopObject, AnalyzeContext.PushObject] using h5
  · simpa [AnalyzeContext.PopObject, AnalyzeContext.PushObject] using h6

theorem pushCall_pop_frame {G : Graph} {a a1 a2 : AnalyzeContext} {v : Value}
    (hp : a.PushCall G v = Except.ok a1) (h : Frame a1 a2) : Frame a a2.PopCall := by
  unfold AnalyzeContext.PushCall at hp
  split at hp
  · cases hp
  · split at hp
    · cases hp
    · cases hp
      obtain ⟨h1, h2, h3, h4, h5, h6⟩ := h
      refine ⟨?_, ?_, ?_, ?_, ?_, ?_⟩
      · simpa [AnalyzeContext.PopCall] using h1
      · simp [AnalyzeContext.PopCall] at h2 ⊢; simp [h2]
      · simpa [AnalyzeContext.PopCall] using h3
      · simpa [AnalyzeContext.PopCall] using h4
      · simpa [AnalyzeContext.PopCall] using h5
      · simpa [AnalyzeContext.PopCall] using h6

theorem visitUserFallback_frame (G : Graph) (recur : Value → AnalyzeContext → Outcome)
    (hr : Restores recur) (v : Value) (c : AnalyzeContext) (vals : Values) (c' : AnalyzeContext)
    (h : visitUserFallback G recur v c = some (vals, c')) : Frame c c' := by
  unfold visitUserFallback at h
  cases hc : collect (fun value a => recur (value.AppendDependOn v) a) (v.GetUsers G) [] c with
  | none => simp [hc] at h
  | some p =>
    obtain ⟨vs, a1⟩ := p
    have f1 : Frame c a1 := collect_frame _ (fun x a r a' hx => hr _ _ _ _ hx) _ _ _ _ _ hc
    simp only [hc] at h
    split at h
    · cases h
    · rename_i vals3 a3 hr3
      have f3 : Frame a1 a3 := by
        split at hr3
        · cases hrec : recur (v.GetObject G) (a1.PushObject (v.GetObject G) (v.GetKey G) v) with
          | none => simp [hrec] at hr3
          | some q =>
            obtain ⟨ret, a2⟩ := q
            simp only [hrec, Option.some.injEq, Prod.mk.injEq] at hr3
            rw [← hr3.2]
            exact pushObject_pop_frame _ _ _ (hr _ _ _ _ hrec)
        · simp only [Option.some.injEq, Prod.mk.injEq] at hr3
          rw [← hr3.2]; exact Frame.refl _
      split at h <;>
        (simp only [Option.some.injEq, Prod.mk.injEq] at h; rw [← h.2]; exact f1.trans f3)

theorem deferPopCall_frame {G : Graph} {a a1 : AnalyzeContext} {v : Value} {r : Outcome}
    (hp : a.PushCall G v = Except.ok a1)
    (hr : ∀ vals a2, r = some (vals, a2) → Frame a1 a2)
    (vals : Values) (c' : AnalyzeContext) (h : deferPopCall r = some (vals, c')) : Frame a c' := by
  unfold deferPopCall at h
  cases hq : r with
  | none => simp [hq] at h
  | some q =>
    obtain ⟨vs, a2⟩ := q
    simp only [hq, Option.map_some', Option.some.injEq, Prod.mk.injEq] at h
    rw [← h.2]
    exact pushCall_pop_frame hp (hr vs a2 hq)

theorem callCase_frame (G : Graph) (recur : Value → AnalyzeContext → Outcome)
    (hr : Restores recur) (v : Value) (c : AnalyzeContext) (Method : Option Ref)
    (Args : List Ref) (vals : Values) (c' : AnalyzeContext)
    (h : callCase G recur v c Method Args = some (vals, c')) : Frame c c' := by
  unfold callCase at h
  split at h
  · exact visitUserFallback_frame G recur hr v c vals c' h
  · split at h
    · exact visitUserFallback_frame G recur hr v c vals c' h
    · split at h
      · exact visitUserFallback_frame G recur hr v c vals c' h
      · dsimp only at h
        split at h
        · exact visitUserFallback_frame G recur hr v c vals c' h
        · split at h
          · exact visitUserFallback_frame G recur hr v c vals c' h
          · rename_i a1 hp
            refine deferPopCall_frame hp ?_ vals c' h
            intro vs a2 hq
            split at hq
            · exact collect_frame _ (fun x a r a' hx => hr _ _ _ _ hx) _ _ _ _ _ hq
            · simp only [Option.some.injEq, Prod.mk.injEq] at hq
              rw [← hq.2]; exact Frame.refl _

theorem returnFallback_frame (G : Graph) (recur : Value → AnalyzeContext → Outcome)
    (hr : Restores recur) (v : Value) (c : AnalyzeContext) (Func : Option Ref)
    (Results : List Ref) (vals : Values) (c' : AnalyzeContext)
    (h : returnFallback G recur v c Func Results = some (vals, c')) : Frame c c' := by
  unfold returnFallback at h
  dsimp only at h
  split at h
  · cases h
  · rename_i results a2 hq
    have f2 : Frame c a2 := by
      split at hq
      · simp only [Option.some.injEq, Prod.mk.injEq] at hq
        rw [← hq.2]; exact Frame.refl _
      · refine collect_frame _ ?_ _ _ _ _ _ hq
        intro x a r a' hx
        simp only at hx
        split at hx
        · exact hr _ _ _ _ hx
        · rename_i a1 hp
          exact deferPopCall_frame hp (fun vs a3 h3 => hr _ _ _ _ h3) r a' hx
    split at h <;>
      (simp only [Option.some.injEq, Prod.mk.injEq] at h; rw [← h.2]; exact f2)

theorem returnCase_frame (G : Graph) (recur : Value → AnalyzeContext → Outcome)
    (hr : Restores recur) (v : Value) (c : AnalyzeContext) (Func : Option Ref)
    (Results : List Ref) (vals : Values) (c' : AnalyzeContext)
    (h : returnCase G recur v c Func Results = some (vals, c')) : Frame c c' := by
  unfold returnCase at h
  dsimp only at h
  split at h
  · split at h
    · exact returnFallback_frame G recur hr v c Func Results vals c' h
    · split at h
      · split at h
        · exact returnFallback_frame G recur hr v c Func Results vals c' h
        · split at h
          · split at h
            · cases h
            · rename_i vs a1 hc
              have f1 : Frame c a1 :=
                collect_frame _ (fun x a r a' hx => hr _ _ _ _ hx) _ _ _ _ _ hc
              split at h
              · simp only [Option.some.injEq, Prod.mk.injEq] at h
                rw [← h.2]; exact f1
              · exact f1.trans (hr _ _ _ _ h)
          · split at h
            · cases h
            · rename_i vs a1 hc
              have f1 : Frame c a1 := by
                refine collect_frame _ ?_ _ _ _ _ _ hc
                intro x a r a' hx
                simp only at hx
                split at hx
                · simp only [Option.some.injEq, Prod.mk.injEq] at hx
                  rw [← hx.2]; exact Frame.refl _
                · split at hx
                  · cases hx
                  · rename_i nv a3 hrec
                    simp only [Option.some.injEq, Prod.mk.injEq] at hx
                    rw [← hx.2]
                    exact pushObject_pop_frame _ _ _ (hr _ _ _ _ hrec)
              split at h
              · simp only [Option.some.injEq, Prod.mk.injEq] at h
                rw [← h.2]; exact f1
              · exact f1.trans (hr _ _ _ _ h)
      · cases h
  · exact returnFallback_frame G recur hr v c Func Results vals c' h

theorem visitPhi_frame (G : Graph) (c : AnalyzeContext) (v : Value) : Frame c (c.VisitPhi G v) :=
  ⟨rfl, rfl, rfl, rfl, rfl, fun _ h => List.mem_cons_of_mem _ h⟩

theorem dispatch_frame (G : Graph) (recur : Value → AnalyzeContext → Outcome)
    (hr : Restores recur) (v : Value) (c : AnalyzeContext) (vals : Values) (c' : AnalyzeContext)
    (h : dispatch G recur v c = some (vals, c')) : Frame c c' := by
  unfold dispatch at h
  split at h
  · exact visitUserFallback_frame G recur hr v c vals c' h
  · split at h
    · exact hr _ _ _ _ h
    · split at h
      · simp only [Option.some.injEq, Prod.mk.injEq] at h
        rw [← h.2]; exact Frame.refl _
      · exact (visitPhi_frame G c v).trans (visitUserFallback_frame G recur hr v _ vals c' h)
    · exact callCase_frame G recur hr v c _ _ vals c' h
    · exact returnCase_frame G recur hr v c _ _ vals c' h
    · exact visitUserFallback_frame G recur hr v c vals c' h

theorem getBottomUsesBody_frame (G : Graph) (recur : Value → AnalyzeContext → Outcome)
    (hr : Restores recur) : Restores (getBottomUsesBody G recur) := by
  intro v c vals c' h
  unfold getBottomUsesBody deferDepth at h
  simp only [Option.map_eq_some', Prod.mk.injEq, Prod.exists] at h
  obtain ⟨vs, a, hq, -, rfl⟩ := h
  have key : Frame { c with depth := c.depth + 1 } a := by
    split at hq
    · simp only [Option.some.injEq, Prod.mk.injEq] at hq
      rw [← hq.2]; exact Frame.refl _
    · split at hq
      · simp only [Option.some.injEq, Prod.mk.injEq] at hq
        rw [← hq.2]; exact Frame.refl _
      · split at hq
        · exact dispatch_frame G recur hr _ _ _ _ hq
        · split at hq <;> exact dispatch_frame G recur hr _ _ _ _ hq
  obtain ⟨h1, h2, h3, h4, h5, h6⟩ := key
  refine ⟨?_, h2, h3, h4, h5, h6⟩
  simp only at h1 ⊢
  omega

theorem getBottomUses_frame (G : Graph) : ∀ n : Nat, Restores (getBottomUses G n)
  | 0 => by intro v c vals c' h; simp [getBottomUses] at h
  | n + 1 => getBottomUsesBody_frame G _ (getBottomUses_frame G n)

theorem Inv.of_frame {G : Graph} {k : Int} {cfg : OperationConfig} {c c' : AnalyzeContext}
    (h : Inv G k cfg c) (f : Frame c c') : Inv G k cfg c' :=
  ⟨by intro x hx; exact h.calls x (by rw [← f.callEq]; exact hx),
   f.depthEq.trans h.depthEq, f.cfgEq.trans h.cfgEq⟩

theorem Inv.pushObject {G : Graph} {k : Int} {cfg : OperationConfig} {c : AnalyzeContext}
    (h : Inv G k cfg c) (o key m : Value) : Inv G k cfg (c.PushObject o key m) :=
  ⟨h.calls, h.depthEq, h.cfgEq⟩

theorem Inv.pushCall {G : Graph} {k : Int} {cfg : OperationConfig} {c a1 : AnalyzeContext}
    {v : Value} (h : Inv G k cfg c) (hp : c.PushCall G v = Except.ok a1) : Inv G k cfg a1 := by
  unfold AnalyzeContext.PushCall at hp
  split at hp
  · cases hp
  · rename_i hcall
    split at hp
    · cases hp
    · cases hp
      refine ⟨?_, h.depthEq, h.cfgEq⟩
      intro x hx
      simp only [List.mem_cons] at hx
      rcases hx with rfl | hx
      · simpa using hcall
      · exact h.calls x hx

theorem collect_ne_none {α : Type} (Q : AnalyzeContext → Prop)
    (f : α → AnalyzeContext → Outcome)
    (hf : ∀ x a, Q a → f x a ≠ none)
    (hQ : ∀ x a r a', Q a → f x a = some (r, a') → Q a') :
    ∀ (xs : List α) (vals : Values) (a : AnalyzeContext), Q a → collect f xs vals a ≠ none
  | [], vals, a, _ => by simp [collect]
  | x :: xs, vals, a, ha => by
    simp only [collect]
    cases hfx : f x a with
    | none => exact absurd hfx (hf x a ha)
    | some p =>
      obtain ⟨ret, a1⟩ := p
      exact collect_ne_none Q f hf hQ xs _ a1 (hQ x a ret a1 ha hfx)

theorem visitUserFallback_ne_none (G : Graph) (recur : Value → AnalyzeContext → Outcome)
    (k : Int) (cfg : OperationConfig)
    (hr : Restores recur) (ht : ∀ v a, Inv G k cfg a → recur v a ≠ none)
    (v : Value) (c : AnalyzeContext) (hc : Inv G k cfg c) :
    visitUserFallback G recur v c ≠ none := by
  intro h
  unfold visitUserFallback at h
  cases hcol : collect (fun value a => recur (value.AppendDependOn v) a) (v.GetUsers G) [] c with
  | none =>
    exact collect_ne_none (Inv G k cfg) _ (fun x a ha => ht _ a ha)
      (fun x a r a' ha hx => ha.of_frame (hr _ _ _ _ hx)) _ _ _ hc hcol
  | some p =>
    obtain ⟨vs, a1⟩ := p
    have i1 : Inv G k cfg a1 :=
      hc.of_frame (collect_frame _ (fun x a r a' hx => hr _ _ _ _ hx) _ _ _ _ _ hcol)
    simp only [hcol] at h
    split at h
    · rename_i hq
      split at hq
      · split at hq
        · rename_i hrec
          exact ht _ _ (i1.pushObject _ _ _) hrec
        · cases hq
      · cases hq
    · split at h <;> cases h

theorem deferPopCall_ne_none {r : Outcome} (h : r ≠ none) : deferPopCall r ≠ none := by
  unfold deferPopCall
  cases r with
  | none => exact absurd rfl h
  | some p => simp

theorem callCase_ne_none (G : Graph) (recur : Value → AnalyzeContext → Outcome)
    (k : Int) (cfg : OperationConfig)
    (hr : Restores recur) (ht : ∀ v a, Inv G k cfg a → recur v a ≠ none)
    (v : Value) (c : AnalyzeContext) (hc : Inv G k cfg c) (Method : Option Ref) (Args : List Ref) :
    callCase G recur v c Method Args ≠ none := by
  have hv := visitUserFallback_ne_none G recur k cfg hr ht v c hc
  unfold callCase
  split
  · exact hv
  · split
    · exact hv
    · split
      · exact hv
      · dsimp only
        split
        · exact hv
        · split
          · exact hv
          · rename_i a1 hp
            apply deferPopCall_ne_none
            dsimp only
            split
            · exact collect_ne_none (Inv G k cfg) _ (fun x a ha => ht _ a ha)
                (fun x a r a' ha hx => ha.of_frame (hr _ _ _ _ hx)) _ _ _ (hc.pushCall hp)
            · simp

theorem returnFallback_ne_none (G : Graph) (recur : Value → AnalyzeContext → Outcome)
    (k : Int) (cfg : OperationConfig)
    (hr : Restores recur) (ht : ∀ v a, Inv G k cfg a → recur v a ≠ none)
    (v : Value) (c : AnalyzeContext) (hc : Inv G k cfg c) (Func : Option Ref)
    (Results : List Ref) :
    returnFallback G recur v c Func Results ≠ none := by
  intro h
  unfold returnFallback at h
  dsimp only at h
  split at h
  · rename_i hq
    split at hq
    · cases hq
    · refine collect_ne_none (Inv G k cfg) _ ?_ ?_ _ _ _ hc hq
      · intro x a ha
        split
        · exact ht _ a ha
        · rename_i a1 hp
          exact deferPopCall_ne_none (ht _ a1 (ha.pushCall hp))
      · intro x a r a' ha hx
        split at hx
        · exact ha.of_frame (hr _ _ _ _ hx)
        · rename_i a1 hp
          exact ha.of_frame (deferPopCall_frame hp (fun vs a3 h3 => hr _ _ _ _ h3) r a' hx)
  · split at h <;> cases h

theorem returnCase_ne_none (G : Graph) (recur : Value → AnalyzeContext → Outcome)
    (k : Int) (cfg : OperationConfig)
    (hr : Restores recur) (ht : ∀ v a, Inv G k cfg a → recur v a ≠ none)
    (v : Value) (c : AnalyzeContext) (hc : Inv G k cfg c) (Func : Option Ref)
    (Results : List Ref) :
    returnCase G recur v c Func Results ≠ none := by
  have hfb := returnFallback_ne_none G recur k cfg hr ht v c hc Func Results
  intro h
  unfold returnCase at h
  dsimp only at h
  split at h
  · split at h
    · exact hfb h
    · rename_i cur hcur
      split at h
      · split at h
        · exact hfb h
        · split at h
          · split at h
            · rename_i hcol
              exact collect_ne_none (Inv G k cfg) _ (fun x a ha => ht _ a ha)
                (fun x a r a' ha hx => ha.of_frame (hr _ _ _ _ hx)) _ _ _ hc hcol
            · rename_i vs a1 hcol
              have i1 : Inv G k cfg a1 :=
                hc.of_frame (collect_frame _ (fun x a r a' hx => hr _ _ _ _ hx) _ _ _ _ _ hcol)
              split at h
              · cases h
              · exact ht _ a1 i1 h
          · have hstep : ∀ (x : Nat) (a : AnalyzeContext) (r : Values) (a' : AnalyzeContext),
                (match G.GetIndexMember cur.node x with
                  | none => some ([], a)
                  | some indexedReturn =>
                    match recur (((NewValue indexedReturn).AppendDependOn
                          (NewValue indexedReturn)).AppendDependOn v)
                        (a.PushObject cur ((NewValue indexedReturn).GetKey G)
                          (NewValue indexedReturn)) with
                    | none => none
                    | some (newVals, a1) => some (newVals, a1.PopObject)) = some (r, a') →
                Frame a a' := by
              intro x a r a' hx
              split at hx
              · simp only [Option.some.injEq, Prod.mk.injEq] at hx
                rw [← hx.2]; exact Frame.refl _
              · split at hx
                · cases hx
                · rename_i nv a3 hrec
                  simp only [Option.some.injEq, Prod.mk.injEq] at hx
                  rw [← hx.2]
                  exact pushObject_pop_frame _ _ _ (hr _ _ _ _ hrec)
            split at h
            · rename_i hcol
              refine collect_ne_none (Inv G k cfg) _ ?_ ?_ _ _ _ hc hcol
              · intro x a ha hx
                split at hx
                · cases hx
                · split at hx
                  · rename_i hrec
                    exact ht _ _ (ha.pushObject _ _ _) hrec
                  · cases hx
              · intro x a r a' ha hx
                exact ha.of_frame (hstep x a r a' hx)
            · rename_i vs a1 hcol
              have i1 : Inv G k cfg a1 :=
                hc.of_frame (collect_frame _ hstep _ _ _ _ _ hcol)
              split at h
              · cases h
              · exact ht _ a1 i1 h
      · rename_i hnot
        have hmem : cur ∈ c.callStack := by
          unfold AnalyzeContext.GetCurrentCall at hcur
          exact List.mem_of_mem_head? hcur
        have hcall := hc.calls cur hmem
        unfold Value.IsCall at hcall
        split at hcall
        · rename_i m args hi
          exact hnot m args hi
        · cases hcall
  · exact hfb h

theorem dispatch_ne_none (G : Graph) (recur : Value → AnalyzeContext → Outcome)
    (k : Int) (cfg : OperationConfig)
    (hr : Restores recur) (ht : ∀ v a, Inv G k cfg a → recur v a ≠ none)
    (v : Value) (c : AnalyzeContext) (hc : Inv G k cfg c) :
    dispatch G recur v c ≠ none := by
  have hv := visitUserFallback_ne_none G recur k cfg hr ht v c hc
  unfold dispatch
  split
  · exact hv
  · split
    · exact ht _ c hc
    · split
      · simp
      · exact visitUserFallback_ne_none G recur k cfg hr ht v _
          (hc.of_frame (visitPhi_frame G c v))
    · exact callCase_ne_none G recur k cfg hr ht v c hc _ _
    · exact returnCase_ne_none G recur k cfg hr ht v c hc _ _
    · exact hv

theorem deferDepth_ne_none {r : Outcome} (h : r ≠ none) : deferDepth r ≠ none := by
  unfold deferDepth
  cases r with
  | none => exact absurd rfl h
  | some p => simp

theorem getBottomUsesBody_ne_none (G : Graph) (recur : Value → AnalyzeContext → Outcome)
    (k : Int) (cfg : OperationConfig)
    (hr : Restores recur) (ht : ∀ v a, Inv G (k + 1) cfg a → recur v a ≠ none)
    (v : Value) (c : AnalyzeContext) (hc : Inv G k cfg c) :
    getBottomUsesBody G recur v c ≠ none := by
  have i1 : Inv G (k + 1) cfg { c with depth := c.depth + 1 } :=
    ⟨hc.calls, by simp [hc.depthEq], hc.cfgEq⟩
  unfold getBottomUsesBody
  apply deferDepth_ne_none
  dsimp only
  split
  · simp
  · split
    · simp
    · split
      · exact dispatch_ne_none G recur (k + 1) cfg hr ht _ _ i1
      · split <;> exact dispatch_ne_none G recur (k + 1) cfg hr ht _ _ i1

/-- Beyond `MaxDepth` an invocation returns the empty list and the context it
was given, whatever the recursive callee is. -/
theorem getBottomUsesBody_maxDepth_gate (G : Graph) (recur : Value → AnalyzeContext → Outcome)
    (v : Value) (c : AnalyzeContext) (h0 : 0 < c.config.MaxDepth)
    (h1 : c.config.MaxDepth < c.depth + 1) :
    getBottomUsesBody G recur v c = some ([], c) := by
  unfold getBottomUsesBody deferDepth
  dsimp only
  rw [if_pos ⟨h0, h1⟩]
  simp

theorem getBottomUses_ne_none (G : Graph) (cfg : OperationConfig) (h0 : 0 < cfg.MaxDepth) :
    ∀ (n : Nat) (k : Int) (v : Value) (c : AnalyzeContext), Inv G k cfg c →
      cfg.MaxDepth ≤ k + n → getBottomUses G (n + 1) v c ≠ none
  | 0, k, v, c, hc, hk => by
    have hg := getBottomUsesBody_maxDepth_gate G (getBottomUses G 0) v c
      (by rw [hc.cfgEq]; exact h0) (by rw [hc.cfgEq, hc.depthEq]; omega)
    show getBottomUsesBody G (getBottomUses G 0) v c ≠ none
    rw [hg]; simp
  | n + 1, k, v, c, hc, hk => by
    have ih : ∀ v a, Inv G (k + 1) cfg a → getBottomUses G (n + 1) v a ≠ none :=
      fun v a ha => getBottomUses_ne_none G cfg h0 n (k + 1) v a ha (by push_cast at hk; omega)
    exact getBottomUsesBody_ne_none G _ k cfg (getBottomUses_frame G (n + 1)) ih v c hc

theorem omapSet_absent (m : List (Int × Ref)) (k : Int) (p : Ref)
    (h : ∀ e ∈ m, e.1 ≠ k) : omapSet m k p = m ++ [(k, p)] := by
  unfold omapSet
  rw [if_neg]
  simp only [List.any_eq_true, decide_eq_true_eq, not_exists, not_and]
  exact h

theorem omapSet_present (m : List (Int × Ref)) (k : Int) (p : Ref)
    (h : ∀ e ∈ m, e.1 ≠ k) : omapSet (m ++ [(k, p)]) k p = m ++ [(k, p)] := by
  unfold omapSet
  rw [if_pos (by simp)]
  rw [List.map_append]
  congr 1
  · conv_rhs => rw [← List.map_id m]
    apply List.map_congr_left
    intro e he
    simp [h e he]
  · simp

theorem omapSet_idem (m : List (Int × Ref)) (k : Int) (p : Ref) :
    omapSet (omapSet m k p) k p = omapSet m k p := by
  by_cases h : ∀ e ∈ m, e.1 ≠ k
  · rw [omapSet_absent m k p h, omapSet_present m k p h]
  · have hany : (m.any (fun e => decide (e.1 = k))) = true := by
      simp only [List.any_eq_true, decide_eq_true_eq]
      push_neg at h
      exact h
    have h1 : omapSet m k p = m.map (fun e => if e.1 = k then (k, p) else e) := by
      unfold omapSet; rw [if_pos hany]
    have hany2 : ((m.map (fun e => if e.1 = k then (k, p) else e)).any
        (fun e => decide (e.1 = k))) = true := by
      simp only [List.any_eq_true, decide_eq_true_eq, List.mem_map] at hany ⊢
      obtain ⟨e, he, hk⟩ := hany
      exact ⟨(k, p), ⟨e, he, by simp [hk]⟩, rfl⟩
    rw [h1]
    unfold omapSet
    rw [if_pos hany2, List.map_map]
    apply List.map_congr_left
    intro e _
    by_cases hk : e.1 = k <;> simp [hk]

theorem foldl_omapSet (j : Nat) (k : Int) (p : Ref) :
    ∀ (idxs : List Nat) (m : List (Int × Ref)),
      idxs.foldl (fun m i => if j = i then omapSet m k p else m) m =
        if j ∈ idxs then omapSet m k p else m
  | [], m => by simp
  | i :: rest, m => by
    rw [List.foldl_cons, foldl_omapSet j k p rest]
    by_cases hji : j = i
    · subst hji
      simp only [if_true, List.mem_cons, true_or]
      split
      · exact omapSet_idem m k p
      · rfl
    · have : (j ∈ i :: rest) ↔ j ∈ rest := by simp [hji]
      simp only [if_neg hji, this]

theorem foldl_select (G : Graph) (idxs : List Nat) :
    ∀ (E : List (Nat × Ref)) (acc : List (Int × Ref)),
      (E.map (fun p => G.GetId p.2)).Nodup →
      (∀ p ∈ E, ∀ e ∈ acc, e.1 ≠ G.GetId p.2) →
      E.foldl (fun m p => idxs.foldl
          (fun m i => if p.1 = i then omapSet m (G.GetId p.2) p.2 else m) m) acc =
        acc ++ (E.filter (fun p => decide (p.1 ∈ idxs))).map (fun p => (G.GetId p.2, p.2))
  | [], acc, _, _ => by simp
  | p :: E, acc, hnd, hacc => by
    rw [List.foldl_cons, foldl_omapSet]
    rw [List.map_cons, List.nodup_cons] at hnd
    by_cases hp : p.1 ∈ idxs
    · rw [if_pos hp, omapSet_absent acc _ _ (fun e he => hacc p (List.mem_cons_self _ _) e he)]
      rw [foldl_select G idxs E _ hnd.2]
      · simp [List.filter_cons, hp]
      · intro q hq e he
        rw [List.mem_append, List.mem_singleton] at he
        rcases he with he | rfl
        · exact hacc q (List.mem_cons_of_mem _ hq) e he
        · intro heq
          exact hnd.1 (List.mem_map.mpr ⟨q, hq, heq.symm⟩)
    · rw [if_neg hp, foldl_select G idxs E acc hnd.2
        (fun q hq e he => hacc q (List.mem_cons_of_mem _ hq) e he)]
      simp [List.filter_cons, hp]

theorem foldl_max_ge (n : Nat) :
    ∀ (xs : List Nat) (m : Nat),
      n ≤ xs.foldl (fun m y => if y > m then y else m) m ↔ n ≤ m ∨ ∃ i ∈ xs, n ≤ i
  | [], m => by simp
  | x :: xs, m => by
    rw [List.foldl_cons, foldl_max_ge n xs]
    simp only [List.mem_cons, exists_eq_or_imp]
    by_cases hx : x > m
    · rw [if_pos hx]
      constructor
      · rintro (h | h)
        · exact Or.inr (Or.inl h)
        · exact Or.inr (Or.inr h)
      · rintro (h | h | h)
        · exact Or.inl (by omega)
        · exact Or.inl h
        · exact Or.inr h
    · rw [if_neg hx]
      constructor
      · rintro (h | h)
        · exact Or.inl h
        · exact Or.inr (Or.inr h)
      · rintro (h | h | h)
        · exact Or.inl h
        · exact Or.inl (by omega)
        · exact Or.inr h

theorem loMax_ge (n : Nat) (hn : 0 < n) (xs : List Nat) :
    n ≤ loMax xs ↔ ∃ i ∈ xs, n ≤ i := by
  cases xs with
  | nil => simp [loMax]; omega
  | cons x xs =>
    unfold loMax
    rw [foldl_max_ge]
    simp only [List.mem_cons, exists_eq_or_imp]

theorem mem_formalParamsIndex (G : Graph) (v : Value) (Args : List Ref) (i : Nat) :
    i ∈ formalParamsIndex G v Args ↔ argMatched G v Args i = true := by
  unfold formalParamsIndex argMatched
  simp only [List.mem_map, List.mem_filter, decide_eq_true_eq]
  constructor
  · rintro ⟨p, ⟨hp, hd⟩, rfl⟩
    rw [List.mem_enum_iff_getElem?] at hp
    rw [hp]; simpa using hd
  · intro h
    cases ha : Args[i]? with
    | none => simp [ha] at h
    | some a =>
      simp only [ha, decide_eq_true_eq] at h
      exact ⟨(i, a), ⟨List.mk_mem_enum_iff_getElem?.mpr ha, h⟩, rfl⟩

theorem overflow_iff (G : Graph) (v : Value) (Args : List Ref) (n : Nat) :
    (List.range Args.length).any (fun i => decide (n ≤ i) && argMatched G v Args i) = true ↔
      ∃ i ∈ formalParamsIndex G v Args, n ≤ i := by
  simp only [List.any_eq_true, List.mem_range, Bool.and_eq_true, decide_eq_true_eq]
  constructor
  · rintro ⟨i, _, hni, hm⟩
    exact ⟨i, (mem_formalParamsIndex G v Args i).mpr hm, hni⟩
  · rintro ⟨i, hi, hni⟩
    have hm := (mem_formalParamsIndex G v Args i).mp hi
    refine ⟨i, ?_, hni, hm⟩
    unfold argMatched at hm
    cases ha : Args[i]? with
    | none => simp [ha] at hm
    | some a =>
      by_contra hlt
      have : Args[i]? = none := List.getElem?_eq_none (by omega)
      rw [this] at ha; cases ha

theorem selectParams_eq_selectedFormals (G : Graph) (v : Value) (Args Param : List Ref)
    (hnd : (Param.map G.GetId).Nodup) :
    (selectParams G Param (formalParamsIndex G v Args)).map Prod.snd =
      selectedFormals G v Args Param := by
  have hE : (Param.enum.map (fun p => G.GetId p.2)).Nodup := by
    have : Param.enum.map (fun p => G.GetId p.2) = (Param.enum.map Prod.snd).map G.GetId := by
      rw [List.map_map]; rfl
    rw [this, List.enum_map_snd]; exact hnd
  have hA := foldl_select G (formalParamsIndex G v Args) Param.enum [] hE
    (fun _ _ e he => absurd he (List.not_mem_nil e))
  rw [List.nil_append] at hA
  unfold selectParams selectedFormals
  dsimp only
  rw [hA]
  by_cases hov : loMax (formalParamsIndex G v Args) ≥ Param.length ∧ Param.length > 0
  · rw [if_pos hov]
    obtain ⟨hmax, hn⟩ := hov
    have hex := (loMax_ge Param.length hn _).mp hmax
    have hb := (overflow_iff G v Args Param.length).mpr hex
    rcases List.eq_nil_or_concat Param with hnil | ⟨init, last, hcat⟩
    · rw [hnil] at hn; simp at hn
    · rw [List.concat_eq_append] at hcat
      subst hcat
      rw [List.getLast?_concat]
      dsimp only
      rw [List.map_append, List.nodup_append] at hnd
      have hkeys : ∀ e ∈ (init.enum.filter (fun p => decide (p.1 ∈ formalParamsIndex G v Args))).map
          (fun p => (G.GetId p.2, p.2)), e.1 ≠ G.GetId last := by
        intro e he hk
        simp only [List.mem_map, List.mem_filter] at he
        obtain ⟨p, ⟨hp, _⟩, rfl⟩ := he
        have hmem : p.2 ∈ init := by
          have := List.mem_map_of_mem Prod.snd hp
          rwa [List.enum_map_snd] at this
        have hk2 : G.GetId p.2 = G.GetId last := hk
        exact hnd.2.2 (List.mem_map_of_mem G.GetId hmem) (by simp [hk2])
      rw [List.enum_append, List.enumFrom_singleton, List.filter_append, List.map_append,
        List.filter_append, List.map_append]
      have hlast : List.filter (fun p : Nat × Ref =>
          argMatched G v Args p.1 ||
            (decide (p.1 + 1 = (init ++ [last]).length) &&
              (List.range Args.length).any
                (fun i => decide ((init ++ [last]).length ≤ i) && argMatched G v Args i)))
          [(init.length, last)] = [(init.length, last)] := by
        have hpred : (argMatched G v Args init.length ||
            (decide (init.length + 1 = (init ++ [last]).length) &&
              (List.range Args.length).any
                (fun i => decide ((init ++ [last]).length ≤ i) && argMatched G v Args i))) = true := by
          rw [hb]; simp
        exact List.filter_cons_of_pos hpred
      have hinit : List.filter (fun p : Nat × Ref =>
          argMatched G v Args p.1 ||
            (decide (p.1 + 1 = (init ++ [last]).length) &&
              (List.range Args.length).any
                (fun i => decide ((init ++ [last]).length ≤ i) && argMatched G v Args i)))
          init.enum =
          List.filter (fun p => decide (p.1 ∈ formalParamsIndex G v Args)) init.enum := by
        apply List.filter_congr
        intro p hp
        have hlt := List.fst_lt_of_mem_enum hp
        have hne : ¬ (p.1 + 1 = (init ++ [last]).length) := by
          simp only [List.length_append, List.length_singleton]; omega
        simp only [hne, decide_False, Bool.false_and, Bool.or_false]
        by_cases hm : p.1 ∈ formalParamsIndex G v Args
        · simp [hm, (mem_formalParamsIndex G v Args p.1).mp hm]
        · have : argMatched G v Args p.1 = false := by
            cases h : argMatched G v Args p.1
            · rfl
            · exact absurd ((mem_formalParamsIndex G v Args p.1).mpr h) hm
          simp [hm, this]
      rw [hlast, hinit]
      by_cases hl : init.length ∈ formalParamsIndex G v Args
      · have : List.filter (fun p : Nat × Ref => decide (p.1 ∈ formalParamsIndex G v Args))
            [(init.length, last)] = [(init.length, last)] := by simp [List.filter_cons, hl]
        rw [this, List.map_singleton, omapSet_present _ _ _ hkeys]
        simp
      · have : List.filter (fun p : Nat × Ref => decide (p.1 ∈ formalParamsIndex G v Args))
            [(init.length, last)] = [] := by simp [List.filter_cons, hl]
        rw [this, List.map_nil, List.append_nil, omapSet_absent _ _ _ hkeys]
        simp
  · rw [if_neg hov]
    rw [List.map_map]
    have hfil : List.filter (fun p : Nat × Ref =>
          argMatched G v Args p.1 ||
            (decide (p.1 + 1 = Param.length) &&
              (List.range Args.length).any
                (fun i => decide (Param.length ≤ i) && argMatched G v Args i)))
          Param.enum =
          List.filter (fun p => decide (p.1 ∈ formalParamsIndex G v Args)) Param.enum := by
      apply List.filter_congr
      intro p hp
      have hlt := List.fst_lt_of_mem_enum hp
      have hsnd : (decide (p.1 + 1 = Param.length) &&
              (List.range Args.length).any
                (fun i => decide (Param.length ≤ i) && argMatched G v Args i)) = false := by
        by_contra hc
        rw [Bool.not_eq_false, Bool.and_eq_true] at hc
        obtain ⟨-, hb⟩ := hc
        have hex := (overflow_iff G v Args Param.length).mp hb
        exact hov ⟨(loMax_ge Param.length (by omega) _).mpr hex, by omega⟩
      rw [hsnd, Bool.or_false]
      by_cases hm : p.1 ∈ formalParamsIndex G v Args
      · simp [hm, (mem_formalParamsIndex G v Args p.1).mp hm]
      · have : argMatched G v Args p.1 = false := by
          cases h : argMatched G v Args p.1
          · rfl
          · exact absurd ((mem_formalParamsIndex G v Args p.1).mpr h) hm
        simp [hm, this]
    rw [hfil]
    rfl

theorem getBottomUsesBody_eq_dispatch (G : Graph) (recur : Value → AnalyzeContext → Outcome)
    (v : Value) (c : AnalyzeContext)
    (hmax : ¬(c.config.MaxDepth > 0 ∧ c.depth + 1 > c.config.MaxDepth))
    (hmin : ¬(c.config.MinDepth < 0 ∧ c.depth + 1 < c.config.MinDepth)) :
    getBottomUsesBody G recur v c =
      deferDepth (dispatch G recur (v.SetDepth (c.depth + 1)) { c with depth := c.depth + 1 }) := by
  unfold getBottomUsesBody
  dsimp only
  rw [if_neg hmax, if_neg hmin]
  split
  · rfl
  · split <;> rfl

theorem valueCompare_setDepth (G : Graph) (v : Value) (d : Int) (s : Option Value) :
    ValueCompare G (v.SetDepth d) s = ValueCompare G v s := by
  cases s <;> rfl

theorem deferDepth_some (vals : Values) (c : AnalyzeContext) :
    deferDepth (some (vals, { c with depth := c.depth + 1 })) = some (vals, c) := by
  unfold deferDepth
  simp

/-- C1: whenever `getBottomUses` returns, by whichever path, the depth counter,
the call stack and the object stack of the context are what they were on
entry. -/
theorem getBottomUses_restores_context (G : Graph) (n : Nat) (v : Value) (c : AnalyzeContext)
    (vals : Values) (c' : AnalyzeContext) (h : getBottomUses G n v c = some (vals, c')) :
    c'.depth = c.depth ∧ c'.callStack = c.callStack ∧ c'.objectStack = c.objectStack :=
  ⟨(getBottomUses_frame G n v c vals c' h).depthEq,
   (getBottomUses_frame G n v c vals c' h).callEq,
   (getBottomUses_frame G n v c vals c' h).objEq⟩

theorem getBottomUses_restores_context_witness :
    getBottomUses callGraph 5 ((NewValue 2).AppendDependOn (NewValue 1))
        (queryContext (NewValue 1) unbounded) =
      some ([⟨3, [2, 13], 5⟩], { queryContext (NewValue 1) unbounded with visitedPhi := [12] }) ∧
    ({ queryContext (NewValue 1) unbounded with visitedPhi := [12] } : AnalyzeContext).depth =
        (queryContext (NewValue 1) unbounded).depth ∧
    ({ queryContext (NewValue 1) unbounded with visitedPhi := [12] } : AnalyzeContext).callStack =
        (queryContext (NewValue 1) unbounded).callStack ∧
    ({ queryContext (NewValue 1) unbounded with visitedPhi := [12] } : AnalyzeContext).objectStack =
        (queryContext (NewValue 1) unbounded).objectStack :=
  ⟨rfl, getBottomUses_restores_context callGraph 5 ((NewValue 2).AppendDependOn (NewValue 1))
    (queryContext (NewValue 1) unbounded) [⟨3, [2, 13], 5⟩]
    { queryContext (NewValue 1) unbounded with visitedPhi := [12] } rfl⟩

/-- C2: on the diamond `GetBottomUses` returns the value with id 4 twice: the
list it returns is not deduplicated by id. -/
theorem GetBottomUses_returns_duplicates :
    GetBottomUses diamondGraph 3 (NewValue 1) unbounded = some [⟨4, [2], 3⟩, ⟨4, [3], 3⟩] ∧
    ¬ (([⟨4, [2], 3⟩, ⟨4, [3], 3⟩] : Values).map (Value.GetId diamondGraph)).Nodup := by
  decide

/-- C3: with `MaxDepth = d > 0`, an invocation entered at a depth beyond `d`
returns the empty list whatever its recursive callee is; every invocation on
a context whose call stack holds calls only returns once `d` is within `n` of
its depth and `n + 1` nested invocations are allowed; and a query returns
with at most `d + 1` nested invocations. -/
theorem maxDepth_bounds_traversal (G : Graph) (cfg : OperationConfig) (d : Nat) (hd : 0 < d)
    (hcfg : cfg.MaxDepth = d) :
    (∀ (recur : Value → AnalyzeContext → Outcome) (v : Value) (c : AnalyzeContext),
        c.config = cfg → (d : Int) < c.depth + 1 →
        getBottomUsesBody G recur v c = some ([], c)) ∧
    (∀ (n : Nat) (v : Value) (c : AnalyzeContext), c.config = cfg → CallsOnly G c →
        (d : Int) ≤ c.depth + n → ∃ r, getBottomUses G (n + 1) v c = some r) ∧
    (∀ v : Value, ∃ vals, GetBottomUses G (d + 1) v cfg = some vals) := by
  have h0 : 0 < cfg.MaxDepth := by rw [hcfg]; exact_mod_cast hd
  refine ⟨?_, ?_, ?_⟩
  · intro recur v c hc hlt
    exact getBottomUsesBody_maxDepth_gate G recur v c (by rw [hc]; exact h0)
      (by rw [hc, hcfg]; exact hlt)
  · intro n v c hc hcalls hle
    have hne := getBottomUses_ne_none G cfg h0 n c.depth v c ⟨hcalls, rfl, hc⟩
      (by rw [hcfg]; exact hle)
    exact Option.ne_none_iff_exists'.mp hne
  · intro v
    have hne := getBottomUses_ne_none G cfg h0 d 0 v
      { NewAnalyzeContext cfg with Self := some v }
      ⟨fun x hx => absurd hx (List.not_mem_nil x), rfl, rfl⟩ (by rw [hcfg]; omega)
    obtain ⟨r, hr⟩ := Option.ne_none_iff_exists'.mp hne
    refine ⟨r.1, ?_⟩
    unfold GetBottomUses
    dsimp only
    rw [hr]

theorem maxDepth_bounds_traversal_witness :
    0 < 2 ∧ depthTwo.MaxDepth = ((2 : Nat) : Int) ∧
    ∃ vals, GetBottomUses callGraph (2 + 1) (NewValue 1) depthTwo = some vals :=
  ⟨by decide, rfl,
   (maxDepth_bounds_traversal callGraph depthTwo 2 (by decide) rfl).2.2 (NewValue 1)⟩

theorem visitUserFallback_leaf (G : Graph) (recur : Value → AnalyzeContext → Outcome)
    (v : Value) (c : AnalyzeContext) (hu : G.GetUsers v.node = [])
    (hm : G.IsMember v.node = false ∨
      ∃ k, G.instr v.node = Instruction.Undefined k ∧
        (k = UndefinedKind.UndefinedMemberInValid ∨ k = UndefinedKind.UndefinedMemberValid)) :
    visitUserFallback G recur v c = some ([v], c) := by
  unfold visitUserFallback
  simp only [Value.GetUsers, hu, List.map_nil, collect]
  rcases hm with hm | ⟨k, hk, hkind⟩
  · simp [Value.IsMember, hm]
  · rw [hk]
    simp [hkind]

theorem valueCompare_self (G : Graph) (v : Value) : ValueCompare G v (some v) = true := by
  simp [ValueCompare]

theorem dispatch_root (G : Graph) (recur : Value → AnalyzeContext → Outcome)
    (v : Value) (c : AnalyzeContext) (h : ValueCompare G v c.Self = true) :
    dispatch G recur v c = visitUserFallback G recur v c := by
  unfold dispatch
  rw [if_pos h]

theorem dispatch_phi (G : Graph) (recur : Value → AnalyzeContext → Outcome)
    (v : Value) (c : AnalyzeContext) (hroot : ValueCompare G v c.Self = false)
    (hphi : G.instr v.node = Instruction.Phi) :
    dispatch G recur v c =
      if c.ThePhiShouldBeVisited G v = false then some ([], c)
      else visitUserFallback G recur v (c.VisitPhi G v) := by
  unfold dispatch
  rw [if_neg (by simp [hroot]), hphi]

theorem dispatch_call (G : Graph) (recur : Value → AnalyzeContext → Outcome)
    (v : Value) (c : AnalyzeContext) (Method : Option Ref) (Args : List Ref)
    (hroot : ValueCompare G v c.Self = false)
    (hcall : G.instr v.node = Instruction.Call Method Args) :
    dispatch G recur v c = callCase G recur v c Method Args := by
  unfold dispatch
  rw [if_neg (by simp [hroot]), hcall]

/-- C4, as stated, fails: value 1 has no users, yet its traversal returns its
parent object 2 and not value 1. -/
theorem leaf_member_counterexample :
    memberGraph.GetUsers (NewValue 1).node = [] ∧
    GetBottomUses memberGraph 2 (NewValue 1) unbounded = some [⟨2, [], 2⟩] ∧
    GetBottomUses memberGraph 2 (NewValue 1) unbounded ≠ some [(NewValue 1).SetDepth 1] := by
  decide

/-- C4, amended: a value without users that is not a member, or is an
undefined member, is the only entry of the list its query returns. -/
theorem leaf_returns_itself (G : Graph) (n : Nat) (v : Value) (cfg : OperationConfig)
    (hu : G.GetUsers v.node = [])
    (hm : G.IsMember v.node = false ∨
      ∃ k, G.instr v.node = Instruction.Undefined k ∧
        (k = UndefinedKind.UndefinedMemberInValid ∨ k = UndefinedKind.UndefinedMemberValid)) :
    GetBottomUses G (n + 1) v cfg = some [v.SetDepth 1] := by
  have key : ∀ c : AnalyzeContext, c.Self = some v → c.depth = 0 →
      getBottomUses G (n + 1) v c = some ([v.SetDepth 1], c) := by
    intro c hs hd
    have hroot : ValueCompare G (v.SetDepth (c.depth + 1))
        ({ c with depth := c.depth + 1 } : AnalyzeContext).Self = true := by
      rw [valueCompare_setDepth]
      show ValueCompare G v c.Self = true
      rw [hs]; exact valueCompare_self G v
    show getBottomUsesBody G (getBottomUses G n) v c = _
    rw [getBottomUsesBody_eq_dispatch G _ v c (by rw [hd]; omega) (by rw [hd]; omega),
      dispatch_root G _ _ _ hroot,
      visitUserFallback_leaf G _ (v.SetDepth (c.depth + 1)) _ hu hm, deferDepth_some, hd]
    rfl
  unfold GetBottomUses
  dsimp only
  rw [key _ rfl rfl]

theorem leaf_returns_itself_witness :
    diamondGraph.GetUsers (NewValue 4).node = [] ∧ diamondGraph.IsMember (NewValue 4).node = false ∧
    GetBottomUses diamondGraph (0 + 1) (NewValue 4) unbounded = some [(NewValue 4).SetDepth 1] :=
  ⟨rfl, rfl, leaf_returns_itself diamondGraph 0 (NewValue 4) unbounded rfl (Or.inl rfl)⟩

/-- C5: a phi that passes the depth gate and is not the query root returns the
empty list when it is already marked visited; otherwise the invocation
continues on the context in which the phi is marked and returns the
direct-user expansion of the phi. -/
theorem phi_visited_or_expanded (G : Graph) (n : Nat) (v : Value) (c : AnalyzeContext)
    (hmax : ¬(c.config.MaxDepth > 0 ∧ c.depth + 1 > c.config.MaxDepth))
    (hmin : ¬(c.config.MinDepth < 0 ∧ c.depth + 1 < c.config.MinDepth))
    (hroot : ValueCompare G v c.Self = false)
    (hphi : G.instr v.node = Instruction.Phi) :
    (c.ThePhiShouldBeVisited G v = false → getBottomUses G (n + 1) v c = some ([], c)) ∧
    (c.ThePhiShouldBeVisited G v = true →
      getBottomUses G (n + 1) v c =
        deferDepth (visitUserFallback G (getBottomUses G n) (v.SetDepth (c.depth + 1))
          (({ c with depth := c.depth + 1 } : AnalyzeContext).VisitPhi G v)) ∧
      (({ c with depth := c.depth + 1 } : AnalyzeContext).VisitPhi G v).ThePhiShouldBeVisited G v
        = false) := by
  have hbody : getBottomUses G (n + 1) v c =
      deferDepth (dispatch G (getBottomUses G n) (v.SetDepth (c.depth + 1))
        { c with depth := c.depth + 1 }) :=
    getBottomUsesBody_eq_dispatch G _ v c hmax hmin
  have hd := dispatch_phi G (getBottomUses G n) (v.SetDepth (c.depth + 1))
    { c with depth := c.depth + 1 } (by rw [valueCompare_setDepth]; exact hroot) hphi
  constructor
  · intro hv
    have hv1 : ({ c with depth := c.depth + 1 } : AnalyzeContext).ThePhiShouldBeVisited G
        (v.SetDepth (c.depth + 1)) = false := hv
    rw [hbody, hd, if_pos hv1]
    exact deferDepth_some _ _
  · intro hv
    refine ⟨?_, ?_⟩
    · have hv1 : ¬ (({ c with depth := c.depth + 1 } : AnalyzeContext).ThePhiShouldBeVisited G
          (v.SetDepth (c.depth + 1)) = false) := by
        intro hf
        have : c.ThePhiShouldBeVisited G v = false := hf
        rw [hv] at this; cases this
      rw [hbody, hd, if_neg hv1]
      rfl
    · simp [AnalyzeContext.ThePhiShouldBeVisited, AnalyzeContext.VisitPhi]

theorem phi_visited_or_expanded_witness :
    ValueCompare phiGraph ((NewValue 4).AppendDependOn (NewValue 2))
      (queryContext (NewValue 1) unbounded).Self = false ∧
    phiGraph.instr ((NewValue 4).AppendDependOn (NewValue 2)).node = Instruction.Phi ∧
    (queryContext (NewValue 1) unbounded).ThePhiShouldBeVisited phiGraph
      ((NewValue 4).AppendDependOn (NewValue 2)) = true ∧
    getBottomUses phiGraph (1 + 1) ((NewValue 4).AppendDependOn (NewValue 2))
        (queryContext (NewValue 1) unbounded) =
      deferDepth (visitUserFallback phiGraph (getBottomUses phiGraph 1)
        (((NewValue 4).AppendDependOn (NewValue 2)).SetDepth
          ((queryContext (NewValue 1) unbounded).depth + 1))
        (({ queryContext (NewValue 1) unbounded with
            depth := (queryContext (NewValue 1) unbounded).depth + 1 } : AnalyzeContext).VisitPhi
          phiGraph ((NewValue 4).AppendDependOn (NewValue 2)))) :=
  ⟨rfl, rfl, rfl,
   ((phi_visited_or_expanded phiGraph 1 ((NewValue 4).AppendDependOn (NewValue 2))
      (queryContext (NewValue 1) unbounded) (by decide) (by decide) rfl rfl).2 rfl).1⟩

theorem deferDepth_eq_some {r : Outcome} {vals : Values} {c' : AnalyzeContext}
    (h : deferDepth r = some (vals, c')) :
    ∃ a, r = some (vals, a) ∧ c' = { a with depth := a.depth - 1 } := by
  unfold deferDepth at h
  cases r with
  | none => simp at h
  | some p =>
    obtain ⟨vs, a⟩ := p
    simp only [Option.map_some', Option.some.injEq, Prod.mk.injEq] at h
    exact ⟨a, by rw [h.1], h.2.symm⟩

/-- C6, as stated, fails: the invocation on the phi 4 returns with the mark of
4 still in the visited set, which was empty on entry; and in the query on 1
the second branch, through 3, gets the empty list from the phi, so that 3 is
reported instead of 5. -/
theorem visitedPhi_counterexample :
    (queryContext (NewValue 1) unbounded).visitedPhi = [] ∧
    (getBottomUses phiGraph 2 ((NewValue 4).AppendDependOn (NewValue 2))
        (queryContext (NewValue 1) unbounded)).map (fun r => r.2.visitedPhi) = some [4] ∧
    GetBottomUses phiGraph 4 (NewValue 1) unbounded = some [⟨5, [4], 4⟩, ⟨3, [1], 2⟩] := by
  decide!

/-- C6, amended: marks are never removed from the visited set during an
invocation that returns, and when the invocation is on a phi that passes the
depth gate and is not the query root, the id of the phi is in the visited set
on return. -/
theorem visitedPhi_marks_persist (G : Graph) (n : Nat) (v : Value) (c : AnalyzeContext)
    (vals : Values) (c' : AnalyzeContext) (h : getBottomUses G n v c = some (vals, c')) :
    (∀ i ∈ c.visitedPhi, i ∈ c'.visitedPhi) ∧
    (¬(c.config.MaxDepth > 0 ∧ c.depth + 1 > c.config.MaxDepth) →
      ¬(c.config.MinDepth < 0 ∧ c.depth + 1 < c.config.MinDepth) →
      ValueCompare G v c.Self = false → G.instr v.node = Instruction.Phi →
      v.GetId G ∈ c'.visitedPhi) := by
  have hmono := (getBottomUses_frame G n v c vals c' h).phiSub
  refine ⟨hmono, ?_⟩
  intro hmax hmin hroot hphi
  cases n with
  | zero => simp [getBottomUses] at h
  | succ m =>
    have hbody : getBottomUses G (m + 1) v c =
        deferDepth (dispatch G (getBottomUses G m) (v.SetDepth (c.depth + 1))
          { c with depth := c.depth + 1 }) :=
      getBottomUsesBody_eq_dispatch G _ v c hmax hmin
    have hd := dispatch_phi G (getBottomUses G m) (v.SetDepth (c.depth + 1))
      { c with depth := c.depth + 1 } (by rw [valueCompare_setDepth]; exact hroot) hphi
    rw [hbody, hd] at h
    by_cases hv : ({ c with depth := c.depth + 1 } : AnalyzeContext).ThePhiShouldBeVisited G
        (v.SetDepth (c.depth + 1)) = false
    · apply hmono
      have hv' : (!c.visitedPhi.contains (v.GetId G)) = false := hv
      simpa using hv'
    · rw [if_neg hv] at h
      obtain ⟨a, ha, rfl⟩ := deferDepth_eq_some h
      have hf := visitUserFallback_frame G _ (getBottomUses_frame G m) _ _ _ _ ha
      exact hf.phiSub _ (List.mem_cons_self _ _)

theorem visitedPhi_marks_persist_witness :
    getBottomUses phiGraph 2 ((NewValue 4).AppendDependOn (NewValue 2))
        (queryContext (NewValue 1) unbounded) =
      some ([⟨5, [4], 2⟩], { queryContext (NewValue 1) unbounded with visitedPhi := [4] }) ∧
    ValueCompare phiGraph ((NewValue 4).AppendDependOn (NewValue 2))
      (queryContext (NewValue 1) unbounded).Self = false ∧
    phiGraph.instr ((NewValue 4).AppendDependOn (NewValue 2)).node = Instruction.Phi ∧
    ((NewValue 4).AppendDependOn (NewValue 2)).GetId phiGraph ∈
      ({ queryContext (NewValue 1) unbounded with visitedPhi := [4] } : AnalyzeContext).visitedPhi :=
  ⟨rfl, rfl, rfl,
   (visitedPhi_marks_persist phiGraph 2 ((NewValue 4).AppendDependOn (NewValue 2))
      (queryContext (NewValue 1) unbounded) [⟨5, [4], 2⟩]
      { queryContext (NewValue 1) unbounded with visitedPhi := [4] } rfl).2
      (by decide) (by decide) rfl rfl⟩

theorem pushCall_ok (G : Graph) (a : AnalyzeContext) (v : Value) (Method : Option Ref)
    (Args : List Ref) (hcall : G.instr v.node = Instruction.Call Method Args)
    (hstack : a.TheCallShouldBeVisited G v = true) :
    a.PushCall G v = Except.ok { a with callStack := v :: a.callStack } := by
  have h1 : v.IsCall G = true := by unfold Value.IsCall; rw [hcall]
  have h2 : a.IsExistedInCallStack G v = false := by
    unfold AnalyzeContext.TheCallShouldBeVisited at hstack
    simpa using hstack
  unfold AnalyzeContext.PushCall
  simp [h1, h2]

theorem callCase_selected (G : Graph) (recur : Value → AnalyzeContext → Outcome)
    (v : Value) (c : AnalyzeContext) (m : Ref) (Args Param Return : List Ref)
    (hcall : G.instr v.node = Instruction.Call (some m) Args)
    (hstack : c.TheCallShouldBeVisited G v = true)
    (hfun : ToFunction G m = some (Param, Return))
    (hself : ValueCompare G ((NewValue m).AppendDependOn v) c.Self = false)
    (hnd : (Param.map G.GetId).Nodup)
    (hsel : selectedFormals G v Args Param ≠ []) :
    callCase G recur v c (some m) Args =
      deferPopCall (collect (fun formalParam a =>
          recur ((NewValue formalParam).AppendDependOn ((NewValue m).AppendDependOn v)) a)
        (selectedFormals G v Args Param) [] { c with callStack := v :: c.callStack }) := by
  have hlen : (selectParams G Param (formalParamsIndex G v Args)).length > 0 := by
    have h := selectParams_eq_selectedFormals G v Args Param hnd
    cases hs : selectParams G Param (formalParamsIndex G v Args) with
    | nil => rw [hs] at h; exact absurd h.symm hsel
    | cons x xs => simp
  unfold callCase
  rw [if_neg (by rw [hstack]; simp)]
  simp only [hfun]
  rw [if_neg (by rw [hself]; simp), pushCall_ok G c v (some m) Args hcall hstack]
  simp only
  rw [if_pos hlen, selectParams_eq_selectedFormals G v Args Param hnd]

/-- C7, as stated, fails: the call 2 passes function 10 to itself, it is not
the query root nor on the call stack and its target resolves, and the formal
11 is selected; but the callee reached from this call is the query root, so
the call falls back to its users (value 3) instead of entering the formal
(which leads to 12). -/
theorem call_formals_counterexample :
    ValueCompare selfCallGraph ((NewValue 2).AppendDependOn (NewValue 10))
      (queryContext ⟨10, [2], 0⟩ unbounded).Self = false ∧
    (queryContext ⟨10, [2], 0⟩ unbounded).TheCallShouldBeVisited selfCallGraph
      ((NewValue 2).AppendDependOn (NewValue 10)) = true ∧
    selfCallGraph.instr 2 = Instruction.Call (some 10) [10] ∧
    ToFunction selfCallGraph 10 = some ([11], [13]) ∧
    selectedFormals selfCallGraph ((NewValue 2).AppendDependOn (NewValue 10)) [10] [11] = [11] ∧
    (getBottomUses selfCallGraph 5 ((NewValue 2).AppendDependOn (NewValue 10))
        (queryContext ⟨10, [2], 0⟩ unbounded)).map Prod.fst = some [⟨3, [2], 2⟩] ∧
    (getBottomUses selfCallGraph 4
        ((NewValue 11).AppendDependOn ((NewValue 10).AppendDependOn (NewValue 2)))
        { queryContext ⟨10, [2], 0⟩ unbounded with
          depth := 1, callStack := [⟨2, [10], 1⟩] }).map Prod.fst = some [⟨12, [11], 3⟩] := by
  decide!

/-- C7, amended: for a call that passes the depth gate, is not the query root
nor on the call stack, whose target resolves to a function with formals of
pairwise distinct ids, and whose callee as reached from this call is not the
query root: the formals entered are the formals the specification selects, and
when there is one, the result is the concatenation, in their order, of the
result of `getBottomUses` on each of them, on the context with the call
pushed; the call is popped and the depth restored on return. -/
theorem call_enters_selected_formals (G : Graph) (n : Nat) (v : Value) (c : AnalyzeContext)
    (m : Ref) (Args Param Return : List Ref)
    (hmax : ¬(c.config.MaxDepth > 0 ∧ c.depth + 1 > c.config.MaxDepth))
    (hmin : ¬(c.config.MinDepth < 0 ∧ c.depth + 1 < c.config.MinDepth))
    (hroot : ValueCompare G v c.Self = false)
    (hcall : G.instr v.node = Instruction.Call (some m) Args)
    (hstack : c.TheCallShouldBeVisited G v = true)
    (hfun : ToFunction G m = some (Param, Return))
    (hself : ValueCompare G ((NewValue m).AppendDependOn v) c.Self = false)
    (hnd : (Param.map G.GetId).Nodup)
    (hsel : selectedFormals G v Args Param ≠ []) :
    (selectParams G Param (formalParamsIndex G v Args)).map Prod.snd =
      selectedFormals G v Args Param ∧
    getBottomUses G (n + 1) v c =
      deferDepth (deferPopCall (collect (fun formalParam a =>
          getBottomUses G n
            ((NewValue formalParam).AppendDependOn ((NewValue m).AppendDependOn v)) a)
        (selectedFormals G v Args Param) []
        { c with depth := c.depth + 1, callStack := v.SetDepth (c.depth + 1) :: c.callStack })) := by
  refine ⟨selectParams_eq_selectedFormals G v Args Param hnd, ?_⟩
  have hbody : getBottomUses G (n + 1) v c =
      deferDepth (dispatch G (getBottomUses G n) (v.SetDepth (c.depth + 1))
        { c with depth := c.depth + 1 }) :=
    getBottomUsesBody_eq_dispatch G _ v c hmax hmin
  rw [hbody, dispatch_call G _ (v.SetDepth (c.depth + 1)) _ (some m) Args
    (by rw [valueCompare_setDepth]; exact hroot) hcall]
  rw [callCase_selected G _ (v.SetDepth (c.depth + 1)) { c with depth := c.depth + 1 } m Args
    Param Return hcall hstack hfun hself hnd hsel]
  rfl

theorem call_enters_selected_formals_witness :
    ValueCompare callGraph ((NewValue 2).AppendDependOn (NewValue 1))
      (queryContext (NewValue 1) unbounded).Self = false ∧
    callGraph.instr ((NewValue 2).AppendDependOn (NewValue 1)).node =
      Instruction.Call (some 10) [1] ∧
    (queryContext (NewValue 1) unbounded).TheCallShouldBeVisited callGraph
      ((NewValue 2).AppendDependOn (NewValue 1)) = true ∧
    ToFunction callGraph 10 = some ([11], [13]) ∧
    selectedFormals callGraph ((NewValue 2).AppendDependOn (NewValue 1)) [1] [11] = [11] ∧
    getBottomUses callGraph (4 + 1) ((NewValue 2).AppendDependOn (NewValue 1))
        (queryContext (NewValue 1) unbounded) =
      deferDepth (deferPopCall (collect (fun formalParam a =>
          getBottomUses callGraph 4
            ((NewValue formalParam).AppendDependOn
              ((NewValue 10).AppendDependOn ((NewValue 2).AppendDependOn (NewValue 1)))) a)
        (selectedFormals callGraph ((NewValue 2).AppendDependOn (NewValue 1)) [1] [11]) []
        { queryContext (NewValue 1) unbounded with
          depth := (queryContext (NewValue 1) unbounded).depth + 1,
          callStack := ((NewValue 2).AppendDependOn (NewValue 1)).SetDepth
            ((queryContext (NewValue 1) unbounded).depth + 1) ::
              (queryContext (NewValue 1) unbounded).callStack })) :=
  ⟨rfl, rfl, rfl, rfl, by decide,
   (call_enters_selected_formals callGraph 4 ((NewValue 2).AppendDependOn (NewValue 1))
      (queryContext (NewValue 1) unbounded) 10 [1] [11] [13]
      (by decide) (by decide) rfl rfl rfl rfl rfl (by decide) (by decide)).2⟩

/-- C8: on a call that none of whose arguments matches, the query returns the
wrapped return statement 13 of the callee as it is, at depth 0, never visited;
the traversal started from that return statement, with the call on the stack,
leads to the user 3 of the call. -/
theorem call_returns_unvisited_return_statements :
    selectedFormals noArgGraph ((NewValue 2).AppendDependOn (NewValue 1)) [5] [11] = [] ∧
    GetBottomUses noArgGraph 8 (NewValue 1) unbounded = some [⟨13, [10], 0⟩] ∧
    (getBottomUses noArgGraph 6 ((NewValue 13).AppendDependOn (NewValue 10))
        { queryContext (NewValue 1) unbounded with
          depth := 2, callStack := [⟨2, [1], 2⟩] }).map Prod.fst = some [⟨3, [2, 13], 4⟩] := by
  decide!

theorem callCase_fallback (G : Graph) (recur : Value → AnalyzeContext → Outcome)
    (v : Value) (c : AnalyzeContext) (Method : Option Ref) (Args : List Ref)
    (h : c.TheCallShouldBeVisited G v = false ∨ Method = none ∨
      (∃ m, Method = some m ∧ ToFunction G m = none) ∨
      (∃ e, c.PushCall G v = Except.error e)) :
    callCase G recur v c Method Args = visitUserFallback G recur v c := by
  unfold callCase
  split
  · rfl
  · rename_i hvisit
    split
    · rfl
    · rename_i m
      split
      · rfl
      · rename_i Param Return hfun
        dsimp only
        split
        · rfl
        · split
          · rfl
          · rename_i a1 hpush
            exfalso
            rcases h with h | h | ⟨m', hm', hnone⟩ | ⟨e, he⟩
            · exact hvisit h
            · cases h
            · cases hm'
              rw [hfun] at hnone; cases hnone
            · rw [hpush] at he; cases he

/-- C9: a call that passes the depth gate and is already on the call stack, or
whose `Method` is nil or not a function, or whose push is refused, returns the
direct-user expansion of the call, and the call stack on return is the call
stack on entry. -/
theorem call_falls_back (G : Graph) (n : Nat) (v : Value) (c : AnalyzeContext)
    (Method : Option Ref) (Args : List Ref)
    (hmax : ¬(c.config.MaxDepth > 0 ∧ c.depth + 1 > c.config.MaxDepth))
    (hmin : ¬(c.config.MinDepth < 0 ∧ c.depth + 1 < c.config.MinDepth))
    (hcall : G.instr v.node = Instruction.Call Method Args)
    (h : c.TheCallShouldBeVisited G v = false ∨ Method = none ∨
      (∃ m, Method = some m ∧ ToFunction G m = none) ∨
      (∃ e, ({ c with depth := c.depth + 1 } : AnalyzeContext).PushCall G
        (v.SetDepth (c.depth + 1)) = Except.error e)) :
    getBottomUses G (n + 1) v c =
      deferDepth (visitUserFallback G (getBottomUses G n) (v.SetDepth (c.depth + 1))
        { c with depth := c.depth + 1 }) ∧
    ∀ vals c', getBottomUses G (n + 1) v c = some (vals, c') → c'.callStack = c.callStack := by
  refine ⟨?_, fun vals c' hret => (getBottomUses_frame G (n + 1) v c vals c' hret).callEq⟩
  have hbody : getBottomUses G (n + 1) v c =
      deferDepth (dispatch G (getBottomUses G n) (v.SetDepth (c.depth + 1))
        { c with depth := c.depth + 1 }) :=
    getBottomUsesBody_eq_dispatch G _ v c hmax hmin
  rw [hbody]
  cases hroot : ValueCompare G v c.Self with
  | true =>
    rw [dispatch_root G _ (v.SetDepth (c.depth + 1)) { c with depth := c.depth + 1 }
      (by rw [valueCompare_setDepth]; exact hroot)]
  | false =>
    rw [dispatch_call G _ (v.SetDepth (c.depth + 1)) { c with depth := c.depth + 1 } Method Args
      (by rw [valueCompare_setDepth]; exact hroot) hcall,
      callCase_fallback G _ (v.SetDepth (c.depth + 1)) { c with depth := c.depth + 1 } Method Args h]

theorem call_falls_back_witness :
    unknownCallGraph.instr ((NewValue 2).AppendDependOn (NewValue 1)).node =
      Instruction.Call none [1] ∧
    getBottomUses unknownCallGraph (2 + 1) ((NewValue 2).AppendDependOn (NewValue 1))
        (queryContext (NewValue 1) unbounded) =
      deferDepth (visitUserFallback unknownCallGraph (getBottomUses unknownCallGraph 2)
        (((NewValue 2).AppendDependOn (NewValue 1)).SetDepth
          ((queryContext (NewValue 1) unbounded).depth + 1))
        { queryContext (NewValue 1) unbounded with
          depth := (queryContext (NewValue 1) unbounded).depth + 1 }) :=
  ⟨rfl,
   (call_falls_back unknownCallGraph 2 ((NewValue 2).AppendDependOn (NewValue 1))
      (queryContext (NewValue 1) unbounded) none [1] (by decide) (by decide) rfl
      (Or.inr (Or.inl rfl))).1⟩

/-- C10, as stated, fails: with the positive `MinDepth` 5 an invocation at
depth 1 does not return the empty list; the query on the leaf 4 returns 4. -/
theorem minDepth_counterexample :
    0 < minFive.MinDepth ∧
    (queryContext (NewValue 4) minFive).depth + 1 < minFive.MinDepth ∧
    GetBottomUses diamondGraph 1 (NewValue 4) minFive = some [⟨4, [], 1⟩] := by
  decide!

/-- C10, amended: when `MinDepth` is negative and the depth after the increment
is below it, the invocation returns the empty list whatever its recursive
callee is; when `MinDepth` is not negative the test on it never fires, and an
invocation within `MaxDepth` goes on to the kind dispatch. -/
theorem minDepth_gate (G : Graph) (recur : Value → AnalyzeContext → Outcome)
    (v : Value) (c : AnalyzeContext) :
    (c.config.MinDepth < 0 → c.depth + 1 < c.config.MinDepth →
      getBottomUsesBody G recur v c = some ([], c)) ∧
    (0 ≤ c.config.MinDepth →
      ¬(c.config.MaxDepth > 0 ∧ c.depth + 1 > c.config.MaxDepth) →
      getBottomUsesBody G recur v c =
        deferDepth (dispatch G recur (v.SetDepth (c.depth + 1))
          { c with depth := c.depth + 1 })) := by
  constructor
  · intro h1 h2
    unfold getBottomUsesBody
    dsimp only
    by_cases hmax : c.config.MaxDepth > 0 ∧ c.depth + 1 > c.config.MaxDepth
    · rw [if_pos hmax]; exact deferDepth_some _ _
    · rw [if_neg hmax, if_pos ⟨h1, h2⟩]; exact deferDepth_some _ _
  · intro h0 hmax
    exact getBottomUsesBody_eq_dispatch G recur v c hmax (fun h => by omega)

theorem minDepth_gate_witness :
    minNegTwo.MinDepth < 0 ∧ (-5 : Int) + 1 < minNegTwo.MinDepth ∧
    getBottomUsesBody diamondGraph (fun _ _ => none) (NewValue 4)
        { queryContext (NewValue 1) minNegTwo with depth := -5 } =
      some ([], { queryContext (NewValue 1) minNegTwo with depth := -5 }) :=
  ⟨by decide, by decide,
   (minDepth_gate diamondGraph (fun _ _ => none) (NewValue 4)
      { queryContext (NewValue 1) minNegTwo with depth := -5 }).1 (by decide) (by decide)⟩

/-- A callee whose outcome does not depend on the hook of the context. -/
theorem collect_hook {α : Type} (h : Option (Value → Option String))
    (f : α → AnalyzeContext → Outcome)
    (hf : ∀ x a, f x (setHook h a) = liftHook h (f x a)) :
    ∀ (xs : List α) (vals : Values) (a : AnalyzeContext),
      collect f xs vals (setHook h a) = liftHook h (collect f xs vals a)
  | [], vals, a => rfl
  | x :: xs, vals, a => by
    simp only [collect, hf]
    cases hfx : f x a with
    | none => rfl
    | some p =>
      obtain ⟨ret, a1⟩ := p
      simp only [liftHook, Option.map_some']
      exact collect_hook h f hf xs _ a1

theorem visitUserFallback_hook (G : Graph) (h : Option (Value → Option String))
    (recur : Value → AnalyzeContext → Outcome)
    (hr : ∀ v a, recur v (setHook h a) = liftHook h (recur v a))
    (v : Value) (c : AnalyzeContext) :
    visitUserFallback G recur v (setHook h c) = liftHook h (visitUserFallback G recur v c) := by
  unfold visitUserFallback
  rw [collect_hook h _ (fun x a => hr _ a)]
  cases hc : collect (fun value a => recur (value.AppendDependOn v) a) (v.GetUsers G) [] c with
  | none => rfl
  | some p =>
    obtain ⟨vals, a1⟩ := p
    simp only [liftHook, Option.map_some']
    have hm : (setHook h a1).TheMemberShouldBeVisited G v = a1.TheMemberShouldBeVisited G v := rfl
    have hp : ∀ o k m, (setHook h a1).PushObject o k m = setHook h (a1.PushObject o k m) :=
      fun _ _ _ => rfl
    simp only [hm, hp, hr]
    split_ifs with hcond
    · cases hrec : recur (v.GetObject G) (a1.PushObject (v.GetObject G) (v.GetKey G) v) with
      | none => rfl
      | some q =>
        obtain ⟨ret, a2⟩ := q
        simp only [liftHook, Option.map_some']
        split <;> rfl
    · simp only
      split <;> rfl

theorem pushCall_hook (G : Graph) (h : Option (Value → Option String)) (a : AnalyzeContext)
    (v : Value) :
    (setHook h a).PushCall G v =
      match a.PushCall G v with
      | Except.error e => Except.error e
      | Except.ok a1 => Except.ok (setHook h a1) := by
  unfold AnalyzeContext.PushCall
  have h1 : (setHook h a).IsExistedInCallStack G v = a.IsExistedInCallStack G v := rfl
  rw [h1]
  split_ifs <;> rfl

theorem deferPopCall_hook (h : Option (Value → Option String)) (r : Outcome) :
    deferPopCall (liftHook h r) = liftHook h (deferPopCall r) := by
  cases r <;> rfl

theorem deferDepth_hook (h : Option (Value → Option String)) (r : Outcome) :
    deferDepth (liftHook h r) = liftHook h (deferDepth r) := by
  cases r <;> rfl

theorem callCase_hook (G : Graph) (h : Option (Value → Option String))
    (recur : Value → AnalyzeContext → Outcome)
    (hr : ∀ v a, recur v (setHook h a) = liftHook h (recur v a))
    (v : Value) (c : AnalyzeContext) (Method : Option Ref) (Args : List Ref) :
    callCase G recur v (setHook h c) Method Args =
      liftHook h (callCase G recur v c Method Args) := by
  have hv := visitUserFallback_hook G h recur hr v c
  have hvis : (setHook h c).TheCallShouldBeVisited G v = c.TheCallShouldBeVisited G v := rfl
  have hself : (setHook h c).Self = c.Self := rfl
  unfold callCase
  rw [hvis, hself, hv, pushCall_hook]
  split_ifs with h1
  · rfl
  · cases Method with
    | none => rfl
    | some m =>
      simp only
      cases hf : ToFunction G m with
      | none => rfl
      | some pr =>
        obtain ⟨Param, Return⟩ := pr
        simp only
        cases hp : c.PushCall G v with
        | error e =>
          simp only
          split_ifs <;> rfl
        | ok a1 =>
          simp only
          split_ifs with h2 h3
          · rfl
          · rw [← deferPopCall_hook]
            congr 1
            exact collect_hook h _ (fun x a => hr _ a) _ _ _
          · rfl

theorem returnFallback_hook (G : Graph) (h : Option (Value → Option String))
    (recur : Value → AnalyzeContext → Outcome)
    (hr : ∀ v a, recur v (setHook h a) = liftHook h (recur v a))
    (v : Value) (c : AnalyzeContext) (Func : Option Ref) (Results : List Ref) :
    returnFallback G recur v (setHook h c) Func Results =
      liftHook h (returnFallback G recur v c Func Results) := by
  unfold returnFallback
  have hstep : ∀ (x : Value) (a : AnalyzeContext),
      (match (setHook h a).PushCall G (x.AppendDependOn v) with
        | Except.error _ => recur (x.AppendDependOn v) (setHook h a)
        | Except.ok a1 => deferPopCall (recur (x.AppendDependOn v) a1)) =
      liftHook h (match a.PushCall G (x.AppendDependOn v) with
        | Except.error _ => recur (x.AppendDependOn v) a
        | Except.ok a1 => deferPopCall (recur (x.AppendDependOn v) a1)) := by
    intro x a
    rw [pushCall_hook]
    cases hp : a.PushCall G (x.AppendDependOn v) with
    | error e => exact hr _ a
    | ok a1 =>
      simp only
      rw [hr, deferPopCall_hook]
  cases Func with
  | none =>
    simp only
    split_ifs <;> rfl
  | some f =>
    simp only
    rw [collect_hook h _ hstep]
    cases hc : collect (fun value a =>
        match a.PushCall G (value.AppendDependOn v) with
        | Except.error _ => recur (value.AppendDependOn v) a
        | Except.ok a1 => deferPopCall (recur (value.AppendDependOn v) a1))
        ((NewValue f).GetCalledBy G) [] c with
    | none => rfl
    | some p =>
      obtain ⟨results, a2⟩ := p
      simp only [liftHook, Option.map_some']
      split_ifs <;> rfl

theorem returnCase_hook (G : Graph) (h : Option (Value → Option String))
    (recur : Value → AnalyzeContext → Outcome)
    (hr : ∀ v a, recur v (setHook h a) = liftHook h (recur v a))
    (v : Value) (c : AnalyzeContext) (Func : Option Ref) (Results : List Ref) :
    returnCase G recur v (setHook h c) Func Results =
      liftHook h (returnCase G recur v c Func Results) := by
  have hfb := returnFallback_hook G h recur hr v c Func Results
  have hstack : (setHook h c).callStack = c.callStack := rfl
  have hcur : (setHook h c).GetCurrentCall = c.GetCurrentCall := rfl
  unfold returnCase
  rw [hstack, hcur, hfb]
  split_ifs with h1
  · dsimp only
    cases hc : c.GetCurrentCall with
    | none => rfl
    | some cur =>
      simp only
      cases hi : G.instr cur.node with
      | Call Method args =>
        simp only
        cases hm : Method.bind (ToFunction G) with
        | none => rfl
        | some pr =>
          simp only
          split_ifs with h2
          · rw [collect_hook h _ (fun x a => hr _ a)]
            cases hcol : collect (fun user a =>
                recur ((user.AppendDependOn cur).AppendDependOn v) a)
                ((NewValue cur.node).GetUsers G) [] c with
            | none => rfl
            | some p =>
              obtain ⟨vals, a1⟩ := p
              simp only [liftHook, Option.map_some']
              split_ifs
              · rfl
              · exact hr _ a1
          · have hstep : ∀ (idx : Nat) (a : AnalyzeContext),
                (match G.GetIndexMember cur.node idx with
                  | none => some ([], setHook h a)
                  | some indexedReturn =>
                    match recur (((NewValue indexedReturn).AppendDependOn
                          (NewValue indexedReturn)).AppendDependOn v)
                        ((setHook h a).PushObject cur ((NewValue indexedReturn).GetKey G)
                          (NewValue indexedReturn)) with
                    | none => none
                    | some (newVals, a1) => some (newVals, a1.PopObject)) =
                liftHook h (match G.GetIndexMember cur.node idx with
                  | none => some ([], a)
                  | some indexedReturn =>
                    match recur (((NewValue indexedReturn).AppendDependOn
                          (NewValue indexedReturn)).AppendDependOn v)
                        (a.PushObject cur ((NewValue indexedReturn).GetKey G)
                          (NewValue indexedReturn)) with
                    | none => none
                    | some (newVals, a1) => some (newVals, a1.PopObject)) := by
              intro idx a
              cases G.GetIndexMember cur.node idx with
              | none => rfl
              | some ir =>
                simp only
                have hp : (setHook h a).PushObject cur ((NewValue ir).GetKey G) (NewValue ir) =
                    setHook h (a.PushObject cur ((NewValue ir).GetKey G) (NewValue ir)) := rfl
                rw [hp, hr]
                cases recur (((NewValue ir).AppendDependOn (NewValue ir)).AppendDependOn v)
                    (a.PushObject cur ((NewValue ir).GetKey G) (NewValue ir)) with
                | none => rfl
                | some q => rfl
            rw [collect_hook h _ hstep]
            cases hcol : collect (fun idx a =>
                match G.GetIndexMember cur.node idx with
                | none => some ([], a)
                | some indexedReturn =>
                  match recur (((NewValue indexedReturn).AppendDependOn
                        (NewValue indexedReturn)).AppendDependOn v)
                      (a.PushObject cur ((NewValue indexedReturn).GetKey G)
                        (NewValue indexedReturn)) with
                  | none => none
                  | some (newVals, a1) => some (newVals, a1.PopObject))
                ((Results.enum.filter (fun p => decide (G.GetId p.2 ∈ v.dependIds G))).map
                  Prod.fst) [] c with
            | none => rfl
            | some p =>
              obtain ⟨vals, a1⟩ := p
              simp only [liftHook, Option.map_some']
              split_ifs
              · rfl
              · exact hr _ a1
      | _ => rfl
  · rfl

theorem dispatch_hook (G : Graph) (h : Option (Value → Option String))
    (recur : Value → AnalyzeContext → Outcome)
    (hr : ∀ v a, recur v (setHook h a) = liftHook h (recur v a))
    (v : Value) (c : AnalyzeContext) :
    dispatch G recur v (setHook h c) = liftHook h (dispatch G recur v c) := by
  have hself : (setHook h c).Self = c.Self := rfl
  have hphi : (setHook h c).ThePhiShouldBeVisited G v = c.ThePhiShouldBeVisited G v := rfl
  have hvisit : (setHook h c).VisitPhi G v = setHook h (c.VisitPhi G v) := rfl
  unfold dispatch
  rw [hself, hphi, hvisit]
  by_cases h1 : ValueCompare G v c.Self = true
  · rw [if_pos h1, if_pos h1]
    exact visitUserFallback_hook G h recur hr v c
  · rw [if_neg h1, if_neg h1]
    cases G.instr v.node with
    | LazyInstruction self => exact hr _ c
    | Phi =>
      simp only
      by_cases h2 : c.ThePhiShouldBeVisited G v = false
      · rw [if_pos h2, if_pos h2]; rfl
      · rw [if_neg h2, if_neg h2]
        exact visitUserFallback_hook G h recur hr v _
    | Call Method Args => exact callCase_hook G h recur hr v c Method Args
    | Return Func Results => exact returnCase_hook G h recur hr v c Func Results
    | Function ps rs => exact visitUserFallback_hook G h recur hr v c
    | Undefined k => exact visitUserFallback_hook G h recur hr v c
    | Other => exact visitUserFallback_hook G h recur hr v c

theorem getBottomUsesBody_gates (G : Graph) (recur : Value → AnalyzeContext → Outcome)
    (v : Value) (c : AnalyzeContext) :
    getBottomUsesBody G recur v c =
      deferDepth
        (if c.config.MaxDepth > 0 ∧ c.depth + 1 > c.config.MaxDepth then
          some ([], { c with depth := c.depth + 1 })
        else if c.config.MinDepth < 0 ∧ c.depth + 1 < c.config.MinDepth then
          some ([], { c with depth := c.depth + 1 })
        else dispatch G recur (v.SetDepth (c.depth + 1)) { c with depth := c.depth + 1 }) := by
  unfold getBottomUsesBody
  dsimp only
  split_ifs
  · rfl
  · rfl
  · split
    · rfl
    · split <;> rfl

theorem getBottomUsesBody_hook (G : Graph) (h : Option (Value → Option String))
    (recur : Value → AnalyzeContext → Outcome)
    (hr : ∀ v a, recur v (setHook h a) = liftHook h (recur v a))
    (v : Value) (c : AnalyzeContext) :
    getBottomUsesBody G recur v (setHook h c) = liftHook h (getBottomUsesBody G recur v c) := by
  rw [getBottomUsesBody_gates, getBottomUsesBody_gates, ← deferDepth_hook]
  congr 1
  have hmax : (setHook h c).config.MaxDepth = c.config.MaxDepth := rfl
  have hmin : (setHook h c).config.MinDepth = c.config.MinDepth := rfl
  have hdepth : (setHook h c).depth = c.depth := rfl
  have hctx : ({ setHook h c with depth := c.depth + 1 } : AnalyzeContext) =
      setHook h { c with depth := c.depth + 1 } := rfl
  rw [hmax, hmin, hdepth, hctx]
  split_ifs
  · rfl
  · rfl
  · exact dispatch_hook G h recur hr _ _

theorem getBottomUses_hook (G : Graph) (h : Option (Value → Option String)) :
    ∀ (n : Nat) (v : Value) (c : AnalyzeContext),
      getBottomUses G n v (setHook h c) = liftHook h (getBottomUses G n v c)
  | 0, _, _ => rfl
  | n + 1, v, c => getBottomUsesBody_hook G h _ (getBottomUses_hook G h n) v c

/-- C11: the list a query returns is the same under a hook that returns errors
as under the hook that returns nil on every node, for every graph, start value,
configuration and bound on the nesting; in particular one returns exactly when
the other does. -/
theorem hook_errors_do_not_alter_result (G : Graph) (n : Nat) (v : Value)
    (cfg : OperationConfig) (hook : Value → Option String) :
    GetBottomUses G n v { cfg with HookEveryNode := some hook } =
      GetBottomUses G n v { cfg with HookEveryNode := some (fun _ => none) } := by
  have key : ∀ h : Option (Value → Option String),
      GetBottomUses G n v { cfg with HookEveryNode := h } =
        (getBottomUses G n v { NewAnalyzeContext cfg with Self := some v }).map Prod.fst := by
    intro h
    have hctx : ({ NewAnalyzeContext { cfg with HookEveryNode := h } with Self := some v } :
        AnalyzeContext) = setHook h { NewAnalyzeContext cfg with Self := some v } := rfl
    unfold GetBottomUses
    dsimp only
    rw [hctx, getBottomUses_hook]
    cases getBottomUses G n v { NewAnalyzeContext cfg with Self := some v } with
    | none => rfl
    | some p => rfl
  rw [key, key]

theorem deferDepth_map_fst (r : Outcome) : (deferDepth r).map Prod.fst = r.map Prod.fst := by
  cases r <;> rfl

theorem GetBottomUses_eq_map (G : Graph) (fuel : Nat) (v : Value) (cfg : OperationConfig) :
    GetBottomUses G fuel v cfg = (getBottomUses G fuel v (queryContext v cfg)).map Prod.fst := by
  unfold GetBottomUses queryContext
  dsimp only
  cases getBottomUses G fuel v { NewAnalyzeContext cfg with Self := some v } <;> rfl

/-- C24: the invocation of a query on its root `v` passes both depth gates and
never reaches the kind dispatch: whatever the node kind of `v`, it is
`visitUserFallback` on `v` at depth 1, on the fresh context of the query with
an empty call stack and an empty set of visited phis, and `GetBottomUses`
returns the values of that call. More generally an invocation on a value that
compares equal to `Self` goes to `visitUserFallback` before any kind is
examined. -/
theorem root_skips_kind_dispatch (G : Graph) (n : Nat) (v : Value) (cfg : OperationConfig) :
    getBottomUses G (n + 1) v (queryContext v cfg) =
      deferDepth (visitUserFallback G (getBottomUses G n) (v.SetDepth 1)
        { queryContext v cfg with depth := 1 }) ∧
    GetBottomUses G (n + 1) v cfg =
      (visitUserFallback G (getBottomUses G n) (v.SetDepth 1)
        { queryContext v cfg with depth := 1 }).map Prod.fst ∧
    ({ queryContext v cfg with depth := 1 } : AnalyzeContext).callStack = [] ∧
    ({ queryContext v cfg with depth := 1 } : AnalyzeContext).visitedPhi = [] ∧
    ∀ (recur : Value → AnalyzeContext → Outcome) (c : AnalyzeContext),
      ValueCompare G v c.Self = true → dispatch G recur v c = visitUserFallback G recur v c := by
  have hmax : ¬((queryContext v cfg).config.MaxDepth > 0 ∧
      (queryContext v cfg).depth + 1 > (queryContext v cfg).config.MaxDepth) := by
    show ¬(cfg.MaxDepth > 0 ∧ (0 : Int) + 1 > cfg.MaxDepth)
    omega
  have hmin : ¬((queryContext v cfg).config.MinDepth < 0 ∧
      (queryContext v cfg).depth + 1 < (queryContext v cfg).config.MinDepth) := by
    show ¬(cfg.MinDepth < 0 ∧ (0 : Int) + 1 < cfg.MinDepth)
    omega
  have hroot : ValueCompare G (v.SetDepth ((queryContext v cfg).depth + 1))
      ({ queryContext v cfg with depth := (queryContext v cfg).depth + 1 } :
        AnalyzeContext).Self = true := by
    rw [valueCompare_setDepth]
    exact valueCompare_self G v
  have h1 : getBottomUses G (n + 1) v (queryContext v cfg) =
      deferDepth (visitUserFallback G (getBottomUses G n) (v.SetDepth 1)
        { queryContext v cfg with depth := 1 }) := by
    show getBottomUsesBody G (getBottomUses G n) v (queryContext v cfg) = _
    rw [getBottomUsesBody_eq_dispatch G (getBottomUses G n) v (queryContext v cfg) hmax hmin,
      dispatch_root G (getBottomUses G n) _ _ hroot]
    rfl
  refine ⟨h1, ?_, rfl, rfl, fun recur c h => dispatch_root G recur v c h⟩
  rw [GetBottomUses_eq_map, h1, deferDepth_map_fst]

theorem foldl_keep {α β : Type} (l : List α) (m : β) : l.foldl (fun m _ => m) m = m := by
  induction l with
  | nil => rfl
  | cons _ l ih => exact ih

theorem selectParams_nil (G : Graph) (Param : List Ref) : selectParams G Param [] = [] := by
  unfold selectParams
  have hfold : Param.enum.foldl
      (fun (m : List (Int × Ref)) (p : Nat × Ref) => ([] : List Nat).foldl
        (fun m i => if p.1 = i then omapSet m (G.GetId p.2) p.2 else m) m) [] = [] :=
    foldl_keep Param.enum []
  have hguard : ¬(loMax [] ≥ Param.length ∧ Param.length > 0) := by
    show ¬(0 ≥ Param.length ∧ Param.length > 0)
    omega
  dsimp only
  rw [if_neg hguard]
  exact hfold

/-- C25: in the call case, when no argument position of the call matches the
values `v` depends on, the largest matched position is 0, the overflow guard
fails for any number of formals, no formal is selected, and the call returns
the wrapped return statements of the callee, the call stack being what it was
on entry. -/
theorem empty_match_skips_overflow (G : Graph) (recur : Value → AnalyzeContext → Outcome)
    (v : Value) (c : AnalyzeContext) (m : Ref) (Args Param Return : List Ref)
    (hcall : G.instr v.node = Instruction.Call (some m) Args)
    (hstack : c.TheCallShouldBeVisited G v = true)
    (hfun : ToFunction G m = some (Param, Return))
    (hself : ValueCompare G ((NewValue m).AppendDependOn v) c.Self = false)
    (hidx : formalParamsIndex G v Args = []) :
    loMax (formalParamsIndex G v Args) = 0 ∧
    ¬(loMax (formalParamsIndex G v Args) ≥ Param.length ∧ Param.length > 0) ∧
    selectParams G Param (formalParamsIndex G v Args) = [] ∧
    callCase G recur v c (some m) Args =
      some (Return.map (fun retStmt =>
        (NewValue retStmt).AppendDependOn ((NewValue m).AppendDependOn v)), c) := by
  have hsel : selectParams G Param (formalParamsIndex G v Args) = [] := by
    rw [hidx]; exact selectParams_nil G Param
  refine ⟨by rw [hidx]; rfl, ?_, hsel, ?_⟩
  · rw [hidx]
    show ¬(0 ≥ Param.length ∧ Param.length > 0)
    omega
  · unfold callCase
    rw [if_neg (by simp [hstack])]
    simp only [hfun]
    rw [if_neg (by simp [hself]), pushCall_ok G c v (some m) Args hcall hstack]
    simp only [hsel]
    rfl

theorem empty_match_skips_overflow_witness :
    formalParamsIndex noArgGraph ((NewValue 2).AppendDependOn (NewValue 1)) [5] = [] ∧
    callCase noArgGraph (getBottomUses noArgGraph 2) ((NewValue 2).AppendDependOn (NewValue 1))
        (queryContext (NewValue 1) unbounded) (some 10) [5] =
      some ([13].map (fun retStmt =>
        (NewValue retStmt).AppendDependOn
          ((NewValue 10).AppendDependOn ((NewValue 2).AppendDependOn (NewValue 1)))),
        queryContext (NewValue 1) unbounded) :=
  ⟨by decide,
    (empty_match_skips_overflow noArgGraph (getBottomUses noArgGraph 2)
      ((NewValue 2).AppendDependOn (NewValue 1)) (queryContext (NewValue 1) unbounded)
      10 [5] [11] [13] rfl (by decide) rfl (by decide) (by decide)).2.2.2⟩

/-- C27: with a single explicit argument `WithIgnoreSyntaxError` and
`WithFeedCode` ignore it and set their flag to true, `false` included: the
argument is read only when there are at least two. `Debug` of the SyntaxFlow
virtual machine, written the same way, reads a single argument. -/
theorem WithIgnoreSyntaxError_ignores_single_argument (c : config) (b0 b1 : Bool)
    (s : Sfvm.SyntaxFlowVirtualMachine) :
    (WithIgnoreSyntaxError [b0] c).ignoreSyntaxErr = true ∧
    (WithIgnoreSyntaxError [false] defaultConfig).ignoreSyntaxErr = true ∧
    (WithIgnoreSyntaxError [] c).ignoreSyntaxErr = true ∧
    (WithIgnoreSyntaxError [b0, b1] c).ignoreSyntaxErr = b0 ∧
    (WithFeedCode [b0] c).feedCode = true ∧
    (WithFeedCode [false] defaultConfig).feedCode = true ∧
    (WithFeedCode [] c).feedCode = true ∧
    (WithFeedCode [b0, b1] c).feedCode = b0 ∧
    (s.Debug [b0]).debug = b0 ∧
    (s.Debug []).debug = true :=
  ⟨rfl, rfl, rfl, rfl, rfl, rfl, rfl, rfl, rfl, rfl⟩

/-- C28: `ParseFromReader` stores what `parseFile` returned exactly when the
parse failed. A text that parses is parsed again by the second call and the
cache stays empty; a text that does not parse is parsed once, its nil program
is stored, and the second call returns the nil program with a nil error. -/
theorem ParseFromReader_caches_failed_parses_only :
    ParseFromReader exampleSha1 exampleParseFile "a = 1" [] emptyParseState =
      ((some { ssaProgram := 7, config := some { defaultConfig with code := "a = 1" } }, none),
        { cache := [], parses := 1 }) ∧
    (ParseFromReader exampleSha1 exampleParseFile "a = 1" []
      (ParseFromReader exampleSha1 exampleParseFile "a = 1" [] emptyParseState).2).2 =
        { cache := [], parses := 2 } ∧
    ParseFromReader exampleSha1 exampleParseFile "a =" [] emptyParseState =
      ((none, some "parse failed"), { cache := [("a =||false|", none)], parses := 1 }) ∧
    ParseFromReader exampleSha1 exampleParseFile "a =" []
      (ParseFromReader exampleSha1 exampleParseFile "a =" [] emptyParseState).2 =
        ((none, none), { cache := [("a =||false|", none)], parses := 1 }) := by
  decide

/-- C30: on a program whose config is nil `Feed` panics: the guard holds and
the error message it builds reads `p.config.language`. With a config whose
`feedCode` is false or whose `Builder` is nil it returns an error without
calling `feed`; otherwise it returns what `feed` returns. -/
theorem Feed_nil_config_panics (feed : config → Nat → String → Option String) (ssa : Nat)
    (code : String) (c : config) :
    Program.Feed feed { ssaProgram := ssa, config := none } code =
      FeedResult.panic "invalid memory address or nil pointer dereference" ∧
    (c.feedCode = false ∨ c.Builder = none →
      Program.Feed feed { ssaProgram := ssa, config := some c } code =
        FeedResult.returned (some ("not support language " ++ c.language))) ∧
    (c.feedCode = true ∧ c.Builder ≠ none →
      Program.Feed feed { ssaProgram := ssa, config := some c } code =
        FeedResult.returned (feed c ssa code)) := by
  refine ⟨rfl, ?_, ?_⟩
  · intro h
    unfold Program.Feed
    simp only
    rw [if_pos h]
  · intro h
    unfold Program.Feed
    simp only
    rw [if_neg]
    intro h2
    cases h2 with
    | inl hf => rw [h.1] at hf; cases hf
    | inr hb => exact h.2 hb

end Ssaapi

namespace Ssautil

theorem updateAt_length {α : Type} (f : α → α) :
    ∀ (l : List α) (i : Nat), (updateAt f l i).length = l.length
  | [], _ => rfl
  | _ :: _, 0 => rfl
  | _ :: xs, i + 1 => by simp [updateAt, updateAt_length f xs i]

theorem updateAt_getElem? {α : Type} (f : α → α) :
    ∀ (l : List α) (i j : Nat),
      (updateAt f l i)[j]? = if j = i then (l[j]?).map f else l[j]?
  | [], _, _ => by simp [updateAt]
  | x :: xs, 0, 0 => by simp [updateAt]
  | x :: xs, 0, j + 1 => by simp [updateAt]
  | x :: xs, i + 1, 0 => by simp [updateAt]
  | x :: xs, i + 1, j + 1 => by
    simp only [updateAt, List.getElem?_cons_succ, updateAt_getElem? f xs i j]
    simp

theorem bind_ops (w : World) (s : ScopeId) (name : String) (v : Version) :
    (w.bind s name v).ops = w.ops := rfl

theorem bind_handled (w : World) (s : ScopeId) (name : String) (v : Version) :
    (w.bind s name v).handled = w.handled := rfl

theorem bind_length (w : World) (s : ScopeId) (name : String) (v : Version) :
    (w.bind s name v).scopes.length = w.scopes.length :=
  updateAt_length _ _ _

theorem merge_fold_ops (w0 : World) (s : ScopeId) (hasBase : Bool) (handler : MergeHandle)
    (branches : List Scope) :
    ∀ (names : List String) (acc : World),
      (names.foldl
        (fun acc name =>
          { acc.bind s name
              (mergedVersion handler name (w0.candidates s hasBase branches name)) with
            handled := acc.handled ++ mergeCall name (w0.candidates s hasBase branches name) })
        acc).ops = acc.ops ∧
      (names.foldl
        (fun acc name =>
          { acc.bind s name
              (mergedVersion handler name (w0.candidates s hasBase branches name)) with
            handled := acc.handled ++ mergeCall name (w0.candidates s hasBase branches name) })
        acc).scopes.length = acc.scopes.length ∧
      (names.foldl
        (fun acc name =>
          { acc.bind s name
              (mergedVersion handler name (w0.candidates s hasBase branches name)) with
            handled := acc.handled ++ mergeCall name (w0.candidates s hasBase branches name) })
        acc).handled =
        acc.handled ++
          names.flatMap (fun name => mergeCall name (w0.candidates s hasBase branches name))
  | [], acc => by simp
  | n :: ns, acc => by
    rw [List.foldl_cons]
    obtain ⟨h1, h2, h3⟩ := merge_fold_ops w0 s hasBase handler branches ns
      { acc.bind s n (mergedVersion handler n (w0.candidates s hasBase branches n)) with
        handled := acc.handled ++ mergeCall n (w0.candidates s hasBase branches n) }
    refine ⟨h1, ?_, ?_⟩
    · rw [h2]; exact bind_length acc s n _
    · rw [h3]; simp [List.flatMap_cons]

theorem Merge_ops (w : World) (s : ScopeId) (hasBase : Bool) (handler : MergeHandle)
    (branches : List Scope) :
    (w.Merge s hasBase handler branches).ops =
      w.ops ++ [ScopeOp.merge s hasBase handler branches] :=
  (merge_fold_ops w s hasBase handler branches _ _).1

theorem Merge_length (w : World) (s : ScopeId) (hasBase : Bool) (handler : MergeHandle)
    (branches : List Scope) :
    (w.Merge s hasBase handler branches).scopes.length = w.scopes.length :=
  (merge_fold_ops w s hasBase handler branches _ _).2.1

theorem Merge_handled (w : World) (s : ScopeId) (hasBase : Bool) (handler : MergeHandle)
    (branches : List Scope) :
    (w.Merge s hasBase handler branches).handled =
      w.handled ++ (w.mergeNames s branches).flatMap
        (fun name => mergeCall name (w.candidates s hasBase branches name)) :=
  (merge_fold_ops w s hasBase handler branches _ _).2.2

theorem coverBy_fold (w0 : World) (s : ScopeId) (other : Scope) :
    ∀ (names : List String) (acc : World),
      (names.foldl (fun acc name => acc.bind s name (w0.ReadValue other name)) acc).ops =
        acc.ops ∧
      (names.foldl (fun acc name => acc.bind s name (w0.ReadValue other name)) acc).scopes.length =
        acc.scopes.length ∧
      (names.foldl (fun acc name => acc.bind s name (w0.ReadValue other name)) acc).handled =
        acc.handled
  | [], acc => ⟨rfl, rfl, rfl⟩
  | n :: ns, acc => by
    rw [List.foldl_cons]
    obtain ⟨h1, h2, h3⟩ := coverBy_fold w0 s other ns (acc.bind s n (w0.ReadValue other n))
    exact ⟨h1, by rw [h2]; exact bind_length acc s n _, h3⟩

theorem CoverBy_ops (w : World) (s : ScopeId) (other : Scope) :
    (w.CoverBy s other).ops = w.ops ++ [ScopeOp.coverBy s other] :=
  (coverBy_fold w s other _ _).1

theorem CoverBy_length (w : World) (s : ScopeId) (other : Scope) :
    (w.CoverBy s other).scopes.length = w.scopes.length :=
  (coverBy_fold w s other _ _).2.1

theorem CoverBy_handled (w : World) (s : ScopeId) (other : Scope) :
    (w.CoverBy s other).handled = w.handled :=
  (coverBy_fold w s other _ _).2.2

theorem spin_fold (w0 : World) (s header latch : ScopeId) (handler : SpinHandle) :
    ∀ (ps : List (String × Version)) (acc : World),
      (ps.foldl
        (fun acc p =>
          { acc.bind s p.1
              (handler p.1 (w0.ReadValue (some header) p.1) (w0.ReadValue (some latch) p.1)) with
            handled := acc.handled ++
              [HandlerCall.spin p.1 (w0.ReadValue (some header) p.1)
                (w0.ReadValue (some latch) p.1)] })
        acc).ops = acc.ops ∧
      (ps.foldl
        (fun acc p =>
          { acc.bind s p.1
              (handler p.1 (w0.ReadValue (some header) p.1) (w0.ReadValue (some latch) p.1)) with
            handled := acc.handled ++
              [HandlerCall.spin p.1 (w0.ReadValue (some header) p.1)
                (w0.ReadValue (some latch) p.1)] })
        acc).scopes.length = acc.scopes.length
  | [], acc => ⟨rfl, rfl⟩
  | p :: ps, acc => by
    rw [List.foldl_cons]
    obtain ⟨h1, h2⟩ := spin_fold w0 s header latch handler ps
      { acc.bind s p.1
          (handler p.1 (w0.ReadValue (some header) p.1) (w0.ReadValue (some latch) p.1)) with
        handled := acc.handled ++
          [HandlerCall.spin p.1 (w0.ReadValue (some header) p.1)
            (w0.ReadValue (some latch) p.1)] }
    exact ⟨h1, by rw [h2]; exact bind_length acc s p.1 _⟩

theorem Spin_ops (w : World) (s header latch : ScopeId) (handler : SpinHandle) :
    (w.Spin s header latch handler).ops = w.ops ++ [ScopeOp.spin s header latch handler] := by
  unfold World.Spin
  dsimp only
  split
  · rfl
  · exact (spin_fold w s header latch handler _ _).1

theorem Spin_length (w : World) (s header latch : ScopeId) (handler : SpinHandle) :
    (w.Spin s header latch handler).scopes.length = w.scopes.length := by
  unfold World.Spin
  dsimp only
  split
  · rfl
  · exact (spin_fold w s header latch handler _ _).2

theorem CreateSubScope_ops (w : World) (parent : ScopeId) :
    (w.CreateSubScope parent).2.ops =
      w.ops ++ [ScopeOp.createSubScope parent w.scopes.length] := rfl

theorem CreateSubScope_fst (w : World) (parent : ScopeId) :
    (w.CreateSubScope parent).1 = w.scopes.length := rfl

theorem CreateSubScope_length (w : World) (parent : ScopeId) :
    (w.CreateSubScope parent).2.scopes.length = w.scopes.length + 1 := by
  simp [World.CreateSubScope]

theorem CreateVariable_ops (w : World) (s : ScopeId) (name : String) (isFresh : Bool) :
    (w.CreateVariable s name isFresh).ops =
      w.ops ++ [ScopeOp.createVariable s name isFresh] := rfl

theorem resolveAux_fuel (scopes : List ScopeRec) (name : String) :
    ∀ (fuel s : Nat), s < fuel → resolveAux scopes fuel s name = resolveAux scopes (s + 1) s name := by
  intro fuel
  induction fuel using Nat.strong_induction_on with
  | _ fuel ih =>
    intro s hs
    cases fuel with
    | zero => omega
    | succ f =>
      simp only [resolveAux]
      cases scopes[s]? with
      | none => rfl
      | some r =>
        simp only
        cases r.bindings.lookup name with
        | some v => rfl
        | none =>
          simp only
          cases r.parent with
          | none => rfl
          | some p =>
            simp only
            by_cases hp : p < s
            · rw [if_pos hp, if_pos hp]
              rw [ih f (Nat.lt_succ_self f) p (Nat.lt_of_lt_of_le hp (Nat.le_of_lt_succ hs)),
                ih s hs p hp]
            · rw [if_neg hp, if_neg hp]

theorem resolve_unfold (w : World) (s : ScopeId) (name : String) :
    w.resolve s name =
      match w.scopes[s]? with
      | none => none
      | some r =>
        match r.bindings.lookup name with
        | some v => some v
        | none =>
          match r.parent with
          | some p => if p < s then w.resolve p name else none
          | none => none := by
  unfold World.resolve
  simp only [resolveAux]
  cases w.scopes[s]? with
  | none => rfl
  | some r =>
    simp only
    cases r.bindings.lookup name with
    | some v => rfl
    | none =>
      simp only
      cases r.parent with
      | none => rfl
      | some p =>
        simp only
        by_cases hp : p < s
        · rw [if_pos hp, if_pos hp]
          exact resolveAux_fuel w.scopes name s p hp
        · rw [if_neg hp, if_neg hp]

theorem resolve_congr (w1 w2 : World) (name : String) :
    ∀ (s : ScopeId), (∀ j, j ≤ s → w1.scopes[j]? = w2.scopes[j]?) →
      w1.resolve s name = w2.resolve s name := by
  intro s
  induction s using Nat.strong_induction_on with
  | _ s ih =>
    intro h
    rw [resolve_unfold w1, resolve_unfold w2, h s (le_refl s)]
    cases w2.scopes[s]? with
    | none => rfl
    | some r =>
      simp only
      cases r.bindings.lookup name with
      | some v => rfl
      | none =>
        simp only
        cases r.parent with
        | none => rfl
        | some p =>
          simp only
          by_cases hp : p < s
          · rw [if_pos hp, if_pos hp]
            exact ih p hp (fun j hj => h j (Nat.le_trans hj (Nat.le_of_lt hp)))
          · rw [if_neg hp, if_neg hp]

theorem ReadValue_congr (w1 w2 : World) (name : String) (s : ScopeId)
    (h : ∀ j, j ≤ s → w1.scopes[j]? = w2.scopes[j]?) :
    w1.ReadValue (some s) name = w2.ReadValue (some s) name := by
  unfold World.ReadValue
  simp only
  rw [resolve_congr w1 w2 name s h]

theorem bind_getElem?_ne (w : World) (s : ScopeId) (name : String) (v : Version) (j : Nat)
    (hj : j ≠ s) : (w.bind s name v).scopes[j]? = w.scopes[j]? := by
  unfold World.bind
  simp only
  rw [updateAt_getElem?, if_neg hj]

theorem bind_getElem?_self (w : World) (s : ScopeId) (name : String) (v : Version) :
    (w.bind s name v).scopes[s]? =
      (w.scopes[s]?).map
        (fun r => { r with bindings := (name, v) :: r.bindings.filter (fun p => p.1 != name) }) := by
  unfold World.bind
  simp only
  rw [updateAt_getElem?, if_pos rfl]

theorem lookup_filter_ne (bs : List (String × Version)) (name other : String)
    (h : other ≠ name) :
    (bs.filter (fun p => p.1 != name)).lookup other = bs.lookup other := by
  induction bs with
  | nil => rfl
  | cons b bs ih =>
    obtain ⟨k, v⟩ := b
    by_cases hk : k = name
    · subst hk
      have h1 : ((k, v).1 != k) = false := by simp
      rw [List.filter_cons_of_neg (by simp)]
      rw [ih]
      have : (other == k) = false := by simp [h]
      simp [List.lookup, this]
    · rw [List.filter_cons_of_pos (by simp [hk])]
      by_cases ho : other = k
      · subst ho; simp [List.lookup]
      · have : (other == k) = false := by simp [ho]
        simp [List.lookup, this, ih]

theorem bind_parent (w : World) (s : ScopeId) (name : String) (v : Version) (j : Nat) :
    ((w.bind s name v).scopes[j]?).map ScopeRec.parent = (w.scopes[j]?).map ScopeRec.parent := by
  by_cases hj : j = s
  · subst hj
    rw [bind_getElem?_self]
    cases w.scopes[j]? <;> rfl
  · rw [bind_getElem?_ne w s name v j hj]

theorem merge_fold_parent (w0 : World) (s : ScopeId) (hasBase : Bool) (handler : MergeHandle)
    (branches : List Scope) (j : Nat) :
    ∀ (names : List String) (acc : World),
      ((names.foldl
        (fun acc name =>
          { acc.bind s name
              (mergedVersion handler name (w0.candidates s hasBase branches name)) with
            handled := acc.handled ++ mergeCall name (w0.candidates s hasBase branches name) })
        acc).scopes[j]?).map ScopeRec.parent = (acc.scopes[j]?).map ScopeRec.parent
  | [], acc => rfl
  | n :: ns, acc => by
    rw [List.foldl_cons, merge_fold_parent w0 s hasBase handler branches j ns]
    exact bind_parent acc s n _ j

theorem Merge_parent (w : World) (s : ScopeId) (hasBase : Bool) (handler : MergeHandle)
    (branches : List Scope) (j : Nat) :
    ((w.Merge s hasBase handler branches).scopes[j]?).map ScopeRec.parent =
      (w.scopes[j]?).map ScopeRec.parent :=
  merge_fold_parent w s hasBase handler branches j _ _

theorem CreateSubScope_parent (w : World) (parent : ScopeId) :
    ((w.CreateSubScope parent).2.scopes[w.scopes.length]?).map ScopeRec.parent =
      some (some parent) := by
  simp [World.CreateSubScope]

theorem recordEnd_eq (bodies : List ScopeId) (e : Scope) :
    recordEnd bodies e = bodies ++ [e].reduceOption := by
  cases e <;> simp [recordEnd, List.reduceOption]

theorem ifRun_items (els : Option (ScopeId → World → Scope × World)) :
    ∀ (items : List ((ScopeId → World → World) × (ScopeId → World → Scope × World)))
      (r0 : IfRun), r0.stmt.hasElse = false → r0.stmt.BodyScopes = r0.ends.reduceOption →
      ∃ r : IfRun, IfRun.run (ifCalls items els) r0 = Except.ok r ∧
        r.stmt.global = r0.stmt.global ∧ r.stmt.hasElse = els.isSome ∧
        r.stmt.BodyScopes = r.ends.reduceOption ∧
        r.ends.length = r0.ends.length + items.length + els.toList.length
  | [], r0, h0, hb => by
    cases els with
    | none => exact ⟨r0, rfl, rfl, h0, hb, by simp⟩
    | some b =>
      refine ⟨_, rfl, rfl, rfl, ?_, ?_⟩
      · simp only [IfStmt.BuildElse, recordEnd_eq, hb, List.reduceOption_append]
      · simp
  | it :: items, r0, h0, hb => by
    have hstep : ∃ r1 : IfRun, r0.step (IfCall.item it.1 it.2) = Except.ok r1 ∧
        r1.stmt.global = r0.stmt.global ∧ r1.stmt.hasElse = false ∧
        r1.stmt.BodyScopes = r1.ends.reduceOption ∧ r1.ends.length = r0.ends.length + 1 := by
      simp only [IfRun.step, IfStmt.BuildItem, h0]
      refine ⟨_, rfl, rfl, rfl, ?_, ?_⟩
      · simp only [recordEnd_eq, hb, List.reduceOption_append]
      · simp
    obtain ⟨r1, hs1, hg1, he1, hb1, hl1⟩ := hstep
    obtain ⟨r, hr, hg, he, hb2, hl⟩ := ifRun_items els items r1 he1 hb1
    refine ⟨r, ?_, hg.trans hg1, he, hb2, ?_⟩
    · show IfRun.run (IfCall.item it.1 it.2 :: ifCalls items els) r0 = Except.ok r
      simp only [IfRun.run, hs1]
      exact hr
    · rw [hl, hl1]; simp; omega

/-- C12: an if statement built from the global scope `g` by a `BuildItem` for
each item, then a `BuildElse` when there is an else, never panics; and
`BuildFinish(h)` on it returns a new scope whose parent is `g`, after exactly
two scope operations: the creation of that scope as a child of `g`, and one
`Merge` on it with `hasBase` true exactly when no else was built, the handler
`h`, and as branches the scopes the bodies returned that are not nil, in the
order the bodies were built. -/
theorem BuildFinish_merges_recorded_bodies (g : ScopeId)
    (items : List ((ScopeId → World → World) × (ScopeId → World → Scope × World)))
    (els : Option (ScopeId → World → Scope × World)) (w : World) :
    ∃ r : IfRun, IfRun.run (ifCalls items els) ⟨NewIfStmt g, w, []⟩ = Except.ok r ∧
      r.ends.length = items.length + els.toList.length ∧
      r.stmt.hasElse = els.isSome ∧
      r.stmt.BodyScopes = r.ends.reduceOption ∧
      ∀ h : MergeHandle,
        (r.stmt.BuildFinish h r.world).1 = r.world.scopes.length ∧
        (((r.stmt.BuildFinish h r.world).2.scopes[r.world.scopes.length]?).map
          ScopeRec.parent = some (some g)) ∧
        (r.stmt.BuildFinish h r.world).2.ops =
          r.world.ops ++
            [ScopeOp.createSubScope g r.world.scopes.length,
             ScopeOp.merge r.world.scopes.length (!els.isSome) h
               (r.ends.reduceOption.map some)] := by
  obtain ⟨r, hr, hg, he, hb, hl⟩ := ifRun_items els items ⟨NewIfStmt g, w, []⟩ rfl rfl
  have hg' : r.stmt.global = g := hg
  refine ⟨r, hr, by simpa using hl, he, hb, ?_⟩
  intro h
  refine ⟨rfl, ?_, ?_⟩
  · unfold IfStmt.BuildFinish
    simp only [CreateSubScope_fst]
    rw [Merge_parent, hg']
    exact CreateSubScope_parent r.world g
  · unfold IfStmt.BuildFinish
    simp only [CreateSubScope_fst]
    rw [Merge_ops, CreateSubScope_ops, he, hb, hg']
    simp

theorem ifRun_hasElse :
    ∀ (calls : List IfCall) (r0 r : IfRun), r0.stmt.hasElse = true →
      IfRun.run calls r0 = Except.ok r → r.stmt.hasElse = true
  | [], r0, r, h0, h => by
    simp only [IfRun.run, Except.ok.injEq] at h
    rw [← h]; exact h0
  | c :: cs, r0, r, h0, h => by
    simp only [IfRun.run] at h
    cases c with
    | item Condition Body =>
      simp [IfRun.step, IfStmt.BuildItem, h0] at h
    | els elseBody =>
      simp only [IfRun.step] at h
      exact ifRun_hasElse cs _ r rfl h

/-- C15: on an `IfStmt` that has an else, `BuildItem` panics with the
statement and the world as they were on entry, whatever its callbacks are: no
scope is created and no callback has run; `BuildElse` sets `hasElse`, and no
later call that returns resets it; on an `IfStmt` without else `BuildItem`
returns. -/
theorem BuildItem_after_else_panics (i : IfStmt) (w : World)
    (Condition : ScopeId → World → World) (Body : ScopeId → World → Scope × World) :
    (i.hasElse = true →
      i.BuildItem Condition Body w =
        Except.error { msg := "cannot add item after else", state := i, world := w }) ∧
    (i.hasElse = false → ∃ r, i.BuildItem Condition Body w = Except.ok r) ∧
    (∀ (elseBody : ScopeId → World → Scope × World) (w0 : World) (calls : List IfCall)
        (ends : List Scope) (r : IfRun),
      IfRun.run calls ⟨(i.BuildElse elseBody w0).1, (i.BuildElse elseBody w0).2, ends⟩ =
        Except.ok r →
      r.stmt.BuildItem Condition Body r.world =
        Except.error
          { msg := "cannot add item after else", state := r.stmt, world := r.world }) := by
  refine ⟨?_, ?_, ?_⟩
  · intro h
    simp [IfStmt.BuildItem, h]
  · intro h
    simp [IfStmt.BuildItem, h]
  · intro elseBody w0 calls ends r hr
    have h := ifRun_hasElse calls _ r rfl hr
    simp [IfStmt.BuildItem, h]

theorem loop_jumps (js : List Jump) :
    ∀ l : LoopStmt,
      (js.foldl LoopStmt.jump l).MergeToLatch = l.MergeToLatch ++ continues js ∧
      (js.foldl LoopStmt.jump l).MergeToEnd = l.MergeToEnd ++ breaks js ∧
      (js.foldl LoopStmt.jump l).global = l.global ∧
      (js.foldl LoopStmt.jump l).header = l.header ∧
      (js.foldl LoopStmt.jump l).condition = l.condition := by
  induction js with
  | nil => intro l; simp [continues, breaks]
  | cons j js ih =>
    intro l
    rw [List.foldl_cons]
    obtain ⟨h1, h2, h3, h4, h5⟩ := ih (l.jump j)
    rw [h1, h2, h3, h4, h5]
    cases j <;>
      simp [LoopStmt.jump, LoopStmt.Break, LoopStmt.Continue, LoopStmt.FallThough, continues,
        breaks]

/-- C16: on a loop whose body has a terminal scope, `Build` returns the new end
scope after these scope operations, in this order and each once: the creation
of the latch as a child of the body's terminal scope; the `Merge` on the latch
with base, `mergeLatch` and the scopes passed to `Continue`; the function
registered by `SetThird` run on the latch, when there is one; the `Spin` of
the condition with header, latch and `SpinHandler`; the creation of the end as
a child of global; `header.CoverBy(condition)`; `end.CoverBy(header)`; the
`Merge` on the end with base, `mergeEnd` and the scopes passed to `Break`. The
jumps a body takes append to the two lists in call order. -/
theorem LoopStmt_Build_order (l : LoopStmt) (body : ScopeId) (hbody : l.body = some body)
    (SpinHandler : SpinHandle) (mergeLatch mergeEnd : MergeHandle) (w : World) :
    ∃ w2 w3 w9 : World,
      w2.ops = w.ops ++
        [ScopeOp.createSubScope body w.scopes.length,
         ScopeOp.merge w.scopes.length true mergeLatch (l.MergeToLatch.map some)] ∧
      w3 = (match l.ThirdBuilder with
            | some third => third w.scopes.length w2
            | none => w2) ∧
      l.Build SpinHandler mergeLatch mergeEnd w = Except.ok (w3.scopes.length, w9) ∧
      w9.ops = w3.ops ++
        [ScopeOp.spin l.condition l.header w.scopes.length SpinHandler,
         ScopeOp.createSubScope l.global w3.scopes.length,
         ScopeOp.coverBy l.header (some l.condition),
         ScopeOp.coverBy w3.scopes.length (some l.header),
         ScopeOp.merge w3.scopes.length true mergeEnd (l.MergeToEnd.map some)] ∧
      ∀ js : List Jump,
        (js.foldl LoopStmt.jump l).MergeToLatch = l.MergeToLatch ++ continues js ∧
        (js.foldl LoopStmt.jump l).MergeToEnd = l.MergeToEnd ++ breaks js := by
  have hlen := Spin_length
    (match l.ThirdBuilder with
     | some third => third w.scopes.length
        ((w.CreateSubScope body).2.Merge w.scopes.length true mergeLatch
          (l.MergeToLatch.map some))
     | none => (w.CreateSubScope body).2.Merge w.scopes.length true mergeLatch
        (l.MergeToLatch.map some))
    l.condition l.header w.scopes.length SpinHandler
  refine ⟨(w.CreateSubScope body).2.Merge w.scopes.length true mergeLatch
      (l.MergeToLatch.map some), _,
    (((((match l.ThirdBuilder with
          | some third => third w.scopes.length
              ((w.CreateSubScope body).2.Merge w.scopes.length true mergeLatch
                (l.MergeToLatch.map some))
          | none => (w.CreateSubScope body).2.Merge w.scopes.length true mergeLatch
              (l.MergeToLatch.map some)).Spin l.condition l.header w.scopes.length
        SpinHandler).CreateSubScope l.global).2.CoverBy l.header (some l.condition)).CoverBy
      ((match l.ThirdBuilder with
          | some third => third w.scopes.length
              ((w.CreateSubScope body).2.Merge w.scopes.length true mergeLatch
                (l.MergeToLatch.map some))
          | none => (w.CreateSubScope body).2.Merge w.scopes.length true mergeLatch
              (l.MergeToLatch.map some)).Spin l.condition l.header w.scopes.length
        SpinHandler).scopes.length (some l.header)).Merge
      ((match l.ThirdBuilder with
          | some third => third w.scopes.length
              ((w.CreateSubScope body).2.Merge w.scopes.length true mergeLatch
                (l.MergeToLatch.map some))
          | none => (w.CreateSubScope body).2.Merge w.scopes.length true mergeLatch
              (l.MergeToLatch.map some)).Spin l.condition l.header w.scopes.length
        SpinHandler).scopes.length true mergeEnd (l.MergeToEnd.map some),
    ?_, rfl, ?_, ?_, ?_⟩
  · rw [Merge_ops, CreateSubScope_ops]; simp
  · unfold LoopStmt.Build
    rw [hbody]
    simp only [CreateSubScope_fst]
    exact congrArg Except.ok (Prod.ext hlen rfl)
  · rw [Merge_ops, CoverBy_ops, CoverBy_ops, CreateSubScope_ops, Spin_ops, hlen]
    simp
  · intro js
    exact ⟨(loop_jumps js l).1, (loop_jumps js l).2.1⟩

theorem coverBy_fold_parent (w0 : World) (s : ScopeId) (other : Scope) (j : Nat) :
    ∀ (names : List String) (acc : World),
      ((names.foldl (fun acc name => acc.bind s name (w0.ReadValue other name))
        acc).scopes[j]?).map ScopeRec.parent = (acc.scopes[j]?).map ScopeRec.parent
  | [], acc => rfl
  | n :: ns, acc => by
    rw [List.foldl_cons, coverBy_fold_parent w0 s other j ns]
    exact bind_parent acc s n _ j

theorem CoverBy_parent (w : World) (s : ScopeId) (other : Scope) (j : Nat) :
    ((w.CoverBy s other).scopes[j]?).map ScopeRec.parent = (w.scopes[j]?).map ScopeRec.parent :=
  coverBy_fold_parent w s other j _ _

theorem lastFallThough_none (js : List Jump) :
    lastFallThough js = none ↔ ∀ src, Jump.FallThough src ∉ js := by
  induction js with
  | nil => simp [lastFallThough]
  | cons j js ih =>
    cases j with
    | Break src => simp [lastFallThough, ih]
    | Continue src => simp [lastFallThough, ih]
    | FallThough src =>
      simp only [lastFallThough]
      constructor
      · intro h
        cases hl : lastFallThough js <;> simp [hl] at h
      · intro h
        exact absurd (List.mem_cons_self _ _) (h src)

theorem lastFallThough_mem (js : List Jump) (f : ScopeId) (h : lastFallThough js = some f) :
    Jump.FallThough f ∈ js := by
  induction js with
  | nil => simp [lastFallThough] at h
  | cons j js ih =>
    cases j with
    | Break src => exact List.mem_cons_of_mem _ (ih h)
    | Continue src => exact List.mem_cons_of_mem _ (ih h)
    | FallThough src =>
      simp only [lastFallThough] at h
      cases hl : lastFallThough js with
      | none =>
        simp only [hl, Option.some.injEq] at h
        rw [h]; exact List.mem_cons_self _ _
      | some later =>
        simp only [hl, Option.some.injEq] at h
        exact List.mem_cons_of_mem _ (ih (by rw [hl, h]))

theorem switch_jumps (js : List Jump) :
    ∀ s : SwitchStmt,
      (js.foldl SwitchStmt.jump s).mergeToSwitchEnd =
        s.mergeToSwitchEnd ++ (breaks js).map some ∧
      (js.foldl SwitchStmt.jump s).mergeToNextBody =
        (match lastFallThough js with
         | some f => some f
         | none => s.mergeToNextBody) ∧
      (js.foldl SwitchStmt.jump s).global = s.global ∧
      (js.foldl SwitchStmt.jump s).AutoBreak = s.AutoBreak := by
  induction js with
  | nil => intro s; simp [breaks, lastFallThough]
  | cons j js ih =>
    intro s
    rw [List.foldl_cons]
    obtain ⟨h1, h2, h3, h4⟩ := ih (s.jump j)
    rw [h1, h2, h3, h4]
    cases j with
    | Break src =>
      simp [SwitchStmt.jump, SwitchStmt.Break, breaks, lastFallThough]
    | Continue src =>
      simp [SwitchStmt.jump, SwitchStmt.Continue, breaks, lastFallThough]
    | FallThough src =>
      simp only [SwitchStmt.jump, SwitchStmt.FallThough, breaks, lastFallThough]
      cases lastFallThough js <;> simp

theorem enterBody_stmt (s : SwitchStmt) (merge : MergeHandle) (w : World) :
    (s.enterBody merge w).1 = w.scopes.length ∧
    (s.enterBody merge w).2.1.mergeToNextBody = none ∧
    (s.enterBody merge w).2.1.mergeToSwitchEnd = s.mergeToSwitchEnd ∧
    (s.enterBody merge w).2.1.global = s.global ∧
    (s.enterBody merge w).2.1.AutoBreak = s.AutoBreak := by
  unfold SwitchStmt.enterBody
  cases h : s.mergeToNextBody <;> simp [h, CreateSubScope_fst]

theorem enterBody_carry (s : SwitchStmt) (merge : MergeHandle) (w : World) (carry : ScopeId)
    (h : s.mergeToNextBody = some carry) :
    (s.enterBody merge w).2.2.ops =
      w.ops ++ [ScopeOp.createSubScope s.global w.scopes.length,
                ScopeOp.merge w.scopes.length true merge [some carry]] := by
  unfold SwitchStmt.enterBody
  simp only [h, CreateSubScope_fst]
  rw [Merge_ops, CreateSubScope_ops]
  simp

/-- C18: with `AutoBreak` true, when the body took no `FallThough` jump the
scope it returned is appended to the switch-end merge set, after the break
targets it registered, and no scope is carried; when it took one, the merge
set holds the break targets only and the scope of the last `FallThough` is
carried, so that the next `BuildBody` merges it into its new case scope. -/
theorem BuildBody_autoBreak (s : SwitchStmt) (hauto : s.AutoBreak = true)
    (body : ScopeId → World → BodyResult) (merge : MergeHandle) (w : World) :
    ((∀ src, Jump.FallThough src ∉
        (body (s.enterBody merge w).1 (s.enterBody merge w).2.2).jumps) →
      (s.BuildBody body merge w).1.mergeToSwitchEnd =
        s.mergeToSwitchEnd ++
          (breaks (body (s.enterBody merge w).1 (s.enterBody merge w).2.2).jumps).map some ++
          [(body (s.enterBody merge w).1 (s.enterBody merge w).2.2).ret] ∧
      (s.BuildBody body merge w).1.mergeToNextBody = none) ∧
    ((∃ src, Jump.FallThough src ∈
        (body (s.enterBody merge w).1 (s.enterBody merge w).2.2).jumps) →
      (s.BuildBody body merge w).1.mergeToSwitchEnd =
        s.mergeToSwitchEnd ++
          (breaks (body (s.enterBody merge w).1 (s.enterBody merge w).2.2).jumps).map some ∧
      ∃ f, Jump.FallThough f ∈ (body (s.enterBody merge w).1 (s.enterBody merge w).2.2).jumps ∧
        (s.BuildBody body merge w).1.mergeToNextBody = some f ∧
        ∀ (merge2 : MergeHandle) (w2 : World),
          ((s.BuildBody body merge w).1.enterBody merge2 w2).2.2.ops =
            w2.ops ++ [ScopeOp.createSubScope s.global w2.scopes.length,
                       ScopeOp.merge w2.scopes.length true merge2 [some f]]) := by
  obtain ⟨-, hc, he, hg, -⟩ := enterBody_stmt s merge w
  obtain ⟨h1, h2, h3, -⟩ := switch_jumps
    (body (s.enterBody merge w).1 (s.enterBody merge w).2.2).jumps (s.enterBody merge w).2.1
  rw [hc] at h2
  rw [he] at h1
  constructor
  · intro hno
    have hl := (lastFallThough_none _).mpr hno
    rw [hl] at h2
    unfold SwitchStmt.BuildBody
    have h2n : ((body (s.enterBody merge w).1 (s.enterBody merge w).2.2).jumps.foldl
        SwitchStmt.jump (s.enterBody merge w).2.1).mergeToNextBody = none := h2
    simp only [hauto, if_true, h2n]
    simp [h1]
  · intro hex
    cases hl : lastFallThough (body (s.enterBody merge w).1 (s.enterBody merge w).2.2).jumps with
    | none =>
      obtain ⟨src, hsrc⟩ := hex
      exact absurd hsrc ((lastFallThough_none _).mp hl src)
    | some f =>
      rw [hl] at h2
      have h2s : ((body (s.enterBody merge w).1 (s.enterBody merge w).2.2).jumps.foldl
          SwitchStmt.jump (s.enterBody merge w).2.1).mergeToNextBody = some f := h2
      have hb : s.BuildBody body merge w =
          ((body (s.enterBody merge w).1 (s.enterBody merge w).2.2).jumps.foldl SwitchStmt.jump
              (s.enterBody merge w).2.1,
            (body (s.enterBody merge w).1 (s.enterBody merge w).2.2).world) := by
        unfold SwitchStmt.BuildBody
        simp only [hauto, if_true, h2s]
        rfl
      rw [hb]
      refine ⟨h1, f, lastFallThough_mem _ f hl, h2s, ?_⟩
      intro merge2 w2
      have := enterBody_carry _ merge2 w2 f h2s
      rw [this, h3, hg]

theorem foldDefault_targets (s : SwitchStmt) :
    s.foldDefault.mergeToSwitchEnd =
      s.mergeToSwitchEnd ++ s.mergeToNextBody.toList.map some := by
  unfold SwitchStmt.foldDefault
  cases s.mergeToNextBody <;> simp

/-- C19: `Build` returns a new child of global. With `AutoBreak` true the only
operation on it is `Merge(false, merge, targets)` on the accumulated break
targets. With `AutoBreak` false the scope still carried is first appended to
the targets; then nothing is done on the new scope when there is no target,
`CoverBy(target)` when there is one, and `Merge(false, merge, targets)` when
there are more. -/
theorem SwitchStmt_Build_operations (s : SwitchStmt) (merge : MergeHandle) (w : World) :
    (s.Build merge w).1 = w.scopes.length ∧
    (((s.Build merge w).2.2.scopes[w.scopes.length]?).map ScopeRec.parent =
      some (some s.global)) ∧
    (s.AutoBreak = true →
      (s.Build merge w).2.2.ops =
        w.ops ++ [ScopeOp.createSubScope s.global w.scopes.length,
                  ScopeOp.merge w.scopes.length false merge s.mergeToSwitchEnd]) ∧
    (s.AutoBreak = false →
      (s.Build merge w).2.1.mergeToSwitchEnd =
        s.mergeToSwitchEnd ++ s.mergeToNextBody.toList.map some ∧
      (s.mergeToSwitchEnd ++ s.mergeToNextBody.toList.map some = [] →
        (s.Build merge w).2.2.ops =
          w.ops ++ [ScopeOp.createSubScope s.global w.scopes.length]) ∧
      (∀ target, s.mergeToSwitchEnd ++ s.mergeToNextBody.toList.map some = [target] →
        (s.Build merge w).2.2.ops =
          w.ops ++ [ScopeOp.createSubScope s.global w.scopes.length,
                    ScopeOp.coverBy w.scopes.length target]) ∧
      (2 ≤ (s.mergeToSwitchEnd ++ s.mergeToNextBody.toList.map some).length →
        (s.Build merge w).2.2.ops =
          w.ops ++ [ScopeOp.createSubScope s.global w.scopes.length,
                    ScopeOp.merge w.scopes.length false merge
                      (s.mergeToSwitchEnd ++ s.mergeToNextBody.toList.map some)])) := by
  have ht := foldDefault_targets s
  refine ⟨?_, ?_, ?_, ?_⟩
  · unfold SwitchStmt.Build
    dsimp only
    split
    · rfl
    · split <;> rfl
  · unfold SwitchStmt.Build
    dsimp only
    split
    · simp only [CreateSubScope_fst]
      rw [Merge_parent]; exact CreateSubScope_parent w s.global
    · split
      · exact CreateSubScope_parent w s.global
      · simp only [CreateSubScope_fst]
        rw [CoverBy_parent]; exact CreateSubScope_parent w s.global
      · simp only [CreateSubScope_fst]
        rw [Merge_parent]; exact CreateSubScope_parent w s.global
  · intro hauto
    unfold SwitchStmt.Build
    dsimp only
    rw [if_pos hauto]
    simp only [CreateSubScope_fst]
    rw [Merge_ops, CreateSubScope_ops]
    simp
  · intro hauto
    have hneg : ¬ (s.AutoBreak = true) := by rw [hauto]; simp
    rw [← ht]
    unfold SwitchStmt.Build
    dsimp only
    rw [if_neg hneg]
    refine ⟨?_, ?_, ?_, ?_⟩
    · split <;> rfl
    · intro hnil
      rw [hnil]
      rfl
    · intro target h1
      rw [h1]
      simp only [CreateSubScope_fst]
      rw [CoverBy_ops, CreateSubScope_ops]
      simp
    · intro h2
      split
      · rename_i h0; rw [h0] at h2; simp at h2
      · rename_i t h1; rw [h1] at h2; simp at h2
      · simp only [CreateSubScope_fst]
        rw [Merge_ops, CreateSubScope_ops]
        simp

/-- C20: `CreateCatch` returns a new scope whose parent is the global scope and
records it as the catch scope; `SetCache` on a catch scope then performs
`Merge(true, mergeHandler, tryBody)` and `CreateVariable(ErrorName, true)` on
it, in this order, and hands the resulting world to the catch builder, whose
returned scope becomes the catch end scope; so does `SetCache` called, on any
world, on the statement `CreateCatch` leaves. -/
theorem TryStmt_catch_order (t : TryStmt) (build : World → Scope × World) (w : World) :
    (t.CreateCatch w).1 = w.scopes.length ∧
    (((t.CreateCatch w).2.2.scopes[w.scopes.length]?).map ScopeRec.parent =
      some (some t.global)) ∧
    (t.CreateCatch w).2.2.ops = w.ops ++ [ScopeOp.createSubScope t.global w.scopes.length] ∧
    (t.CreateCatch w).2.1.cacheBody = some w.scopes.length ∧
    (t.CreateCatch w).2.1.tryBody = t.tryBody ∧
    (∀ c, t.cacheBody = some c →
      ∃ w2 : World,
        w2.ops = w.ops ++
          [ScopeOp.merge c true t.mergeHandler [t.tryBody],
           ScopeOp.createVariable c t.ErrorName true] ∧
        t.SetCache build w =
          Except.ok ({ t with cacheBody := (build w2).1 }, (build w2).2)) ∧
    ∀ w1 : World,
      ∃ w2 : World,
        w2.ops = w1.ops ++
          [ScopeOp.merge w.scopes.length true t.mergeHandler [t.tryBody],
           ScopeOp.createVariable w.scopes.length t.ErrorName true] ∧
        (t.CreateCatch w).2.1.SetCache build w1 =
          Except.ok ({ (t.CreateCatch w).2.1 with cacheBody := (build w2).1 }, (build w2).2) := by
  refine ⟨rfl, CreateSubScope_parent w t.global, rfl, rfl, rfl, ?_, ?_⟩
  · intro c hc
    refine ⟨(w.Merge c true t.mergeHandler [t.tryBody]).CreateVariable c t.ErrorName true, ?_, ?_⟩
    · rw [CreateVariable_ops, Merge_ops]; simp
    · unfold TryStmt.SetCache
      rw [hc]
  · intro w1
    refine ⟨(w1.Merge w.scopes.length true t.mergeHandler [t.tryBody]).CreateVariable
      w.scopes.length t.ErrorName true, ?_, rfl⟩
    rw [CreateVariable_ops, Merge_ops]; simp

theorem bind_lookup (w : World) (s : ScopeId) (name : String) (v : Version) (r : ScopeRec)
    (hr : w.scopes[s]? = some r) :
    ∃ r1, (w.bind s name v).scopes[s]? = some r1 ∧ r1.parent = r.parent ∧
      ∀ x, r1.bindings.lookup x = if x = name then some v else r.bindings.lookup x := by
  refine ⟨{ r with bindings := (name, v) :: r.bindings.filter (fun p => p.1 != name) },
    by rw [bind_getElem?_self, hr]; rfl, rfl, ?_⟩
  intro x
  by_cases hx : x = name
  · rw [if_pos hx, hx]
    simp [List.lookup]
  · have hb : (x == name) = false := by simp [hx]
    rw [if_neg hx]
    simp only [List.lookup, hb]
    exact lookup_filter_ne r.bindings name x hx

/-- A fold of bindings of `val` into scope `s`: the other scopes are kept, and
`s` binds `val x` for the names of the list and keeps its other bindings. -/
theorem fold_bind (s : ScopeId) (val : String → Version) (f : World → String → World)
    (hf : ∀ acc n, (f acc n).scopes = (acc.bind s n (val n)).scopes) :
    ∀ (names : List String) (acc : World),
      (∀ j, j ≠ s → (names.foldl f acc).scopes[j]? = acc.scopes[j]?) ∧
      (acc.scopes[s]? = none → (names.foldl f acc).scopes[s]? = none) ∧
      (∀ r, acc.scopes[s]? = some r →
        ∃ r1, (names.foldl f acc).scopes[s]? = some r1 ∧ r1.parent = r.parent ∧
          ∀ x, r1.bindings.lookup x = if x ∈ names then some (val x) else r.bindings.lookup x)
  | [], acc => ⟨fun _ _ => rfl, fun h => h, fun r hr => ⟨r, hr, rfl, fun x => by simp⟩⟩
  | n :: ns, acc => by
    rw [List.foldl_cons]
    obtain ⟨h1, h2, h3⟩ := fold_bind s val f hf ns (f acc n)
    refine ⟨?_, ?_, ?_⟩
    · intro j hj
      rw [h1 j hj, hf, bind_getElem?_ne acc s n _ j hj]
    · intro hnone
      apply h2
      rw [hf, bind_getElem?_self, hnone]; rfl
    · intro r hr
      obtain ⟨r1, hr1, hp1, hl1⟩ := bind_lookup acc s n (val n) r hr
      rw [← hf] at hr1
      obtain ⟨r2, hr2, hp2, hl2⟩ := h3 r1 hr1
      refine ⟨r2, hr2, hp2.trans hp1, ?_⟩
      intro x
      rw [hl2 x, hl1 x]
      by_cases hx : x ∈ ns
      · simp [hx]
      · by_cases hxn : x = n
        · subst hxn; simp [hx]
        · simp [hx, hxn]

theorem fold_bind_resolve (s : ScopeId) (val : String → Version) (f : World → String → World)
    (hf : ∀ acc n, (f acc n).scopes = (acc.bind s n (val n)).scopes)
    (names : List String) (acc : World) (x : String) :
    (x ∈ names → s < acc.scopes.length → (names.foldl f acc).resolve s x = some (val x)) ∧
    (x ∉ names → (names.foldl f acc).resolve s x = acc.resolve s x) := by
  obtain ⟨h1, h2, h3⟩ := fold_bind s val f hf names acc
  constructor
  · intro hx hs
    obtain ⟨r, hr⟩ : ∃ r, acc.scopes[s]? = some r := by
      rw [List.getElem?_eq_getElem hs]; exact ⟨_, rfl⟩
    obtain ⟨r1, hr1, -, hl⟩ := h3 r hr
    rw [resolve_unfold, hr1]
    simp only [hl x, if_pos hx]
  · intro hx
    rw [resolve_unfold, resolve_unfold acc]
    cases hr : acc.scopes[s]? with
    | none => rw [h2 hr]
    | some r =>
      obtain ⟨r1, hr1, hp, hl⟩ := h3 r hr
      rw [hr1]
      simp only [hl x, if_neg hx, hp]
      cases r.bindings.lookup x with
      | some v => rfl
      | none =>
        simp only
        cases r.parent with
        | none => rfl
        | some p =>
          simp only
          by_cases hps : p < s
          · rw [if_pos hps, if_pos hps]
            exact resolve_congr _ _ x p (fun j hj => h1 j (Nat.ne_of_lt (Nat.lt_of_le_of_lt hj hps)))
          · rw [if_neg hps, if_neg hps]

theorem Merge_resolve (w : World) (s : ScopeId) (hasBase : Bool) (handler : MergeHandle)
    (branches : List Scope) (x : String) :
    (x ∈ w.mergeNames s branches → s < w.scopes.length →
      (w.Merge s hasBase handler branches).resolve s x =
        some (mergedVersion handler x (w.candidates s hasBase branches x))) ∧
    (x ∉ w.mergeNames s branches →
      (w.Merge s hasBase handler branches).resolve s x = w.resolve s x) := by
  have h := fold_bind_resolve s
    (fun n => mergedVersion handler n (w.candidates s hasBase branches n))
    (fun acc name =>
      { acc.bind s name (mergedVersion handler name (w.candidates s hasBase branches name)) with
        handled := acc.handled ++ mergeCall name (w.candidates s hasBase branches name) })
    (fun _ _ => rfl) (w.mergeNames s branches)
    { w with ops := w.ops ++ [ScopeOp.merge s hasBase handler branches] } x
  exact ⟨fun hx hs => h.1 hx hs, fun hx => (h.2 hx).trans (resolve_congr _ _ x s (fun _ _ => rfl))⟩

theorem CreateSubScope_getElem? (w : World) (parent : ScopeId) (j : Nat)
    (hj : j < w.scopes.length) :
    (w.CreateSubScope parent).2.scopes[j]? = w.scopes[j]? := by
  simp only [World.CreateSubScope]
  rw [List.getElem?_append_left hj]

theorem CreateSubScope_resolve_old (w : World) (parent : ScopeId) (j : ScopeId) (x : String)
    (hj : j < w.scopes.length) :
    (w.CreateSubScope parent).2.resolve j x = w.resolve j x :=
  resolve_congr _ _ x j
    (fun k hk => CreateSubScope_getElem? w parent k (Nat.lt_of_le_of_lt hk hj))

theorem CreateSubScope_resolve_new (w : World) (parent : ScopeId) (x : String)
    (hp : parent < w.scopes.length) :
    (w.CreateSubScope parent).2.resolve w.scopes.length x = w.resolve parent x := by
  rw [resolve_unfold]
  have hnew : (w.CreateSubScope parent).2.scopes[w.scopes.length]? =
      some { parent := some parent, bindings := [], placeholders := [], spin := none } := by
    simp [World.CreateSubScope]
  rw [hnew]
  simp only [List.lookup, if_pos hp]
  exact CreateSubScope_resolve_old w parent parent x hp

theorem CreateSubScope_ReadValue_old (w : World) (parent : ScopeId) (j : ScopeId) (x : String)
    (hj : j < w.scopes.length) :
    (w.CreateSubScope parent).2.ReadValue (some j) x = w.ReadValue (some j) x := by
  simp only [World.ReadValue, CreateSubScope_resolve_old w parent j x hj]

theorem CreateSubScope_ReadValue_new (w : World) (parent : ScopeId) (x : String)
    (hp : parent < w.scopes.length) :
    (w.CreateSubScope parent).2.ReadValue (some w.scopes.length) x =
      w.ReadValue (some parent) x := by
  simp only [World.ReadValue, CreateSubScope_resolve_new w parent x hp]

theorem CreateSubScope_localNames (w : World) (parent : ScopeId) (j : ScopeId)
    (hj : j < w.scopes.length) :
    (w.CreateSubScope parent).2.localNames (some j) = w.localNames (some j) := by
  simp only [World.localNames, CreateSubScope_getElem? w parent j hj]

theorem allSame_of_forall (l : List Version) (a : Version) (h : ∀ v ∈ l, v = a) :
    allSame l = true ∧ (l ≠ [] → l.headD 0 = a) := by
  cases l with
  | nil => exact ⟨rfl, fun hne => absurd rfl hne⟩
  | cons v rest =>
    have hv : v = a := h v (List.mem_cons_self _ _)
    refine ⟨?_, fun _ => hv⟩
    simp only [allSame, List.all_eq_true, decide_eq_true_eq]
    intro u hu
    rw [hv]; exact h u (List.mem_cons_of_mem _ hu)

theorem not_allSame_of_nodup (l : List Version) (hn : l.Nodup) (hl : 2 ≤ l.length) :
    allSame l = false := by
  match l, hn, hl with
  | v :: u :: rest, hn, _ =>
    have hne : u ≠ v := by
      intro h
      rw [List.nodup_cons] at hn
      exact hn.1 (by rw [h]; exact List.mem_cons_self _ _)
    simp [allSame, hne]

theorem candidates_forall (w : World) (s : ScopeId) (hasBase : Bool) (branches : List Scope)
    (x : String) (a : Version)
    (hb : ∀ b ∈ branches, w.ReadValue b x = a) (hs : w.ReadValue (some s) x = a) :
    ∀ v ∈ w.candidates s hasBase branches x, v = a := by
  intro v hv
  unfold World.candidates at hv
  rw [List.mem_append] at hv
  cases hv with
  | inl h =>
    obtain ⟨b, hbm, hbv⟩ := List.mem_map.1 h
    rw [← hbv]; exact hb b hbm
  | inr h =>
    cases hasBase with
    | false => simp at h
    | true =>
      simp at h
      rw [h]; exact hs

theorem mergeCall_name (name : String) (cands : List Version) :
    ∀ c ∈ mergeCall name cands, c = HandlerCall.merge name cands := by
  intro c hc
  unfold mergeCall at hc
  by_cases h : allSame cands = true
  · rw [if_pos h] at hc; simp at hc
  · rw [if_neg h] at hc; simpa using hc

theorem mergeNames_nonempty (w : World) (s : ScopeId) (branches : List Scope) (x : String)
    (hx : x ∈ w.mergeNames s branches) : branches ≠ [] := by
  intro h
  rw [h] at hx
  simp [World.mergeNames] at hx

/-- C14: on a world where the global scope and the recorded body scopes exist,
for every name whose version in each recorded body scope is the version in the
global scope (no body and no condition assigned it), the end scope that
`BuildFinish` returns reads exactly the version the global scope had, and the
merge handler is not invoked for that name, whatever the candidates. -/
theorem BuildFinish_keeps_untouched_name (i : IfStmt) (h : MergeHandle) (w : World) (x : String)
    (hg : i.global < w.scopes.length)
    (hb : ∀ b ∈ i.BodyScopes, b < w.scopes.length)
    (hx : ∀ b ∈ i.BodyScopes, w.ReadValue (some b) x = w.ReadValue (some i.global) x) :
    (i.BuildFinish h w).2.ReadValue (some (i.BuildFinish h w).1) x =
        w.ReadValue (some i.global) x ∧
      ∃ delta, (i.BuildFinish h w).2.handled = w.handled ++ delta ∧
        ∀ cands, HandlerCall.merge x cands ∉ delta := by
  have hnew := CreateSubScope_ReadValue_new w i.global x hg
  have hall : ∀ v ∈ (w.CreateSubScope i.global).2.candidates w.scopes.length (!i.hasElse)
      (i.BodyScopes.map some) x, v = w.ReadValue (some i.global) x := by
    apply candidates_forall
    · intro b hbm
      obtain ⟨b0, hb0, rfl⟩ := List.mem_map.1 hbm
      rw [CreateSubScope_ReadValue_old w i.global b0 x (hb b0 hb0)]
      exact hx b0 hb0
    · exact hnew
  have hsame := allSame_of_forall _ _ hall
  constructor
  · unfold IfStmt.BuildFinish
    simp only [CreateSubScope_fst]
    have hm := Merge_resolve (w.CreateSubScope i.global).2 w.scopes.length (!i.hasElse) h
      (i.BodyScopes.map some) x
    by_cases hmem : x ∈ (w.CreateSubScope i.global).2.mergeNames w.scopes.length (i.BodyScopes.map some)
    · have hlen : w.scopes.length < (w.CreateSubScope i.global).2.scopes.length := by
        rw [CreateSubScope_length]; exact Nat.lt_succ_self _
      have hne : (w.CreateSubScope i.global).2.candidates w.scopes.length (!i.hasElse)
          (i.BodyScopes.map some) x ≠ [] := by
        have h1 := mergeNames_nonempty _ _ _ _ hmem
        unfold World.candidates
        intro h2
        have h3 := (List.append_eq_nil.1 h2).1
        exact h1 (List.map_eq_nil_iff.1 h3)
      unfold World.ReadValue
      simp only
      rw [hm.1 hmem hlen]
      unfold mergedVersion
      rw [if_pos hsame.1]
      simp only [Option.getD_some]
      rw [hsame.2 hne]
      rfl
    · unfold World.ReadValue
      simp only
      rw [hm.2 hmem, CreateSubScope_resolve_new w i.global x hg]
  · refine ⟨((w.CreateSubScope i.global).2.mergeNames w.scopes.length (i.BodyScopes.map some)).flatMap
        (fun name => mergeCall name ((w.CreateSubScope i.global).2.candidates w.scopes.length
          (!i.hasElse) (i.BodyScopes.map some) name)), ?_, ?_⟩
    · unfold IfStmt.BuildFinish
      simp only [CreateSubScope_fst]
      rw [Merge_handled]
      rfl
    · intro cands hc
      obtain ⟨n, -, hn⟩ := List.mem_flatMap.1 hc
      have h1 := mergeCall_name _ _ _ hn
      injection h1 with hname hcands
      subst hname
      unfold mergeCall at hn
      rw [if_pos hsame.1] at hn
      simp at hn

theorem mergeCall_filter (x n : String) (cands : List Version) :
    (mergeCall n cands).filter (HandlerCall.isMergeOf x) =
      if n = x then mergeCall n cands else [] := by
  unfold mergeCall
  by_cases hs : allSame cands = true
  · simp [hs]
  · by_cases hn : n = x
    · simp [hs, hn, HandlerCall.isMergeOf]
    · simp [hs, hn, HandlerCall.isMergeOf]

theorem mergeCalls_filter (cand : String → List Version) (x : String) :
    ∀ names : List String, names.Nodup →
      ((names.flatMap (fun n => mergeCall n (cand n))).filter (HandlerCall.isMergeOf x)) =
        if x ∈ names then mergeCall x (cand x) else []
  | [], _ => by simp
  | n :: ns, hn => by
    rw [List.nodup_cons] at hn
    rw [List.flatMap_cons, List.filter_append, mergeCall_filter, mergeCalls_filter cand x ns hn.2]
    by_cases hx : n = x
    · subst hx
      simp [hn.1]
    · have hx2 : ¬ x = n := fun h => hx h.symm
      simp [hx, hx2]

theorem mergeCalls_length (cand : String → List Version) (k : Nat)
    (hk : ∀ n, (cand n).length = k) (names : List String) :
    ∀ c ∈ names.flatMap (fun n => mergeCall n (cand n)),
      ∃ n cs, c = HandlerCall.merge n cs ∧ cs.length = k := by
  intro c hc
  obtain ⟨n, -, hn⟩ := List.mem_flatMap.1 hc
  exact ⟨n, cand n, mergeCall_name _ _ _ hn, hk n⟩

theorem candidates_length (w : World) (s : ScopeId) (hasBase : Bool) (branches : List Scope)
    (x : String) :
    (w.candidates s hasBase branches x).length =
      branches.length + (if hasBase then 1 else 0) := by
  unfold World.candidates
  cases hasBase <;> simp

theorem reduceOption_length_of_ne_none :
    ∀ (l : List Scope), (∀ e ∈ l, e ≠ none) → l.reduceOption.length = l.length
  | [], _ => rfl
  | none :: _, h => absurd rfl (h none (List.mem_cons_self _ _))
  | some a :: l, h => by
    rw [List.reduceOption_cons_of_some, List.length_cons, List.length_cons,
      reduceOption_length_of_ne_none l (fun e he => h e (List.mem_cons_of_mem _ he))]

theorem chainAux_fuel (scopes : List ScopeRec) :
    ∀ (fuel s : Nat), s < fuel → chainAux scopes fuel s = chainAux scopes (s + 1) s := by
  intro fuel
  induction fuel using Nat.strong_induction_on with
  | _ fuel ih =>
    intro s hs
    cases fuel with
    | zero => omega
    | succ f =>
      simp only [chainAux]
      cases scopes[s]? with
      | none => rfl
      | some r =>
        simp only
        cases r.parent with
        | none => rfl
        | some p =>
          simp only
          by_cases hp : p < s
          · rw [if_pos hp, if_pos hp]
            rw [ih f (Nat.lt_succ_self f) p (Nat.lt_of_lt_of_le hp (Nat.le_of_lt_succ hs)),
              ih s hs p hp]
          · rw [if_neg hp, if_neg hp]

theorem chain_unfold (w : World) (s : ScopeId) :
    w.chain s =
      match w.scopes[s]? with
      | none => []
      | some r =>
        s :: (match r.parent with
              | some p => if p < s then w.chain p else []
              | none => []) := by
  show chainAux w.scopes (s + 1) s = _
  rw [chainAux]
  cases w.scopes[s]? with
  | none => rfl
  | some r =>
    simp only
    cases r.parent with
    | none => rfl
    | some p =>
      simp only
      by_cases hp : p < s
      · rw [if_pos hp, if_pos hp, chainAux_fuel w.scopes s p hp]
        rfl
      · rw [if_neg hp, if_neg hp]

theorem chain_of_parent (w : World) (s p : ScopeId) (r : ScopeRec)
    (hr : w.scopes[s]? = some r) (hp : r.parent = some p) (hps : p < s) :
    w.chain s = s :: w.chain p := by
  rw [chain_unfold, hr]
  simp only [hp, if_pos hps]

theorem chain_congr (w1 w2 : World) :
    ∀ (s : ScopeId), (∀ j, j ≤ s → w1.scopes[j]? = w2.scopes[j]?) → w1.chain s = w2.chain s := by
  intro s
  induction s using Nat.strong_induction_on with
  | _ s ih =>
    intro h
    rw [chain_unfold w1, chain_unfold w2, h s (le_refl s)]
    cases w2.scopes[s]? with
    | none => rfl
    | some r =>
      simp only
      cases r.parent with
      | none => rfl
      | some p =>
        simp only
        by_cases hp : p < s
        · rw [if_pos hp, if_pos hp]
          rw [ih p hp (fun j hj => h j (Nat.le_trans hj (Nat.le_of_lt hp)))]
        · rw [if_neg hp, if_neg hp]

theorem chain_le (w : World) : ∀ (s : ScopeId), ∀ j ∈ w.chain s, j ≤ s := by
  intro s
  induction s using Nat.strong_induction_on with
  | _ s ih =>
    intro j hj
    rw [chain_unfold] at hj
    cases hr : w.scopes[s]? with
    | none => rw [hr] at hj; cases hj
    | some r =>
      rw [hr] at hj
      simp only [List.mem_cons] at hj
      cases hj with
      | inl h => exact Nat.le_of_eq h
      | inr h =>
        cases hp : r.parent with
        | none => rw [hp] at h; cases h
        | some p =>
          rw [hp] at h
          simp only at h
          by_cases hps : p < s
          · rw [if_pos hps] at h
            exact Nat.le_trans (ih p hps j h) (Nat.le_of_lt hps)
          · rw [if_neg hps] at h; cases h

theorem chain_mem_exists (w : World) : ∀ (s : ScopeId), ∀ j ∈ w.chain s, j < w.scopes.length := by
  intro s
  induction s using Nat.strong_induction_on with
  | _ s ih =>
    intro j hj
    rw [chain_unfold] at hj
    cases hr : w.scopes[s]? with
    | none => rw [hr] at hj; cases hj
    | some r =>
      rw [hr] at hj
      simp only [List.mem_cons] at hj
      cases hj with
      | inl h =>
        rw [h]
        by_contra hlt
        rw [List.getElem?_eq_none (Nat.le_of_not_lt hlt)] at hr
        cases hr
      | inr h =>
        cases hp : r.parent with
        | none => rw [hp] at h; cases h
        | some p =>
          rw [hp] at h
          simp only at h
          by_cases hps : p < s
          · rw [if_pos hps] at h
            exact ih p hps j h
          · rw [if_neg hps] at h; cases h

theorem chain_suffix (w : World) :
    ∀ (s j : ScopeId), j ∈ w.chain s →
      ∃ pre, w.chain s = pre ++ w.chain j ∧ ∀ i ∈ pre, j < i := by
  intro s
  induction s using Nat.strong_induction_on with
  | _ s ih =>
    intro j hj
    by_cases hjs : j = s
    · exact ⟨[], by rw [hjs]; rfl, fun i hi => by cases hi⟩
    · have hj0 := hj
      rw [chain_unfold] at hj
      cases hr : w.scopes[s]? with
      | none => rw [hr] at hj; cases hj
      | some r =>
        rw [hr] at hj
        simp only [List.mem_cons] at hj
        cases hj with
        | inl h => exact absurd h hjs
        | inr h =>
          cases hp : r.parent with
          | none => rw [hp] at h; cases h
          | some p =>
            rw [hp] at h
            simp only at h
            by_cases hps : p < s
            · rw [if_pos hps] at h
              obtain ⟨pre, hpre, hlt⟩ := ih p hps j h
              refine ⟨s :: pre, ?_, ?_⟩
              · rw [chain_of_parent w s p r hr hp hps, hpre]; rfl
              · intro i hi
                simp only [List.mem_cons] at hi
                cases hi with
                | inl hi =>
                  rw [hi]
                  exact Nat.lt_of_le_of_lt (chain_le w p j h) hps
                | inr hi => exact hlt i hi
            · rw [if_neg hps] at h; cases h

theorem resolve_eq_findSome (w : World) (x : String) :
    ∀ (s : ScopeId), w.resolve s x = (w.chain s).findSome? (fun j => w.lookupAt j x) := by
  intro s
  induction s using Nat.strong_induction_on with
  | _ s ih =>
    rw [resolve_unfold, chain_unfold]
    cases hr : w.scopes[s]? with
    | none => rfl
    | some r =>
      simp only [List.findSome?_cons]
      have hl : w.lookupAt s x = r.bindings.lookup x := by
        unfold World.lookupAt
        rw [hr]
      rw [hl]
      cases r.bindings.lookup x with
      | some v => rfl
      | none =>
        simp only
        cases r.parent with
        | none => rfl
        | some p =>
          simp only
          by_cases hps : p < s
          · rw [if_pos hps, if_pos hps]
            exact ih p hps
          · rw [if_neg hps, if_neg hps]
            rfl

theorem lookupAt_eq_none_iff (w : World) (j : ScopeId) (x : String) :
    w.lookupAt j x = none ↔ x ∉ w.localNames (some j) := by
  cases hr : w.scopes[j]? with
  | none => simp [World.lookupAt, World.localNames, hr]
  | some r =>
    simp only [World.lookupAt, World.localNames, hr, List.lookup_eq_none_iff, List.mem_map,
      not_exists, not_and, bne_iff_ne, ne_eq]
    constructor
    · intro h p hp hx
      exact h p hp hx.symm
    · intro h p hp hx
      exact h p hp hx.symm

theorem mem_touched (w : World) (s b : ScopeId) (x : String) :
    x ∈ w.touched s (some b) ↔
      ∃ j ∈ w.chain b, j ∉ w.chain s ∧ x ∈ w.localNames (some j) := by
  unfold World.touched
  simp only [List.mem_flatMap, List.mem_filter, decide_eq_true_eq]
  constructor
  · rintro ⟨j, ⟨hj, hn⟩, hx⟩
    exact ⟨j, hj, hn, hx⟩
  · rintro ⟨j, hj, hn, hx⟩
    exact ⟨j, ⟨hj, hn⟩, hx⟩

/-- A name that a branch below `g` does not touch, in a merge into a scope
whose chain leaves the chain of the branch at `g`, has in the branch the
version `g` reads. -/
theorem untouched_resolve (w : World) (s b g : ScopeId) (x : String)
    (hg : g ∈ w.chain b) (hs : ∀ j ∈ w.chain b, g < j → j ∉ w.chain s)
    (hx : x ∉ w.touched s (some b)) :
    w.resolve b x = w.resolve g x := by
  obtain ⟨pre, hpre, hlt⟩ := chain_suffix w b g hg
  rw [resolve_eq_findSome, resolve_eq_findSome, hpre, List.findSome?_append]
  have hnone : pre.findSome? (fun j => w.lookupAt j x) = none := by
    rw [List.findSome?_eq_none_iff]
    intro i hi
    rw [lookupAt_eq_none_iff]
    intro hxi
    apply hx
    rw [mem_touched]
    have hib : i ∈ w.chain b := by rw [hpre]; exact List.mem_append_left _ hi
    exact ⟨i, hib, hs i hib (hlt i hi), hxi⟩
  rw [hnone]
  rfl

theorem chain_self (w : World) (s j : ScopeId) (hj : j ∈ w.chain s) : s ∈ w.chain s := by
  rw [chain_unfold] at hj ⊢
  cases hr : w.scopes[s]? with
  | none => rw [hr] at hj; cases hj
  | some r => exact List.mem_cons_self _ _

theorem chain_after_create (w : World) (g j : ScopeId) (hj : j < w.scopes.length) :
    (w.CreateSubScope g).2.chain j = w.chain j :=
  chain_congr _ _ j (fun k hk => CreateSubScope_getElem? w g k (Nat.lt_of_le_of_lt hk hj))

theorem chain_child (w : World) (g : ScopeId) (hg : g < w.scopes.length) :
    (w.CreateSubScope g).2.chain w.scopes.length = w.scopes.length :: w.chain g := by
  have hnew : (w.CreateSubScope g).2.scopes[w.scopes.length]? =
      some { parent := some g, bindings := [], placeholders := [], spin := none } := by
    simp [World.CreateSubScope]
  rw [chain_of_parent _ _ g _ hnew rfl hg, chain_after_create w g g hg]

/-- In a merge into a new child of `g`, a name that a branch below `g` does
not touch has in the branch the version `g` reads. -/
theorem untouched_after_create (w : World) (g b : ScopeId) (x : String)
    (hg : g ∈ w.chain b)
    (hx : x ∉ (w.CreateSubScope g).2.touched w.scopes.length (some b)) :
    w.resolve b x = w.resolve g x := by
  have hb : b < w.scopes.length := chain_mem_exists w b b (chain_self w b g hg)
  have hgl : g < w.scopes.length := chain_mem_exists w b g hg
  have hcb := chain_after_create w g b hb
  rw [← CreateSubScope_resolve_old w g b x hb, ← CreateSubScope_resolve_old w g g x hgl]
  apply untouched_resolve _ w.scopes.length b g x
  · rw [hcb]; exact hg
  · intro j hj hgj
    rw [hcb] at hj
    rw [chain_child w g hgl]
    simp only [List.mem_cons, not_or]
    constructor
    · exact Nat.ne_of_lt (Nat.lt_of_le_of_lt (chain_le w b j hj) hb)
    · intro hjg
      exact absurd (chain_le w g j hjg) (Nat.not_le_of_lt hgj)
  · exact hx

theorem ReadValue_of_resolve (w : World) (a b : ScopeId) (x : String)
    (h : w.resolve a x = w.resolve b x) : w.ReadValue (some a) x = w.ReadValue (some b) x := by
  simp only [World.ReadValue, h]

theorem candidates_after_create (w : World) (g : ScopeId) (hasBase : Bool) (bodies : List ScopeId)
    (x : String) (hg : g < w.scopes.length) (hb : ∀ b ∈ bodies, b < w.scopes.length) :
    (w.CreateSubScope g).2.candidates w.scopes.length hasBase (bodies.map some) x =
      bodies.map (fun b => w.ReadValue (some b) x) ++
        (if hasBase then [w.ReadValue (some g) x] else []) := by
  unfold World.candidates
  rw [List.map_map, CreateSubScope_ReadValue_new w g x hg]
  congr 1
  apply List.map_congr_left
  intro b hbm
  exact CreateSubScope_ReadValue_old w g b x (hb b hbm)

theorem mem_mergeNames (w : World) (s : ScopeId) (branches : List Scope) (x : String) :
    x ∈ w.mergeNames s branches ↔ ∃ b ∈ branches, x ∈ w.touched s b := by
  unfold World.mergeNames
  rw [List.mem_dedup, List.mem_flatMap]

/-- The branches below `g` whose versions of `x` are not all the same touch
`x`, in a merge into a new child of `g`. -/
theorem mem_mergeNames_of_distinct (w : World) (g : ScopeId) (hasBase : Bool)
    (bodies : List ScopeId) (x : String)
    (hdesc : ∀ b ∈ bodies, g ∈ w.chain b)
    (hd : allSame (bodies.map (fun b => w.ReadValue (some b) x) ++
      (if hasBase then [w.ReadValue (some g) x] else [])) = false) :
    x ∈ (w.CreateSubScope g).2.mergeNames w.scopes.length (bodies.map some) := by
  by_contra hx
  have hall : ∀ v ∈ bodies.map (fun b => w.ReadValue (some b) x) ++
      (if hasBase then [w.ReadValue (some g) x] else []), v = w.ReadValue (some g) x := by
    intro v hv
    rw [List.mem_append] at hv
    cases hv with
    | inl hv =>
      obtain ⟨b, hb, rfl⟩ := List.mem_map.1 hv
      apply ReadValue_of_resolve
      apply untouched_after_create w g b x (hdesc b hb)
      intro ht
      exact hx ((mem_mergeNames _ _ _ _).2 ⟨some b, List.mem_map_of_mem some hb, ht⟩)
    | inr hv =>
      cases hasBase with
      | false => simp at hv
      | true => simpa using hv
  rw [(allSame_of_forall _ _ hall).1] at hd
  cases hd

/-- C13: take an if statement built from the global scope `g` by at least one
`BuildItem` and an optional `BuildElse`, whose bodies all return a scope below
`g`. If the versions of `x` in the recorded body scopes, followed by the
version in `g` when no else was built, are pairwise distinct, then
`BuildFinish` invokes the merge handler for `x` exactly once, with exactly
that list of versions; its length is the number of branches, the else
included, plus one when no else was built. Every invocation of the merge
handler by `BuildFinish` receives a candidate list of that length. -/
theorem BuildFinish_candidate_count (g : ScopeId)
    (items : List ((ScopeId → World → World) × (ScopeId → World → Scope × World)))
    (els : Option (ScopeId → World → Scope × World)) (w : World) (r : IfRun)
    (x : String) (h : MergeHandle)
    (hrun : IfRun.run (ifCalls items els) ⟨NewIfStmt g, w, []⟩ = Except.ok r)
    (hitems : items ≠ [])
    (hends : ∀ e ∈ r.ends, e ≠ none)
    (hdesc : ∀ b ∈ r.stmt.BodyScopes, g ∈ r.world.chain b)
    (hd : (r.stmt.BodyScopes.map (fun b => r.world.ReadValue (some b) x) ++
        (if els.isSome then [] else [r.world.ReadValue (some g) x])).Nodup) :
    ∃ cands delta,
      cands = r.stmt.BodyScopes.map (fun b => r.world.ReadValue (some b) x) ++
        (if els.isSome then [] else [r.world.ReadValue (some g) x]) ∧
      cands.length = items.length + els.toList.length + (if els.isSome then 0 else 1) ∧
      (r.stmt.BuildFinish h r.world).2.handled = r.world.handled ++ delta ∧
      delta.filter (HandlerCall.isMergeOf x) = [HandlerCall.merge x cands] ∧
      ∀ c ∈ delta, ∃ n cs, c = HandlerCall.merge n cs ∧
        cs.length = items.length + els.toList.length + (if els.isSome then 0 else 1) := by
  obtain ⟨r1, hr1, hg1, he1, hb1, hl1⟩ := ifRun_items els items ⟨NewIfStmt g, w, []⟩ rfl rfl
  have hrr : r1 = r := Except.ok.inj (hr1.symm.trans hrun)
  subst hrr
  have hglob : r1.stmt.global = g := hg1
  have hlen : r1.stmt.BodyScopes.length = items.length + els.toList.length := by
    rw [hb1, reduceOption_length_of_ne_none r1.ends hends, hl1]
    simp
  have hpos : 0 < items.length := List.length_pos.2 hitems
  have hb : ∀ b ∈ r1.stmt.BodyScopes, b < r1.world.scopes.length :=
    fun b hbm => chain_mem_exists r1.world b b (chain_self r1.world b g (hdesc b hbm))
  have hg : g < r1.world.scopes.length := by
    cases hbs : r1.stmt.BodyScopes with
    | nil => rw [hbs] at hlen; simp at hlen; omega
    | cons b rest =>
      exact chain_mem_exists r1.world b g (hdesc b (by rw [hbs]; exact List.mem_cons_self _ _))
  have hbase : ∀ (α : Type) (a b : α), (if (!els.isSome) = true then a else b) =
      (if els.isSome = true then b else a) := by
    intro α a b
    cases els.isSome <;> rfl
  have hcand : ∀ n, (r1.world.CreateSubScope g).2.candidates r1.world.scopes.length
      (!els.isSome) (r1.stmt.BodyScopes.map some) n =
      r1.stmt.BodyScopes.map (fun b => r1.world.ReadValue (some b) n) ++
        (if els.isSome then [] else [r1.world.ReadValue (some g) n]) := by
    intro n
    rw [candidates_after_create r1.world g (!els.isSome) r1.stmt.BodyScopes n hg hb, hbase]
  have hclen : ∀ n, ((r1.world.CreateSubScope g).2.candidates r1.world.scopes.length
      (!els.isSome) (r1.stmt.BodyScopes.map some) n).length =
      items.length + els.toList.length + (if els.isSome then 0 else 1) := by
    intro n
    rw [candidates_length, List.length_map, hlen, hbase]
  have hhandled : (r1.stmt.BuildFinish h r1.world).2.handled = r1.world.handled ++
      ((r1.world.CreateSubScope g).2.mergeNames r1.world.scopes.length
        (r1.stmt.BodyScopes.map some)).flatMap
        (fun n => mergeCall n ((r1.world.CreateSubScope g).2.candidates r1.world.scopes.length
          (!els.isSome) (r1.stmt.BodyScopes.map some) n)) := by
    unfold IfStmt.BuildFinish
    simp only [CreateSubScope_fst]
    rw [Merge_handled, hglob, he1]
    rfl
  have h2 : 2 ≤ (r1.stmt.BodyScopes.map (fun b => r1.world.ReadValue (some b) x) ++
      (if els.isSome then [] else [r1.world.ReadValue (some g) x])).length := by
    rw [← hcand x, hclen x]
    cases els with
    | none => simp; omega
    | some b => simp; omega
  have hns := not_allSame_of_nodup _ hd h2
  have hmem : x ∈ (r1.world.CreateSubScope g).2.mergeNames r1.world.scopes.length
      (r1.stmt.BodyScopes.map some) := by
    apply mem_mergeNames_of_distinct r1.world g (!els.isSome) r1.stmt.BodyScopes x hdesc
    rw [hbase]
    exact hns
  refine ⟨_, _, rfl, ?_, hhandled, ?_, ?_⟩
  · rw [← hcand x]; exact hclen x
  · have hnd : ((r1.world.CreateSubScope g).2.mergeNames r1.world.scopes.length
        (r1.stmt.BodyScopes.map some)).Nodup := List.nodup_dedup _
    rw [mergeCalls_filter _ x _ hnd, if_pos hmem, hcand x]
    unfold mergeCall
    rw [hns]
    rfl
  · exact mergeCalls_length _ _ hclen _

theorem mergeNames_single (w : World) (s : ScopeId) (b : Scope) (x : String) :
    x ∈ w.mergeNames s [b] ↔ x ∈ w.touched s b := by
  unfold World.mergeNames
  simp

theorem mergedVersion_pair (handler : MergeHandle) (x : String) (a b : Version) :
    (a = b → mergedVersion handler x [a, b] = a) ∧
    (a ≠ b → mergedVersion handler x [a, b] = handler x [a, b] ∧
      mergeCall x [a, b] = [HandlerCall.merge x [a, b]]) := by
  constructor
  · intro h
    subst h
    simp [mergedVersion, allSame]
  · intro h
    have hns : allSame [a, b] = false := by
      simp [allSame]
      exact fun hba => h hba.symm
    simp [mergedVersion, mergeCall, hns]

theorem enterBody_resolve (s : SwitchStmt) (merge : MergeHandle) (w : World) (carry : ScopeId)
    (x : String) (hc : s.mergeToNextBody = some carry)
    (hdesc : s.global ∈ w.chain carry) (hx : w.resolve carry x ≠ none) :
    (s.enterBody merge w).2.2.resolve (s.enterBody merge w).1 x =
      some (mergedVersion merge x
        [w.ReadValue (some carry) x, w.ReadValue (some s.global) x]) := by
  have hcarry : carry < w.scopes.length :=
    chain_mem_exists w carry carry (chain_self w carry s.global hdesc)
  have hg : s.global < w.scopes.length := chain_mem_exists w carry s.global hdesc
  unfold SwitchStmt.enterBody
  simp only [hc, CreateSubScope_fst]
  have hm := Merge_resolve (w.CreateSubScope s.global).2 w.scopes.length true merge
    [some carry] x
  have hcand : (w.CreateSubScope s.global).2.candidates w.scopes.length true [some carry] x =
      [w.ReadValue (some carry) x, w.ReadValue (some s.global) x] :=
    candidates_after_create w s.global true [carry] x hg
      (fun b hb => by rw [List.mem_singleton.1 hb]; exact hcarry)
  by_cases hmem : x ∈ (w.CreateSubScope s.global).2.mergeNames w.scopes.length [some carry]
  · have hlen : w.scopes.length < (w.CreateSubScope s.global).2.scopes.length := by
      rw [CreateSubScope_length]; exact Nat.lt_succ_self _
    rw [hm.1 hmem hlen, hcand]
  · have hres := untouched_after_create w s.global carry x hdesc
      (fun ht => hmem ((mergeNames_single _ _ _ _).2 ht))
    rw [hm.2 hmem, CreateSubScope_resolve_new w s.global x hg, ← hres]
    have hrv : w.ReadValue (some carry) x = w.ReadValue (some s.global) x :=
      ReadValue_of_resolve w carry s.global x hres
    rw [← hrv, (mergedVersion_pair merge x _ _).1 rfl]
    cases hr : w.resolve carry x with
    | none => exact absurd hr hx
    | some v => simp [World.ReadValue, hr]

theorem enterBody_handled (s : SwitchStmt) (merge : MergeHandle) (w : World) (carry : ScopeId)
    (x : String) (hc : s.mergeToNextBody = some carry)
    (hdesc : s.global ∈ w.chain carry)
    (hne : w.ReadValue (some carry) x ≠ w.ReadValue (some s.global) x) :
    HandlerCall.merge x [w.ReadValue (some carry) x, w.ReadValue (some s.global) x] ∈
      (s.enterBody merge w).2.2.handled := by
  have hcarry : carry < w.scopes.length :=
    chain_mem_exists w carry carry (chain_self w carry s.global hdesc)
  have hg : s.global < w.scopes.length := chain_mem_exists w carry s.global hdesc
  have hcand : (w.CreateSubScope s.global).2.candidates w.scopes.length true [some carry] x =
      [w.ReadValue (some carry) x, w.ReadValue (some s.global) x] :=
    candidates_after_create w s.global true [carry] x hg
      (fun b hb => by rw [List.mem_singleton.1 hb]; exact hcarry)
  have hmem : x ∈ (w.CreateSubScope s.global).2.mergeNames w.scopes.length [some carry] := by
    by_contra hmem
    exact hne (ReadValue_of_resolve w carry s.global x
      (untouched_after_create w s.global carry x hdesc
        (fun ht => hmem ((mergeNames_single _ _ _ _).2 ht))))
  unfold SwitchStmt.enterBody
  simp only [hc, CreateSubScope_fst]
  rw [Merge_handled]
  apply List.mem_append_right
  rw [List.mem_flatMap]
  refine ⟨x, hmem, ?_⟩
  rw [hcand, ((mergedVersion_pair merge x _ _).2 hne).2]
  exact List.mem_singleton.2 rfl

/-- C17, as stated, fails on its last clause: with `AutoBreak` false, a case
that binds version 5 of `x` in its case scope and returns a child of it
leaves that child, which reads 5, as the carry; the scope handed to the body
of the next case reads for `x` the phi 106 that the merge handler returns for
the candidates 5 and 1 (the version of the global scope), not 5. -/
theorem fallthrough_binding_counterexample :
    ((NewSwitchStmt 0 false).BuildBody exampleCaseNested exampleMerge
        exampleWorld).1.mergeToNextBody = some 4 ∧
    ((NewSwitchStmt 0 false).BuildBody exampleCaseNested exampleMerge
        exampleWorld).2.ReadValue (some 4) "x" = 5 ∧
    ((((NewSwitchStmt 0 false).BuildBody exampleCaseNested exampleMerge exampleWorld).1.enterBody
        exampleMerge
        ((NewSwitchStmt 0 false).BuildBody exampleCaseNested exampleMerge
          exampleWorld).2).2.2.ReadValue (some 5) "x" = 106) ∧
    ((((NewSwitchStmt 0 false).BuildBody exampleCaseNested exampleMerge exampleWorld).1.enterBody
        exampleMerge
        ((NewSwitchStmt 0 false).BuildBody exampleCaseNested exampleMerge
          exampleWorld).2).2.2.handled = [HandlerCall.merge "x" [5, 1]]) := by
  decide

/-- C17, amended: with `AutoBreak` false, when the body of a case returns the
scope `rs` and `rs` is not the last scope of the switch-end merge set once the
body has run (the most recent `Break` target), `BuildBody` leaves `rs` as the
carry. The next `BuildBody`, on any world `w2`, then creates the case scope as
a new child of the global scope, performs `Merge(true, merge2, rs)` on it,
clears the carry, and only then runs its body, on that scope and that world.
When `rs` is below the global scope in `w2`, every name that `rs` reads
resolves in the scope handed to the body: to the version `rs` reads when the
global scope reads the same one, and otherwise to the phi the merge handler
returns for the version of `rs` and the version of the global scope, in this
order, the handler being invoked for it. -/
theorem BuildBody_fallthrough_carry (s : SwitchStmt) (body : ScopeId → World → BodyResult)
    (merge : MergeHandle) (w : World) (rs : ScopeId)
    (hauto : s.AutoBreak = false)
    (hret : (body (s.enterBody merge w).1 (s.enterBody merge w).2.2).ret = some rs)
    (hlast : (s.mergeToSwitchEnd ++
        (breaks (body (s.enterBody merge w).1 (s.enterBody merge w).2.2).jumps).map some).getLast? ≠
          some (some rs)) :
    (s.BuildBody body merge w).1.mergeToNextBody = some rs ∧
    ∀ (body2 : ScopeId → World → BodyResult) (merge2 : MergeHandle) (w2 : World),
      ((s.BuildBody body merge w).1.enterBody merge2 w2).1 = w2.scopes.length ∧
      ((s.BuildBody body merge w).1.enterBody merge2 w2).2.2.ops =
        w2.ops ++ [ScopeOp.createSubScope s.global w2.scopes.length,
                   ScopeOp.merge w2.scopes.length true merge2 [some rs]] ∧
      ((s.BuildBody body merge w).1.enterBody merge2 w2).2.1.mergeToNextBody = none ∧
      ((s.BuildBody body merge w).1.BuildBody body2 merge2 w2).2 =
        (body2 w2.scopes.length
          ((s.BuildBody body merge w).1.enterBody merge2 w2).2.2).world ∧
      (s.global ∈ w2.chain rs →
        ∀ x, w2.resolve rs x ≠ none →
          (w2.ReadValue (some rs) x = w2.ReadValue (some s.global) x →
            ((s.BuildBody body merge w).1.enterBody merge2 w2).2.2.resolve w2.scopes.length x =
              some (w2.ReadValue (some rs) x)) ∧
          (w2.ReadValue (some rs) x ≠ w2.ReadValue (some s.global) x →
            ((s.BuildBody body merge w).1.enterBody merge2 w2).2.2.resolve w2.scopes.length x =
              some (merge2 x [w2.ReadValue (some rs) x, w2.ReadValue (some s.global) x]) ∧
            HandlerCall.merge x [w2.ReadValue (some rs) x, w2.ReadValue (some s.global) x] ∈
              ((s.BuildBody body merge w).1.enterBody merge2 w2).2.2.handled)) := by
  obtain ⟨-, -, he, hg, -⟩ := enterBody_stmt s merge w
  obtain ⟨h1, -, h3, -⟩ := switch_jumps
    (body (s.enterBody merge w).1 (s.enterBody merge w).2.2).jumps (s.enterBody merge w).2.1
  rw [he] at h1
  have hb : (s.BuildBody body merge w).1 =
      { (body (s.enterBody merge w).1 (s.enterBody merge w).2.2).jumps.foldl SwitchStmt.jump
          (s.enterBody merge w).2.1 with mergeToNextBody := some rs } := by
    unfold SwitchStmt.BuildBody
    simp only [hauto, Bool.false_eq_true, if_false]
    rw [if_pos (Or.inr (by rw [h1, hret]; exact hlast)), hret]
  have hcarry : (s.BuildBody body merge w).1.mergeToNextBody = some rs := by rw [hb]
  have hglob : (s.BuildBody body merge w).1.global = s.global := by
    rw [hb]; exact h3.trans hg
  refine ⟨hcarry, ?_⟩
  intro body2 merge2 w2
  obtain ⟨e1, e2, -, -, -⟩ := enterBody_stmt (s.BuildBody body merge w).1 merge2 w2
  refine ⟨e1, ?_, e2, ?_, ?_⟩
  · rw [enterBody_carry _ merge2 w2 rs hcarry, hglob]
  · rw [← e1]
    unfold SwitchStmt.BuildBody
    dsimp only
    split_ifs <;> rfl
  · intro hdesc x hx
    have hdesc2 : (s.BuildBody body merge w).1.global ∈ w2.chain rs := by rw [hglob]; exact hdesc
    have hres := enterBody_resolve (s.BuildBody body merge w).1 merge2 w2 rs x hcarry hdesc2 hx
    rw [e1, hglob] at hres
    constructor
    · intro heq
      rw [hres, (mergedVersion_pair merge2 x _ _).1 heq]
    · intro hne
      refine ⟨by rw [hres, ((mergedVersion_pair merge2 x _ _).2 hne).1], ?_⟩
      have hh := enterBody_handled (s.BuildBody body merge w).1 merge2 w2 rs x hcarry hdesc2
        (by rw [hglob]; exact hne)
      rw [hglob] at hh
      exact hh

/-- C21: `Build` returns a new child of the global scope. When a finally scope
exists the only scope operation on it is `CoverBy` of the finally end scope,
and no handler is invoked; when none exists the only operation is
`Merge(false, mergeHandler, tryBody, cacheBody)`. -/
theorem TryStmt_Build_operations (t : TryStmt) (w : World) :
    (t.Build w).1 = w.scopes.length ∧
    (((t.Build w).2.scopes[w.scopes.length]?).map ScopeRec.parent = some (some t.global)) ∧
    (∀ f, t.finalBody = some f →
      (t.Build w).2.ops =
        w.ops ++ [ScopeOp.createSubScope t.global w.scopes.length,
                  ScopeOp.coverBy w.scopes.length (some f)] ∧
      (t.Build w).2.handled = w.handled) ∧
    (t.finalBody = none →
      (t.Build w).2.ops =
        w.ops ++ [ScopeOp.createSubScope t.global w.scopes.length,
                  ScopeOp.merge w.scopes.length false t.mergeHandler
                    [t.tryBody, t.cacheBody]]) := by
  refine ⟨?_, ?_, ?_, ?_⟩
  · unfold TryStmt.Build
    cases t.finalBody <;> rfl
  · unfold TryStmt.Build
    cases t.finalBody with
    | none =>
      simp only [CreateSubScope_fst]
      rw [Merge_parent]
      exact CreateSubScope_parent w t.global
    | some f =>
      simp only [CreateSubScope_fst]
      rw [CoverBy_parent]
      exact CreateSubScope_parent w t.global
  · intro f hf
    unfold TryStmt.Build
    rw [hf]
    simp only [CreateSubScope_fst]
    rw [CoverBy_ops, CoverBy_handled, CreateSubScope_ops]
    exact ⟨by simp, rfl⟩
  · intro hf
    unfold TryStmt.Build
    rw [hf]
    simp only [CreateSubScope_fst]
    rw [Merge_ops, CreateSubScope_ops]
    simp

theorem fold_bind_resolve_none (s : ScopeId) (val : String → Version)
    (f : World → String → World)
    (hf : ∀ acc n, (f acc n).scopes = (acc.bind s n (val n)).scopes)
    (names : List String) (acc : World) (x : String) (hs : acc.scopes[s]? = none) :
    (names.foldl f acc).resolve s x = none := by
  rw [resolve_unfold, (fold_bind s val f hf names acc).2.1 hs]

theorem Merge_resolve_none (w : World) (s : ScopeId) (hasBase : Bool) (handler : MergeHandle)
    (branches : List Scope) (x : String) (hs : w.scopes[s]? = none) :
    (w.Merge s hasBase handler branches).resolve s x = none :=
  fold_bind_resolve_none s
    (fun n => mergedVersion handler n (w.candidates s hasBase branches n))
    (fun acc name =>
      { acc.bind s name (mergedVersion handler name (w.candidates s hasBase branches name)) with
        handled := acc.handled ++ mergeCall name (w.candidates s hasBase branches name) })
    (fun _ _ => rfl) (w.mergeNames s branches)
    { w with ops := w.ops ++ [ScopeOp.merge s hasBase handler branches] } x hs

theorem CoverBy_resolve (w : World) (s : ScopeId) (other : Scope) (x : String) :
    (x ∈ w.touched s other → s < w.scopes.length →
      (w.CoverBy s other).resolve s x = some (w.ReadValue other x)) ∧
    (x ∉ w.touched s other → (w.CoverBy s other).resolve s x = w.resolve s x) ∧
    (w.scopes[s]? = none → (w.CoverBy s other).resolve s x = none) := by
  have h := fold_bind_resolve s (fun n => w.ReadValue other n)
    (fun acc name => acc.bind s name (w.ReadValue other name)) (fun _ _ => rfl)
    (w.touched s other) { w with ops := w.ops ++ [ScopeOp.coverBy s other] } x
  refine ⟨fun hx hs => h.1 hx hs,
    fun hx => (h.2 hx).trans (resolve_congr _ _ x s (fun _ _ => rfl)), ?_⟩
  intro hs
  exact fold_bind_resolve_none s (fun n => w.ReadValue other n)
    (fun acc name => acc.bind s name (w.ReadValue other name)) (fun _ _ => rfl)
    (w.touched s other) { w with ops := w.ops ++ [ScopeOp.coverBy s other] } x hs

theorem mergedVersion_same (handler : MergeHandle) (name : String) (cands : List Version)
    (a : Version) (h : ∀ v ∈ cands, v = a) (hne : cands ≠ []) :
    mergedVersion handler name cands = a ∧ mergeCall name cands = [] := by
  have hs := allSame_of_forall cands a h
  unfold mergedVersion mergeCall
  rw [if_pos hs.1, if_pos hs.1]
  exact ⟨hs.2 hne, rfl⟩

/-- A `Merge` of the single branch `b` whose candidates agree for every name
`b` defines resolves every name as `CoverBy(b)` does and invokes no handler. -/
theorem Merge_single_agree (w : World) (s : ScopeId) (hasBase : Bool) (handler : MergeHandle)
    (b : Scope)
    (hag : ∀ n ∈ w.touched s b, ∀ v ∈ w.candidates s hasBase [b] n, v = w.ReadValue b n) :
    (∀ x, (w.Merge s hasBase handler [b]).resolve s x = (w.CoverBy s b).resolve s x) ∧
    (w.Merge s hasBase handler [b]).handled = w.handled := by
  have hne : ∀ n, w.candidates s hasBase [b] n ≠ [] := by
    intro n
    unfold World.candidates
    simp
  constructor
  · intro x
    have hm := Merge_resolve w s hasBase handler [b] x
    have hc := CoverBy_resolve w s b x
    by_cases hs : s < w.scopes.length
    · by_cases hx : x ∈ w.touched s b
      · rw [hm.1 ((mergeNames_single w s b x).2 hx) hs, hc.1 hx hs,
          (mergedVersion_same handler x _ _ (hag x hx) (hne x)).1]
      · rw [hm.2 (fun h => hx ((mergeNames_single w s b x).1 h)), hc.2.1 hx]
    · have hnone : w.scopes[s]? = none := List.getElem?_eq_none (Nat.le_of_not_lt hs)
      rw [Merge_resolve_none w s hasBase handler [b] x hnone, hc.2.2 hnone]
  · rw [Merge_handled]
    have hall : ∀ n ∈ w.mergeNames s [b], mergeCall n (w.candidates s hasBase [b] n) = [] := by
      intro n hn
      exact (mergedVersion_same handler n _ _ (hag n ((mergeNames_single w s b n).1 hn)) (hne n)).2
    have hnil : (w.mergeNames s [b]).flatMap
        (fun name => mergeCall name (w.candidates s hasBase [b] name)) = [] := by
      rw [List.flatMap_eq_nil_iff]
      exact hall
    rw [hnil, List.append_nil]

/-- C22, as stated, fails with `hasBase` true. In a new child of the global
scope, which reads version 1 of `x` through its parent, `Merge(true, handler,
b)` of the branch `b` that binds version 2 invokes the handler with the
candidates 2 and 1 and binds its phi 103, where `CoverBy(b)` binds version 2
and invokes nothing. On `try { a = 1; a1 = 1 } catch err { a = 2 }` the merge
of `SetCache` hands the handler the version 1 of `a1` with the zero version of
the base, so that the version of `a1` after the statement is a phi over a
name that was never defined; had it covered the catch scope by the try scope,
`a1` would read 1 after the statement and no handler would be invoked for
it. -/
theorem Merge_one_branch_counterexample :
    (exampleChild.Merge 3 true exampleMerge [some 1]).ReadValue (some 3) "x" = 103 ∧
    (exampleChild.CoverBy 3 (some 1)).ReadValue (some 3) "x" = 2 ∧
    (exampleChild.Merge 3 true exampleMerge [some 1]).handled = [HandlerCall.merge "x" [2, 1]] ∧
    (exampleChild.CoverBy 3 (some 1)).handled = [] ∧
    exampleTryCatchEnd.2.handled.filter (HandlerCall.isMergeOf "a1") =
      [HandlerCall.merge "a1" [1, 0], HandlerCall.merge "a1" [1, 101]] ∧
    exampleTryCatchEnd.2.ReadValue (some exampleTryCatchEnd.1) "a1" = 202 ∧
    exampleTryCatchCovered.2.handled.filter (HandlerCall.isMergeOf "a1") = [] ∧
    exampleTryCatchCovered.2.ReadValue (some exampleTryCatchCovered.1) "a1" = 1 := by
  decide

/-- C22, amended: `Merge(false, handler, b)` with the single branch `b`
resolves every name in the merging scope as `CoverBy(b)` does and invokes no
handler. `Merge(true, handler, b)` does so when every name `b` touches has in
`b` the version the merging scope reads; for a name whose two versions differ
it invokes the handler with the version of `b` and the version of the merging
scope, in this order. -/
theorem Merge_one_branch (w : World) (s : ScopeId) (handler : MergeHandle) (b : Scope) :
    ((∀ x, (w.Merge s false handler [b]).resolve s x = (w.CoverBy s b).resolve s x) ∧
      (w.Merge s false handler [b]).handled = w.handled) ∧
    ((∀ n ∈ w.touched s b, w.ReadValue (some s) n = w.ReadValue b n) →
      (∀ x, (w.Merge s true handler [b]).resolve s x = (w.CoverBy s b).resolve s x) ∧
      (w.Merge s true handler [b]).handled = w.handled) ∧
    (∀ n ∈ w.touched s b, w.ReadValue (some s) n ≠ w.ReadValue b n →
      HandlerCall.merge n [w.ReadValue b n, w.ReadValue (some s) n] ∈
        (w.Merge s true handler [b]).handled) := by
  refine ⟨?_, ?_, ?_⟩
  · apply Merge_single_agree
    intro n _ v hv
    simpa [World.candidates] using hv
  · intro hag
    apply Merge_single_agree
    intro n hn v hv
    have hv2 : v = w.ReadValue b n ∨ v = w.ReadValue (some s) n := by
      simpa [World.candidates] using hv
    cases hv2 with
    | inl h => exact h
    | inr h => rw [h]; exact hag n hn
  · intro n hn hne
    rw [Merge_handled]
    apply List.mem_append_right
    rw [List.mem_flatMap]
    refine ⟨n, (mergeNames_single w s b n).2 hn, ?_⟩
    have hc : w.candidates s true [b] n = [w.ReadValue b n, w.ReadValue (some s) n] := by
      simp [World.candidates]
    rw [hc]
    unfold mergeCall
    have hns : allSame [w.ReadValue b n, w.ReadValue (some s) n] = false := by
      simp [allSame, hne]
    rw [hns]
    simp

theorem reduceOption_of_all_none :
    ∀ (l : List Scope), (∀ e ∈ l, e = none) → l.reduceOption = []
  | [], _ => rfl
  | none :: l, h => by
    rw [List.reduceOption_cons_of_none]
    exact reduceOption_of_all_none l (fun e he => h e (List.mem_cons_of_mem _ he))
  | some a :: _, h => by
    have := h (some a) (List.mem_cons_self _ _)
    cases this

theorem CreateSubScope_resolve_child (w : World) (parent : ScopeId) (x : String) :
    (w.CreateSubScope parent).2.resolve w.scopes.length x = w.resolve parent x := by
  by_cases hp : parent < w.scopes.length
  · exact CreateSubScope_resolve_new w parent x hp
  · rw [resolve_unfold]
    have hnew : (w.CreateSubScope parent).2.scopes[w.scopes.length]? =
        some { parent := some parent, bindings := [], placeholders := [], spin := none } := by
      simp [World.CreateSubScope]
    rw [hnew]
    simp only [List.lookup, if_neg hp]
    rw [resolve_unfold, List.getElem?_eq_none (Nat.le_of_not_lt hp)]

theorem Merge_no_branch (w : World) (s : ScopeId) (hasBase : Bool) (handler : MergeHandle) :
    w.Merge s hasBase handler [] =
      { w with ops := w.ops ++ [ScopeOp.merge s hasBase handler []] } := rfl

/-- C23: when an if statement is built from the global scope `g` by `BuildItem`
calls and a `BuildElse` whose bodies all return the nil scope, no body scope
is recorded, and `BuildFinish(h)` creates the end scope as a child of `g` and
performs on it one `Merge` with `hasBase` false and no branch: no handler is
invoked, and the end scope it returns resolves every name as `g` does. -/
theorem BuildFinish_all_branches_terminate (g : ScopeId)
    (items : List ((ScopeId → World → World) × (ScopeId → World → Scope × World)))
    (elseBody : ScopeId → World → Scope × World) (w : World) (r : IfRun)
    (hrun : IfRun.run (ifCalls items (some elseBody)) ⟨NewIfStmt g, w, []⟩ = Except.ok r)
    (hends : ∀ e ∈ r.ends, e = none) :
    r.stmt.BodyScopes = [] ∧
    ∀ h : MergeHandle,
      (r.stmt.BuildFinish h r.world).1 = r.world.scopes.length ∧
      (r.stmt.BuildFinish h r.world).2.ops =
        r.world.ops ++ [ScopeOp.createSubScope g r.world.scopes.length,
                        ScopeOp.merge r.world.scopes.length false h []] ∧
      (r.stmt.BuildFinish h r.world).2.handled = r.world.handled ∧
      ∀ x, (r.stmt.BuildFinish h r.world).2.resolve (r.stmt.BuildFinish h r.world).1 x =
        r.world.resolve g x := by
  obtain ⟨r1, hr1, hg1, he1, hb1, -⟩ :=
    ifRun_items (some elseBody) items ⟨NewIfStmt g, w, []⟩ rfl rfl
  have hrr : r1 = r := Except.ok.inj (hr1.symm.trans hrun)
  subst hrr
  have hglob : r1.stmt.global = g := hg1
  have hbody : r1.stmt.BodyScopes = [] := by
    rw [hb1]; exact reduceOption_of_all_none r1.ends hends
  have hfin : ∀ h : MergeHandle, r1.stmt.BuildFinish h r1.world =
      (r1.world.scopes.length,
        { (r1.world.CreateSubScope g).2 with
          ops := (r1.world.CreateSubScope g).2.ops ++
            [ScopeOp.merge r1.world.scopes.length false h []] }) := by
    intro h
    unfold IfStmt.BuildFinish
    simp only [CreateSubScope_fst]
    rw [hbody, hglob, he1]
    rfl
  refine ⟨hbody, ?_⟩
  intro h
  rw [hfin h]
  refine ⟨rfl, ?_, rfl, ?_⟩
  · simp [CreateSubScope_ops]
  · intro x
    exact (resolve_congr _ (r1.world.CreateSubScope g).2 x _ (fun _ _ => rfl)).trans
      (CreateSubScope_resolve_child r1.world g x)

theorem BuildFinish_all_branches_terminate_witness :
    IfRun.run (ifCalls [(exampleCondition, exampleReturn)] (some exampleReturn))
        ⟨NewIfStmt 0, exampleGlobal, []⟩ = Except.ok exampleReturnRun ∧
      exampleReturnRun.ends = [none, none] ∧
      exampleReturnRun.stmt.BodyScopes = [] :=
  ⟨rfl, rfl,
    (BuildFinish_all_branches_terminate 0 [(exampleCondition, exampleReturn)] exampleReturn
      exampleGlobal exampleReturnRun rfl (by decide)).1⟩

/-- C26, as stated, fails: on a try statement for which `CreateCatch` was never
called, the catch scope is nil, and both `Build` without a finally scope and
`SetFinal` after `CreateFinally` hand the nil scope to `Merge` as the second
branch. -/
theorem TryStmt_nil_catch_counterexample :
    exampleTry.1.cacheBody = none ∧
    ((exampleTry.1.Build exampleTry.2).2.ops.flatMap ScopeOp.mergeBranches) = [some 1, none] ∧
    (match (exampleTry.1.CreateFinally exampleTry.2).2.1.SetFinal
        (fun w => (some 2, w)) (exampleTry.1.CreateFinally exampleTry.2).2.2 with
      | Except.ok r => r.2.ops.flatMap ScopeOp.mergeBranches
      | Except.error _ => []) = [some 1, none] := by
  decide

/-- C26, amended: the two branches `SetFinal` and `Build` without a finally
scope hand to `Merge` are the try scope and the catch scope of the statement,
in this order. A new statement has both nil; the try scope is what the body of
`SetTryBody` returned; the catch scope is the scope `CreateCatch` created and,
after `SetCache`, what the catch builder returned; no other call changes
them. -/
theorem TryStmt_merge_branches (t : TryStmt) (w : World) :
    (∀ g h, (NewTryStmt g h).tryBody = none ∧ (NewTryStmt g h).cacheBody = none) ∧
    (∀ body : ScopeId → World → Scope × World,
      (t.SetTryBody body w).1.tryBody = (body w.scopes.length (w.CreateSubScope t.global).2).1 ∧
      (t.SetTryBody body w).1.cacheBody = t.cacheBody) ∧
    (∀ name, (t.SetError name).tryBody = t.tryBody ∧ (t.SetError name).cacheBody = t.cacheBody) ∧
    ((t.CreateCatch w).2.1.tryBody = t.tryBody ∧
      (t.CreateCatch w).2.1.cacheBody = some w.scopes.length) ∧
    (∀ (build : World → Scope × World) (c : ScopeId), t.cacheBody = some c →
      ∃ w2 r, t.SetCache build w = Except.ok r ∧ r.1.tryBody = t.tryBody ∧
        r.1.cacheBody = (build w2).1) ∧
    ((t.CreateFinally w).2.1.tryBody = t.tryBody ∧
      (t.CreateFinally w).2.1.cacheBody = t.cacheBody) ∧
    (∀ (build : World → Scope × World) (f : ScopeId), t.finalBody = some f →
      ∃ w1 : World,
        w1.ops = w.ops ++ [ScopeOp.merge f false t.mergeHandler [t.tryBody, t.cacheBody]] ∧
        t.SetFinal build w = Except.ok ({ t with finalBody := (build w1).1 }, (build w1).2)) ∧
    (t.finalBody = none →
      (t.Build w).2.ops.flatMap ScopeOp.mergeBranches =
        w.ops.flatMap ScopeOp.mergeBranches ++ [t.tryBody, t.cacheBody]) := by
  refine ⟨fun _ _ => ⟨rfl, rfl⟩, fun _ => ⟨rfl, rfl⟩, fun _ => ⟨rfl, rfl⟩, ⟨rfl, rfl⟩, ?_,
    ⟨rfl, rfl⟩, ?_, ?_⟩
  · intro build c hc
    refine ⟨(w.Merge c true t.mergeHandler [t.tryBody]).CreateVariable c t.ErrorName true,
      ({ t with cacheBody := (build ((w.Merge c true t.mergeHandler
          [t.tryBody]).CreateVariable c t.ErrorName true)).1 },
        (build ((w.Merge c true t.mergeHandler [t.tryBody]).CreateVariable c
          t.ErrorName true)).2), ?_, rfl, rfl⟩
    unfold TryStmt.SetCache
    rw [hc]
  · intro build f hf
    refine ⟨w.Merge f false t.mergeHandler [t.tryBody, t.cacheBody], Merge_ops _ _ _ _ _, ?_⟩
    unfold TryStmt.SetFinal
    rw [hf]
  · intro hf
    unfold TryStmt.Build
    rw [hf]
    simp only [CreateSubScope_fst]
    rw [Merge_ops, CreateSubScope_ops]
    simp [ScopeOp.mergeBranches]

theorem BuildFinish_candidate_count_witness :
    IfRun.run
        (ifCalls [(exampleCondition, exampleAssignNested 2),
          (exampleCondition, exampleAssignNested 3)] none)
        ⟨NewIfStmt 0, exampleGlobal, []⟩ = Except.ok exampleNestedRun ∧
      exampleNestedRun.stmt.BodyScopes = [3, 6] ∧
      exampleNestedRun.world.localNames (some 3) = [] ∧
      ∃ cands delta, cands = [2, 3, 1] ∧ cands.length = 2 + 0 + 1 ∧
        (exampleNestedRun.stmt.BuildFinish exampleMerge exampleNestedRun.world).2.handled =
          exampleNestedRun.world.handled ++ delta ∧
        delta.filter (HandlerCall.isMergeOf "x") = [HandlerCall.merge "x" cands] :=
  ⟨rfl, rfl, rfl,
    match BuildFinish_candidate_count 0
        [(exampleCondition, exampleAssignNested 2), (exampleCondition, exampleAssignNested 3)]
        none exampleGlobal exampleNestedRun "x" exampleMerge rfl (by simp) (by decide)
        (by decide) (by decide) with
    | ⟨cands, delta, hc, hl, hh, hf, _⟩ => ⟨cands, delta, hc.trans (by decide), hl, hh, hf⟩⟩

theorem BuildFinish_keeps_untouched_name_witness :
    exampleIf.global < exampleWorld.scopes.length ∧
      (∀ b ∈ exampleIf.BodyScopes,
        exampleWorld.ReadValue (some b) "y" = exampleWorld.ReadValue (some exampleIf.global) "y") ∧
      (exampleIf.BuildFinish exampleMerge exampleWorld).2.ReadValue
          (some (exampleIf.BuildFinish exampleMerge exampleWorld).1) "y" =
        exampleWorld.ReadValue (some exampleIf.global) "y" :=
  ⟨by decide, by decide,
    (BuildFinish_keeps_untouched_name exampleIf exampleMerge exampleWorld "y"
      (by decide) (by decide) (by decide)).1⟩

theorem LoopStmt_Build_order_witness :
    exampleLoop.body = some 5 ∧
      ∃ e w9, exampleLoop.Build exampleSpin exampleMerge exampleMerge exampleLoopWorld =
        Except.ok (e, w9) :=
  ⟨rfl,
    match LoopStmt_Build_order exampleLoop 5 rfl exampleSpin exampleMerge exampleMerge
        exampleLoopWorld with
    | ⟨_, w3, w9, _, _, hb, _⟩ => ⟨w3.scopes.length, w9, hb⟩⟩

theorem BuildBody_fallthrough_carry_witness :
    (NewSwitchStmt 0 false).AutoBreak = false ∧
      ((NewSwitchStmt 0 false).BuildBody exampleCaseNested exampleMerge
        exampleWorld).1.mergeToNextBody = some 4 ∧
      ((((NewSwitchStmt 0 false).BuildBody exampleCaseNested exampleMerge
          exampleWorld).1.enterBody exampleMerge
          ((NewSwitchStmt 0 false).BuildBody exampleCaseNested exampleMerge
            exampleWorld).2).2.2.resolve 5 "x" = some 106) ∧
      ((((NewSwitchStmt 0 false).BuildBody exampleCaseNested exampleMerge
          exampleWorld).1.enterBody exampleMerge
          ((NewSwitchStmt 0 false).BuildBody exampleCaseNested exampleMerge
            exampleWorld).2).2.2.resolve 5 "y" = some 7) :=
  ⟨rfl,
    (BuildBody_fallthrough_carry (NewSwitchStmt 0 false) exampleCaseNested exampleMerge
      exampleWorld 4 rfl rfl (by decide)).1,
    (((((BuildBody_fallthrough_carry (NewSwitchStmt 0 false) exampleCaseNested exampleMerge
      exampleWorld 4 rfl rfl (by decide)).2 exampleCase exampleMerge
        ((NewSwitchStmt 0 false).BuildBody exampleCaseNested exampleMerge
          exampleWorld).2).2.2.2.2 (by decide) "x" (by decide)).2 (by decide)).1.trans
            (by decide)),
    (((((BuildBody_fallthrough_carry (NewSwitchStmt 0 false) exampleCaseNested exampleMerge
      exampleWorld 4 rfl rfl (by decide)).2 exampleCase exampleMerge
        ((NewSwitchStmt 0 false).BuildBody exampleCaseNested exampleMerge
          exampleWorld).2).2.2.2.2 (by decide) "y" (by decide)).1 (by decide)).trans
            (by decide))⟩

theorem BuildBody_autoBreak_witness :
    (NewSwitchStmt 0 true).AutoBreak = true ∧
      ((NewSwitchStmt 0 true).BuildBody exampleCase exampleMerge exampleWorld).1.mergeToSwitchEnd =
        [some 3] ∧
      ((NewSwitchStmt 0 true).BuildBody exampleCase exampleMerge exampleWorld).1.mergeToNextBody =
        none :=
  ⟨rfl,
    (BuildBody_autoBreak (NewSwitchStmt 0 true) rfl exampleCase exampleMerge exampleWorld).1
      (fun _ h => nomatch h)⟩

end Ssautil

namespace Sfvm

/-- C29: `ValueList.GetSyntaxFlowBottomUse` ignores its configuration: for
every list its result under any `config` is its result under the empty one.
On the list of two elements that yield the number of items they were given,
with one item, it yields 0 and 0 where `GetSyntaxFlowTopDef` yields 1 and 1,
the in-order results of the elements under the item. -/
theorem ValueList_BottomUse_drops_config :
    (∀ (ρ : Type) (v : ValueList ρ) (config : List ConfigItem),
      v.GetSyntaxFlowBottomUse config = v.GetSyntaxFlowBottomUse []) ∧
    (ValueList.mk [countingOperator, countingOperator]).GetSyntaxFlowBottomUse [depthItem] =
      Except.ok [0, 0] ∧
    collectResults (fun e => e.GetSyntaxFlowBottomUse [depthItem])
      [countingOperator, countingOperator] [] = Except.ok [1, 1] ∧
    (ValueList.mk [countingOperator, countingOperator]).GetSyntaxFlowTopDef [depthItem] =
      Except.ok [1, 1] :=
  ⟨fun _ _ _ => rfl, rfl, rfl, rfl⟩

end Sfvm
